import Mathlib

/-!
Verification of the reduct-py batch wire codec and query cursor.

Python strings are modelled as lists of Unicode code points (`PyStr`),
bytes as natural numbers below 256, Python `dict`s as association lists
(label maps are kept in canonical key-sorted form, so Python dict
equality coincides with list equality).  Fallible Python code returns
`Option` or `Except String`.
-/

namespace Reduct

/-- A Python `str`: a list of Unicode code points. -/
abbrev PyStr := List Nat

/-- Build a `PyStr` from a Lean string literal. -/
def strLit (s : String) : PyStr := s.data.map Char.toNat

/-- A valid Unicode scalar value (what a Python `str` code point that can be
UTF-8 encoded must be): below the surrogate range or between it and 0x110000. -/
def ValidScalar (c : Nat) : Prop := c < 0xD800 ∨ (0xE000 ≤ c ∧ c < 0x110000)

instance (c : Nat) : Decidable (ValidScalar c) :=
  inferInstanceAs (Decidable (c < 0xD800 ∨ (0xE000 ≤ c ∧ c < 0x110000)))

/-- UTF-8 encoding of one scalar value, as produced by Python `str.encode()`. -/
def utf8EncodeChar (c : Nat) : List Nat :=
  if c < 0x80 then [c]
  else if c < 0x800 then [0xC0 + c / 64, 0x80 + c % 64]
  else if c < 0x10000 then
    [0xE0 + c / 4096, 0x80 + (c / 64) % 64, 0x80 + c % 64]
  else
    [0xF0 + c / 262144, 0x80 + (c / 4096) % 64, 0x80 + (c / 64) % 64, 0x80 + c % 64]

/-- UTF-8 encoding of a whole string (`str.encode()`). -/
def utf8Encode (s : PyStr) : List Nat := s.flatMap utf8EncodeChar

/-- A UTF-8 continuation byte. -/
def isCont (b : Nat) : Prop := 0x80 ≤ b ∧ b ≤ 0xBF

instance (b : Nat) : Decidable (isCont b) :=
  inferInstanceAs (Decidable (0x80 ≤ b ∧ b ≤ 0xBF))

/-- Valid second byte of a three-byte sequence given its first byte: excludes
overlong encodings (first byte 0xE0) and surrogates (first byte 0xED). -/
def cont2OK (b b2 : Nat) : Prop :=
  (b = 0xE0 ∧ 0xA0 ≤ b2 ∧ b2 ≤ 0xBF) ∨
  (b = 0xED ∧ 0x80 ≤ b2 ∧ b2 ≤ 0x9F) ∨
  (b ≠ 0xE0 ∧ b ≠ 0xED ∧ isCont b2)

instance (b b2 : Nat) : Decidable (cont2OK b b2) :=
  inferInstanceAs (Decidable (_ ∨ _ ∨ _))

/-- Valid second byte of a four-byte sequence given its first byte: excludes
overlong encodings (first byte 0xF0) and values above 0x10FFFF (0xF4). -/
def cont3OK (b b2 : Nat) : Prop :=
  (b = 0xF0 ∧ 0x90 ≤ b2 ∧ b2 ≤ 0xBF) ∨
  (b = 0xF4 ∧ 0x80 ≤ b2 ∧ b2 ≤ 0x8F) ∨
  (b ≠ 0xF0 ∧ b ≠ 0xF4 ∧ isCont b2)

instance (b b2 : Nat) : Decidable (cont3OK b b2) :=
  inferInstanceAs (Decidable (_ ∨ _ ∨ _))

/-- Strict UTF-8 decoding of one scalar from a first byte and the remaining
bytes: rejects overlong forms, surrogates and scalars above 0x10FFFF (Python
`bytes.decode("utf-8")` acceptance).  Returns the scalar and unconsumed bytes. -/
def utf8DecodeOne (b : Nat) (rest : List Nat) : Option (Nat × List Nat) :=
  if b < 0x80 then some (b, rest)
  else if 0xC2 ≤ b ∧ b ≤ 0xDF then
    match rest with
    | b2 :: r =>
      if isCont b2 then some ((b - 0xC0) * 64 + (b2 - 0x80), r) else none
    | [] => none
  else if 0xE0 ≤ b ∧ b ≤ 0xEF then
    match rest with
    | b2 :: b3 :: r =>
      if cont2OK b b2 ∧ isCont b3 then
        some ((b - 0xE0) * 4096 + (b2 - 0x80) * 64 + (b3 - 0x80), r)
      else none
    | _ => none
  else if 0xF0 ≤ b ∧ b ≤ 0xF4 then
    match rest with
    | b2 :: b3 :: b4 :: r =>
      if cont3OK b b2 ∧ isCont b3 ∧ isCont b4 then
        some ((b - 0xF0) * 262144 + (b2 - 0x80) * 4096 + (b3 - 0x80) * 64 + (b4 - 0x80), r)
      else none
    | _ => none
  else none

/-- Decoding loop; the fuel only bounds the number of decoded scalars, and
`utf8Decode` supplies enough for any input. -/
def utf8DecodeLoop : Nat → List Nat → Option PyStr
  | _, [] => some []
  | 0, _ :: _ => none
  | fuel + 1, b :: rest =>
    match utf8DecodeOne b rest with
    | none => none
    | some (c, r) => (utf8DecodeLoop fuel r).map (c :: ·)

/-- Strict UTF-8 decoding of a byte sequence (`bytes.decode("utf-8")`);
`none` models `UnicodeDecodeError`. -/
def utf8Decode (bs : List Nat) : Option PyStr := utf8DecodeLoop bs.length bs

/-! ### Generic Python string helpers -/

/-- ASCII decimal digit test (`str.isdigit` restricted to ASCII; the code
only ever meets ASCII digits on the round-trip paths proved here). -/
def isDigitChar (c : Nat) : Prop := 48 ≤ c ∧ c ≤ 57

instance (c : Nat) : Decidable (isDigitChar c) :=
  inferInstanceAs (Decidable (48 ≤ c ∧ c ≤ 57))

/-- ASCII whitespace (`str.isspace` / `str.strip` on the ASCII range). -/
def isSpaceChar (c : Nat) : Prop := c = 32 ∨ (9 ≤ c ∧ c ≤ 13)

instance (c : Nat) : Decidable (isSpaceChar c) :=
  inferInstanceAs (Decidable (c = 32 ∨ (9 ≤ c ∧ c ≤ 13)))

/-- Python `str.strip()`: drop whitespace from both ends. -/
def pyStrip (s : PyStr) : PyStr :=
  ((s.dropWhile (fun c => decide (isSpaceChar c))).reverse.dropWhile
    (fun c => decide (isSpaceChar c))).reverse

/-- Python `str.lower()` on the ASCII range. -/
def pyLower (s : PyStr) : PyStr :=
  s.map (fun c => if 65 ≤ c ∧ c ≤ 90 then c + 32 else c)

/-- Split at the first occurrence of `c` (`str.find` plus slicing):
`some (before, after)` with the separator removed, `none` if absent. -/
def splitFirst (c : Nat) : PyStr → Option (PyStr × PyStr)
  | [] => none
  | x :: xs =>
    if x = c then some ([], xs)
    else (splitFirst c xs).map (fun p => (x :: p.1, p.2))

/-- Split at the last occurrence of `c` (`str.rfind` plus slicing). -/
def splitLast (c : Nat) (s : PyStr) : Option (PyStr × PyStr) :=
  (splitFirst c s.reverse).map (fun p => (p.2.reverse, p.1.reverse))

/-- Decimal digits of a natural number, most significant first; the fuel
(any bound on the number) only drives the recursion. -/
def natDecimalGo : Nat → Nat → PyStr
  | 0, n => [48 + n % 10]
  | fuel + 1, n =>
    if n < 10 then [48 + n] else natDecimalGo fuel (n / 10) ++ [48 + n % 10]

/-- Decimal digits of a natural number, most significant first. -/
def natDecimal (n : Nat) : PyStr := natDecimalGo n n

/-- Python `str(i)` for an `int`. -/
def intDecimal (i : Int) : PyStr :=
  if i < 0 then 45 :: natDecimal (-i).toNat else natDecimal i.toNat

/-- Parse a nonempty all-digit string as a natural number. -/
def parseDigits : PyStr → Option Nat
  | [] => none
  | l => l.foldl (fun acc c =>
      acc.bind (fun n => if isDigitChar c then some (n * 10 + (c - 48)) else none))
      (some 0)

/-- Python `int(s)`: strip whitespace, optional sign, then decimal digits
(ASCII digits only; underscores and non-ASCII digits are not modelled). -/
def pyParseInt (s : PyStr) : Option Int :=
  match pyStrip s with
  | 45 :: rest => (parseDigits rest).map (fun n => -(n : Int))
  | 43 :: rest => (parseDigits rest).map (fun n => (n : Int))
  | rest => (parseDigits rest).map (fun n => (n : Int))

/-- Python `s.isdigit()` (ASCII): nonempty and all digits. -/
def pyIsDigit (s : PyStr) : Prop := s ≠ [] ∧ ∀ c ∈ s, isDigitChar c

instance (s : PyStr) : Decidable (pyIsDigit s) :=
  inferInstanceAs (Decidable (s ≠ [] ∧ ∀ c ∈ s, isDigitChar c))

/-- `pre` is a prefix of `s` (`str.startswith`). -/
def pyStartsWith (pre s : PyStr) : Prop := pre <+: s

instance (pre s : PyStr) : Decidable (pyStartsWith pre s) :=
  inferInstanceAs (Decidable (pre <+: s))

/-- Value of an ASCII hex digit. -/
def hexDigitVal (c : Nat) : Option Nat :=
  if 48 ≤ c ∧ c ≤ 57 then some (c - 48)
  else if 65 ≤ c ∧ c ≤ 70 then some (c - 55)
  else if 97 ≤ c ∧ c ≤ 102 then some (c - 87)
  else none

/-- Value of a two-hex-digit pair (`int(xy, 16)` for exactly two digits). -/
def hexPairVal (h1 h2 : Nat) : Option Nat :=
  (hexDigitVal h1).bind (fun a => (hexDigitVal h2).map (fun b => a * 16 + b))

/-- Upper-case hex digit of a value below 16 (`%02X` formatting). -/
def hexUp (n : Nat) : Nat := if n < 10 then 48 + n else 55 + n




/-! ### Label maps, ordering and dict operations -/

/-- A Python label `dict`, kept canonically sorted by key so that dict
equality is list equality; the source only ever iterates label dicts in
`sorted(keys)` order or compares them, so the canonical form is faithful. -/
abbrev LMap := List (PyStr × PyStr)

/-- Python string `<` (code-point lexicographic). -/
def strLtB : PyStr → PyStr → Bool
  | [], [] => false
  | [], _ :: _ => true
  | _ :: _, [] => false
  | a :: as, b :: bs => if a < b then true else if b < a then false else strLtB as bs

/-- Dict lookup. -/
def lmapLookup (m : LMap) (k : PyStr) : Option PyStr :=
  (m.find? (fun kv => kv.1 == k)).map (fun kv => kv.2)

/-- Dict assignment, keeping the canonical key order. -/
def lmapInsert (k v : PyStr) : LMap → LMap
  | [] => [(k, v)]
  | (k1, v1) :: rest =>
    if strLtB k k1 then (k, v) :: (k1, v1) :: rest
    else if k = k1 then (k, v) :: rest
    else (k1, v1) :: lmapInsert k v rest

/-- `dict.pop(k, None)`. -/
def lmapErase (k : PyStr) : LMap → LMap
  | [] => []
  | (k1, v1) :: rest => if k = k1 then rest else (k1, v1) :: lmapErase k rest

/-- Canonical form: strictly sorted by key. -/
def LCanon (m : LMap) : Prop := m.Pairwise (fun a b => strLtB a.1 b.1 = true)

/-- Position of the first occurrence of a key (the `list.index` of the
label-name table). -/
def idxOfStr (names : List PyStr) (k : PyStr) : Nat :=
  match names with
  | [] => 0
  | a :: t => if a = k then 0 else idxOfStr t k + 1

/-- Lookup in an association list used as a Python dict (first match). -/
def dictGet {κ α : Type} [BEq κ] (m : List (κ × α)) (k : κ) : Option α :=
  (m.find? (fun kv => kv.1 == k)).map (fun kv => kv.2)

/-- Python dict assignment on an insertion-ordered association list:
update in place if present, else append. -/
def dictSet {κ α : Type} [BEq κ] (m : List (κ × α)) (k : κ) (v : α) : List (κ × α) :=
  if m.any (fun kv => kv.1 == k) then
    m.map (fun kv => if kv.1 == k then (k, v) else kv)
  else m ++ [(k, v)]

/-- Stable insertion into a sorted list (the model of Python stable sort). -/
def insertSorted {α : Type} (le : α → α → Bool) (x : α) : List α → List α
  | [] => [x]
  | y :: ys => if le x y then x :: y :: ys else y :: insertSorted le x ys

/-- Stable insertion sort: extensionally equal to Python `list.sort` /
`sorted`, which are also stable. -/
def insertionSort {α : Type} (le : α → α → Bool) : List α → List α
  | [] => []
  | x :: xs => insertSorted le x (insertionSort le xs)

/-- Python `sorted` on strings. -/
def sortStrs (l : List PyStr) : List PyStr :=
  insertionSort (fun a b => ! strLtB b a) l

/-! ### urllib percent codec (`urllib.parse.quote` / `unquote`) -/

/-- Two bytes after a percent sign parsed as hex: shared escape step of
`unquote` and `_decode_entry_name` (a short tail and a non-hex pair fail
the same way in both sources, so both are `none` here). -/
def decodeEscape : List Nat → Option (Nat × List Nat)
  | h1 :: h2 :: r => (hexPairVal h1 h2).map (fun v => (v, r))
  | _ => none


/-- Bytes `urllib.parse.quote(s, safe="")` leaves unescaped: letters, digits,
underscore, dot, dash, tilde. -/
def quoteSafeByte (b : Nat) : Prop :=
  (48 ≤ b ∧ b ≤ 57) ∨ (65 ≤ b ∧ b ≤ 90) ∨ (97 ≤ b ∧ b ≤ 122) ∨
  b = 95 ∨ b = 46 ∨ b = 45 ∨ b = 126

instance (b : Nat) : Decidable (quoteSafeByte b) :=
  inferInstanceAs (Decidable (_ ∨ _ ∨ _ ∨ _ ∨ _ ∨ _ ∨ _))

/-- One byte of `quote` output. -/
def quoteByte (b : Nat) : PyStr :=
  if quoteSafeByte b then [b] else [37, hexUp (b / 16), hexUp (b % 16)]

/-- `urllib.parse.quote(s, safe="")`: percent-escape every unsafe byte of
the UTF-8 encoding, upper-case hex. -/
def pyQuote (s : PyStr) : PyStr := (utf8Encode s).flatMap quoteByte

/-- Collect a maximal run of valid percent escapes (`unquote` decodes such
runs as one byte string).  The fuel only bounds the iteration count. -/
def takeEscapesLoop : Nat → PyStr → List Nat × PyStr
  | _, [] => ([], [])
  | 0, l => ([], l)
  | fuel + 1, c :: rest =>
    if c = 37 then
      match decodeEscape rest with
      | some (b, r) =>
        let p := takeEscapesLoop fuel r
        (b :: p.1, p.2)
      | none => ([], c :: rest)
    else ([], c :: rest)

/-- Maximal leading escape run of a string. -/
def takeEscapes (l : PyStr) : List Nat × PyStr := takeEscapesLoop l.length l

/-- `urllib.parse.unquote` loop: literal characters pass through, maximal
escape runs are decoded as UTF-8.  Python replaces invalid UTF-8 with
U+FFFD; that error path is modelled as `none` and is never taken on the
round trips proved here.  The fuel only bounds the iteration count. -/
def pyUnquoteLoop : Nat → PyStr → Option PyStr
  | _, [] => some []
  | 0, _ :: _ => none
  | fuel + 1, c :: rest =>
    if c = 37 then
      match takeEscapes (c :: rest) with
      | ([], _) => (pyUnquoteLoop fuel rest).map (c :: ·)
      | (b :: bs, r) =>
        match utf8Decode (b :: bs) with
        | some chars => (pyUnquoteLoop fuel r).map (chars ++ ·)
        | none => none
    else (pyUnquoteLoop fuel rest).map (c :: ·)

/-- `urllib.parse.unquote`. -/
def pyUnquote (s : PyStr) : Option PyStr := pyUnquoteLoop s.length s

/-- Percent escapes of a byte string, as `quote` emits for unsafe bytes. -/
def escList (bs : List Nat) : PyStr :=
  bs.flatMap (fun b => [37, hexUp (b / 16), hexUp (b % 16)])

/-- A character the encoder leaves literal: safe ASCII. -/
def quoteSafeChar (c : Nat) : Prop := c < 0x80 ∧ quoteSafeByte c

instance (c : Nat) : Decidable (quoteSafeChar c) :=
  inferInstanceAs (Decidable (_ ∧ _))

/-! ### Entry name codec of `reduct/batch/batch_v2.py` -/

namespace BatchV2

/-- `_is_tchar`: HTTP token characters — digits, letters and the punctuation
set; note that the percent sign (37) is itself a tchar. -/
def is_tchar (b : Nat) : Prop :=
  (48 ≤ b ∧ b ≤ 57) ∨ (65 ≤ b ∧ b ≤ 90) ∨ (97 ≤ b ∧ b ≤ 122) ∨
  b ∈ [33, 35, 36, 37, 38, 39, 42, 43, 45, 46, 94, 95, 96, 124, 126]

instance (b : Nat) : Decidable (is_tchar b) :=
  inferInstanceAs (Decidable (_ ∨ _ ∨ _ ∨ _))

/-- Encoding of one byte of an entry name: tchar bytes pass through, the
rest become an upper-case percent escape. -/
def encodeEntryByte (b : Nat) : PyStr :=
  if is_tchar b then [b] else [37, hexUp (b / 16), hexUp (b % 16)]

/-- `_encode_entry_name`: percent-encode the UTF-8 bytes of an entry name. -/
def encode_entry_name (entry : PyStr) : PyStr :=
  (utf8Encode entry).flatMap encodeEntryByte

/-- Byte loop of `_decode_entry_name`: replace each percent escape by its
byte, pass other bytes through.  The fuel only bounds the number of
iterations; `decodeEntryBytes` supplies enough for any input. -/
def decodeEntryLoop : Nat → List Nat → Except String (List Nat)
  | _, [] => .ok []
  | 0, _ :: _ => .error "Invalid entry encoding in header name"
  | fuel + 1, b :: rest =>
    if b = 37 then
      match decodeEscape rest with
      | some (v, r) => (decodeEntryLoop fuel r).map (v :: ·)
      | none => .error "Invalid entry encoding in header name"
    else (decodeEntryLoop fuel rest).map (b :: ·)

/-- Byte pass of `_decode_entry_name` over the raw byte string. -/
def decodeEntryBytes (bs : List Nat) : Except String (List Nat) :=
  decodeEntryLoop bs.length bs

/-- `_decode_entry_name`: undo percent escapes on the UTF-8 bytes of the
encoded string, then decode the bytes as UTF-8. -/
def decode_entry_name (encoded : PyStr) : Except String PyStr :=
  match decodeEntryBytes (utf8Encode encoded) with
  | .error e => .error e
  | .ok bs =>
    match utf8Decode bs with
    | some res => .ok res
    | none => .error "Entry name is not valid UTF-8 in header"

end BatchV2


/-! ### Batch codec of `reduct/batch/v2.py` -/

/-- A resolved batch item as `make_headers_v2` receives it from
`Batch.sorted_items` (entry already resolved, size is the payload length). -/
structure ItemV2 where
  entry : PyStr
  timestamp : Int
  size : Nat
  content_type : PyStr
  labels : LMap
deriving DecidableEq

/-- Decoded record metadata yielded by the batched-record parsers; the body
reading closures of the source are not part of the metadata claims. -/
structure DecodedRecord where
  entry : PyStr
  timestamp : Int
  size : Int
  content_type : PyStr
  labels : LMap
deriving DecidableEq

namespace V2

/-- `_encode_header_value`: quote a label value containing a comma or an
equals sign. -/
def encode_header_value (value : PyStr) : PyStr :=
  if 44 ∈ value ∨ 61 ∈ value then 34 :: (value ++ [34]) else value

/-- `_encode_list`: comma-join the percent-quoted items. -/
def encode_list (items : List PyStr) : PyStr :=
  List.intercalate [44] (items.map pyQuote)

/-- Lookup in the encoder label-index dict. -/
def idxLookup (label_index : List (PyStr × Nat)) (k : PyStr) : Option Nat :=
  (label_index.find? (fun kv => kv.1 == k)).map (fun kv => kv.2)

/-- The op list of `_labels_delta`: ops for changed keys (in sorted key
order) then removed keys (in sorted key order). -/
def deltaOps (previous current : LMap) : List (PyStr × Option PyStr) :=
  (current.filter
    (fun kv => ! (lmapLookup previous kv.1 == some kv.2))).map
      (fun kv => (kv.1, some kv.2)) ++
  (previous.filter
    (fun kv => lmapLookup current kv.1 == none)).map
      (fun kv => (kv.1, (none : Option PyStr)))

/-- One op encoded as `key=`/`key=value` with the key replaced by its
index when present in `label_index`. -/
def segEncIdx (label_index : List (PyStr × Nat)) (op : PyStr × Option PyStr) :
    PyStr :=
  let key := match idxLookup label_index op.1 with
    | some i => natDecimal i
    | none => op.1
  match op.2 with
  | none => key ++ [61]
  | some v => key ++ [61] ++ encode_header_value v

/-- `_labels_delta`: the comma-joined encoded ops; `None` when no ops. -/
def labels_delta (previous current : LMap) (label_index : List (PyStr × Nat)) :
    Option PyStr :=
  let ops := deltaOps previous current
  if ops = [] then none
  else some (List.intercalate [44] (ops.map (segEncIdx label_index)))

/-- Distinct entries in first-seen order. -/
def entriesOf (items : List ItemV2) : List PyStr :=
  items.foldl (fun acc it => if it.entry ∈ acc then acc else acc ++ [it.entry]) []

/-- Minimum timestamp of a nonempty batch (`min(...)`); 0 on the empty list
only to keep the function total — the source never takes the minimum there. -/
def minTimestamp : List ItemV2 → Int
  | [] => 0
  | it :: rest => rest.foldl (fun m x => min m x.timestamp) it.timestamp

/-- Per-record header name `x-reduct-<entryIndex>-<delta>`. -/
def headerName (idx : Nat) (delta : Int) : PyStr :=
  strLit "x-reduct-" ++ natDecimal idx ++ [45] ++ intDecimal delta

/-- The per-record fold state of `make_headers_v2`: accumulated content
length, header dict and the `last_header` dict per entry index. -/
structure EncState where
  content_length : Nat
  headers : List (PyStr × PyStr)
  last_header : List (Nat × (PyStr × LMap))

/-- The resolved content type and header value of one record of the loop of
`make_headers_v2`, from the `last_header` entry of its entry index. -/
def recordSegs (label_index : List (PyStr × Nat)) (prev : Option (PyStr × LMap))
    (record : ItemV2) : PyStr × PyStr :=
  let prev_content_type := (prev.getD ([], [])).1
  let content_type :=
    if record.content_type = [] then []
    else if record.content_type ≠ [] then record.content_type
    else if prev_content_type ≠ [] then prev_content_type
    else strLit "application/octet-stream"
  let prev_labels := (prev.getD ([], [])).2
  let labels_part := labels_delta prev_labels record.labels label_index
  let header_value0 := natDecimal record.size ++ [44] ++ content_type
  let header_value := match labels_part with
    | some lp => if lp = [] then header_value0 else header_value0 ++ [44] ++ lp
    | none => header_value0
  (content_type, header_value)

/-- One iteration of the record loop of `make_headers_v2`. -/
def encStep (entries : List PyStr) (start_ts : Int)
    (label_index : List (PyStr × Nat)) (st : EncState) (record : ItemV2) :
    EncState :=
  let entry_idx := entries.indexOf record.entry
  let delta := record.timestamp - start_ts
  let cv := recordSegs label_index (dictGet st.last_header entry_idx) record
  { content_length := st.content_length + record.size
    headers := dictSet st.headers (headerName entry_idx delta) cv.2
    last_header := dictSet st.last_header entry_idx (cv.1, record.labels) }

/-- The `(entryIndex, delta)` sort keys and header values the record loop
of `make_headers_v2` appends, together with the evolving `last_header`
dict: the specification of the loop used in the round-trip proof. -/
def emitRecords (entries : List PyStr) (start_ts : Int)
    (label_index : List (PyStr × Nat)) :
    List (Nat × (PyStr × LMap)) → List ItemV2 → List ((Nat × Int) × PyStr)
  | _, [] => []
  | last_header, record :: rest =>
    let entry_idx := entries.indexOf record.entry
    let cv := recordSegs label_index (dictGet last_header entry_idx) record
    ((entry_idx, record.timestamp - start_ts), cv.2) ::
      emitRecords entries start_ts label_index
        (dictSet last_header entry_idx (cv.1, record.labels)) rest

/-- `make_headers_v2` of `v2.py`: the content length and header dict for a
batch write (multi-entry protocol). -/
def make_headers_v2 (items : List ItemV2) : Nat × List (PyStr × PyStr) :=
  if items = [] then
    (0, [(strLit "Content-Type", strLit "application/octet-stream")])
  else
    let entries := entriesOf items
    let start_ts := minTimestamp items
    let label_names := sortStrs (items.flatMap (fun it => it.labels.map (fun kv => kv.1))).dedup
    let label_index := (label_names.enum).map (fun p => (p.2, p.1))
    let headers0 := dictSet ([] : List (PyStr × PyStr)) (strLit "x-reduct-entries")
      (encode_list entries)
    let headers1 := dictSet headers0 (strLit "x-reduct-start-ts") (intDecimal start_ts)
    let headers2 := if label_names ≠ [] then
        dictSet headers1 (strLit "x-reduct-labels") (encode_list label_names)
      else headers1
    let final := items.foldl (encStep entries start_ts label_index)
      (EncState.mk 0 headers2 [])
    (final.content_length,
     dictSet final.headers (strLit "Content-Type") (strLit "application/octet-stream"))

/-- `_parse_encoded_list`: split on commas, strip, drop empties, unquote.
Python `unquote` cannot fail (it substitutes U+FFFD); the `none` branch of
the model is never taken on the encodings proved about here. -/
def parse_encoded_list (raw : PyStr) : Option (List PyStr) :=
  (raw.splitOn 44).foldr (fun item acc =>
    acc.bind (fun xs =>
      let t := pyStrip item
      if t = [] then some xs
      else (pyUnquote t).map (fun x => x :: xs))) (some [])

/-- `_map_key` of `_parse_label_delta_ops`: digit keys become label names
through the label-name table when in range. -/
def mapKey (label_names : Option (List PyStr)) (key : PyStr) : PyStr :=
  match label_names with
  | some names =>
    if pyIsDigit key then
      match parseDigits key with
      | some idx => if idx < names.length then names.getD idx [] else key
      | none => key
    else key
  | none => key

/-- Skip one comma (`if raw[pos] == ",": pos += 1`). -/
def skipComma (l : PyStr) : PyStr :=
  match l with
  | c :: rest => if c = 44 then rest else c :: rest
  | [] => []

/-- Parse one op value after the equals sign: a quoted value runs to the
closing quote (`none` stops the scan when it is missing, as the source
`break`s), an unquoted value runs to the next comma and is stripped, the
empty value standing for `None`. -/
def parseOpValue : PyStr → Option (Option PyStr × PyStr)
  | 34 :: tl =>
    match splitFirst 34 tl with
    | none => none
    | some (v, rest2) => some (some v, skipComma rest2)
  | after =>
    match splitFirst 44 after with
    | some (seg, rest2) =>
      let sg := pyStrip seg
      some (if sg = [] then none else some sg, rest2)
    | none =>
      let sg := pyStrip after
      some (if sg = [] then none else some sg, [])

/-- Scanner loop of `_parse_label_delta_ops`; each iteration consumes at
least the equals sign, so fuel bounded by the string length suffices. -/
def parseOpsLoop (label_names : Option (List PyStr)) :
    Nat → PyStr → List (PyStr × Option PyStr)
  | _, [] => []
  | 0, _ :: _ => []
  | fuel + 1, raw =>
    let r1 := raw.dropWhile (fun c => decide (isSpaceChar c))
    if r1 = [] then []
    else
      match splitFirst 61 r1 with
      | none => []
      | some (before, after) =>
        let key := mapKey label_names (pyStrip before)
        match parseOpValue after with
        | none => []
        | some (v, rest2) => (key, v) :: parseOpsLoop label_names fuel rest2

/-- `_parse_label_delta_ops` of `v2.py`. -/
def parse_label_delta_ops (raw : PyStr) (label_names : Option (List PyStr)) :
    List (PyStr × Option PyStr) :=
  parseOpsLoop label_names raw.length raw

/-- The op-application loop of `_apply_label_delta`: set on a value,
`pop` on `None`. -/
def applyOps (ops : List (PyStr × Option PyStr)) (base : LMap) : LMap :=
  ops.foldl (fun labels op =>
    match op.2 with
    | none => lmapErase op.1 labels
    | some v => lmapInsert op.1 v labels) base

/-- `_apply_label_delta` of `v2.py`: apply ops to a copy of the base map. -/
def apply_label_delta (raw : PyStr) (base : LMap)
    (label_names : Option (List PyStr)) : LMap :=
  applyOps (parse_label_delta_ops raw label_names) base

/-- `_parse_record_header_v2`: split `size[,contentType[,labelDelta]]`,
falling back to the previous header of the same entry (or the default
content type and empty labels) when segments are missing or empty. -/
def parse_record_header_v2 (raw : PyStr)
    (previous : Option (Int × PyStr × LMap))
    (label_names : Option (List PyStr)) : Option (Int × PyStr × LMap) :=
  let firstSplit := splitFirst 44 raw
  let length_str := match firstSplit with
    | some p => p.1
    | none => raw
  let ls := pyStrip length_str
  if ls = [] then none
  else
    match pyParseInt ls with
    | none => none
    | some content_length =>
      let rest := match firstSplit with
        | some p => p.2
        | none => []
      let secondSplit := if rest = [] then none else splitFirst 44 rest
      let content_type_raw := match secondSplit with
        | some p => pyStrip p.1
        | none => if rest = [] then [] else pyStrip rest
      let labels_raw := match secondSplit with
        | some p => some p.2
        | none => none
      let content_type :=
        if content_type_raw = [] then
          match previous with
          | some p => p.2.1
          | none => strLit "application/octet-stream"
        else content_type_raw
      let labels0 := match previous with
        | some p => p.2.2
        | none => []
      let labels := match labels_raw with
        | some lr => apply_label_delta lr labels0 label_names
        | none => labels0
      some (content_length, content_type, labels)

/-- Case-insensitive header lookup (`resp.headers.get` on a `CIMultiDict`);
the keys the source asks for are lower-case. -/
def ciGet (headers : List (PyStr × PyStr)) (key : PyStr) : Option PyStr :=
  (headers.find? (fun kv => pyLower kv.1 == key)).map (fun kv => kv.2)

/-- Recognise a per-record header name (already lower-cased): the
`x-reduct-` names that are not error headers and whose suffix splits at the
last dash into a digit entry index and an integer delta. -/
def recordHeaderKey (low : PyStr) : Option (Nat × Int) :=
  if pyStartsWith (strLit "x-reduct-") low ∧
      ¬ pyStartsWith (strLit "x-reduct-error-") low then
    match splitLast 45 (low.drop 9) with
    | none => none
    | some (entry_part, delta_part) =>
      if pyIsDigit entry_part then
        match parseDigits entry_part, pyParseInt delta_part with
        | some idx, some delta => some (idx, delta)
        | _, _ => none
      else none
  else none

/-- Collect the per-record headers of a response in header order. -/
def collectHeadersV2 (headers : List (PyStr × PyStr)) : List (Nat × Int × PyStr) :=
  headers.foldr (fun nv acc =>
    match recordHeaderKey (pyLower nv.1) with
    | some p => (p.1, p.2, nv.2) :: acc
    | none => acc) []

/-- Sort key order of the decoder: ascending `(entryIndex, delta)`. -/
def hdrLe (a b : Nat × Int × PyStr) : Bool :=
  decide (a.1 < b.1 ∨ (a.1 = b.1 ∧ a.2.1 ≤ b.2.1))

/-- The decode-side stable sort of the per-record header list. -/
def sortHeaders (l : List (Nat × Int × PyStr)) : List (Nat × Int × PyStr) :=
  insertionSort hdrLe l

/-- The record loop of `parse_batched_records_v2._iter_records`: skips
out-of-range entry indices and unparsable header values, and resolves each
header against the last parsed header of the same entry index. -/
def iterRecords (entries : List PyStr) (start_ts : Int)
    (label_names : Option (List PyStr)) (hdrs : List (Nat × Int × PyStr)) :
    List DecodedRecord :=
  (hdrs.foldl (fun (st : List (Nat × (Int × PyStr × LMap)) × List DecodedRecord) h =>
    if h.1 ≥ entries.length then st
    else
      match parse_record_header_v2 h.2.2 (dictGet st.1 h.1) label_names with
      | none => st
      | some hdr =>
        (dictSet st.1 h.1 hdr,
         st.2 ++ [DecodedRecord.mk (entries.getD h.1 []) (start_ts + h.2.1)
           hdr.1 hdr.2.1 hdr.2.2])) ([], [])).2

/-- `parse_batched_records_v2` of `v2.py`, restricted to the metadata of
the yielded records; `none` is the `return None` fallback (missing or bad
`x-reduct-entries`/`x-reduct-start-ts`, or no per-record headers). -/
def parse_batched_records_v2 (headers : List (PyStr × PyStr)) :
    Option (List DecodedRecord) :=
  match ciGet headers (strLit "x-reduct-entries"),
      ciGet headers (strLit "x-reduct-start-ts") with
  | some entries_raw, some start_ts_raw =>
    match pyParseInt start_ts_raw with
    | none => none
    | some start_ts =>
      match parse_encoded_list entries_raw with
      | none => none
      | some entries =>
        if entries = [] then none
        else
          let label_names := match ciGet headers (strLit "x-reduct-labels") with
            | some lraw => if lraw = [] then none else parse_encoded_list lraw
            | none => none
          let sorted := sortHeaders (collectHeadersV2 headers)
          if sorted = [] then none
          else some (iterRecords entries start_ts label_names sorted)
  | _, _ => none

end V2


/-! ### Batch codec of `reduct/batch/v1.py` -/

namespace V1

/-- One label segment of a v1 header value: quoted when the label KEY
contains a comma or an equals sign (the source tests the key, not the
value). -/
def labelSegment (kv : PyStr × PyStr) : PyStr :=
  if 44 ∈ kv.1 ∨ 61 ∈ kv.1 then
    [44] ++ kv.1 ++ [61, 34] ++ kv.2 ++ [34]
  else
    [44] ++ kv.1 ++ [61] ++ kv.2

/-- `make_headers_v1` of `v1.py`: one `x-reduct-time-<ts>` header per
record with value `size,contentType[,label=value]*`. -/
def make_headers_v1 (items : List ItemV2) : Nat × List (PyStr × PyStr) :=
  let res := items.foldl (fun (st : Nat × List (PyStr × PyStr)) record =>
    let header := natDecimal record.size ++ [44] ++ record.content_type ++
      record.labels.flatMap labelSegment
    (st.1 + record.size,
     dictSet st.2 (strLit "x-reduct-time-" ++ intDecimal record.timestamp) header))
    (0, [])
  (res.1, dictSet res.2 (strLit "Content-Type") (strLit "application/octet-stream"))

/-- One iteration of the quoted-CSV scanner of `_parse_header_as_csv_row`
(state: collected items, current escape accumulator). -/
def csvStep (st : List PyStr × PyStr) (item : PyStr) : List PyStr × PyStr :=
  let items := st.1
  let escaped0 := st.2
  let escaped := if item.head? == some 34 ∧ escaped0 = [] then item.drop 1 else escaped0
  if escaped ≠ [] then
    if item.getLast? == some 34 then (items ++ [escaped.dropLast], [])
    else (items, escaped ++ item)
  else (items ++ [item], [])

/-- `_parse_header_as_csv_row` of `v1.py`; `none` models the `IndexError` /
`ValueError` paths (fewer than two fields, non-integer size). -/
def parse_header_as_csv_row (row : PyStr) : Option (Int × PyStr × LMap) :=
  let items := ((row.splitOn 44).foldl csvStep ([], [])).1
  match items with
  | [] => none
  | i0 :: restItems =>
    match pyParseInt i0 with
    | none => none
    | some content_length =>
      match restItems with
      | [] => none
      | ct :: labelItems =>
        let labels := labelItems.foldl (fun m label =>
          match splitFirst 61 label with
          | some p => lmapInsert p.1 p.2 m
          | none => m) []
        some (content_length, ct, labels)

/-- `parse_batched_records_v1` of `v1.py`, restricted to record metadata:
walk the headers in order, decode every `x-reduct-time-` header; the entry
of every record is the response URL path.  `none` models an exception
while parsing any record header. -/
def parse_batched_records_v1 (headers : List (PyStr × PyStr)) (url_path : PyStr) :
    Option (List DecodedRecord) :=
  headers.foldl (fun acc nv =>
    acc.bind (fun out =>
      if pyStartsWith (strLit "x-reduct-time-") (pyLower nv.1) then
        match pyParseInt (nv.1.drop 14) with
        | none => none
        | some ts =>
          match parse_header_as_csv_row nv.2 with
          | none => none
          | some h => some (out ++ [DecodedRecord.mk url_path ts h.1 h.2.1 h.2.2])
      else some out)) (some [])

end V1


/-! ### Batch codec of `reduct/batch/batch_v2.py` -/

namespace BatchV2

/-- Fully-resolved record header of `batch_v2.py` (`RecordHeader`). -/
structure RecordHeader where
  content_length : Int
  content_type : PyStr
  labels : LMap
deriving DecidableEq

/-- `EntryRecordHeader` of `batch_v2.py`. -/
structure EntryRecordHeader where
  entry : PyStr
  timestamp : Int
  header : RecordHeader
deriving DecidableEq

/-- `_parse_entries_header`: required, nonempty, each entry percent-decoded. -/
def parse_entries_header (headers : List (PyStr × PyStr)) :
    Except String (List PyStr) :=
  match dictGet headers (strLit "x-reduct-entries") with
  | none => .error "x-reduct-entries header is required"
  | some entries =>
    if entries = [] then .error "x-reduct-entries header is required"
    else
      (entries.splitOn 44).foldr (fun e acc =>
        acc.bind (fun xs => (decode_entry_name (pyStrip e)).map (fun x => x :: xs)))
        (.ok [])

/-- `_parse_start_timestamp`: required, integer. -/
def parse_start_timestamp (headers : List (PyStr × PyStr)) : Except String Int :=
  match dictGet headers (strLit "x-reduct-start-ts") with
  | none => .error "x-reduct-start-ts header is required"
  | some s =>
    if s = [] then .error "x-reduct-start-ts header is required"
    else
      match pyParseInt s with
      | some i => .ok i
      | none => .error "Invalid x-reduct-start-ts header"

/-- `_parse_labels_header`: nonempty after stripping, each name decoded. -/
def parse_labels_header (labels : PyStr) : Except String (List PyStr) :=
  let l := pyStrip labels
  if l = [] then .error "x-reduct-labels header is empty"
  else
    (l.splitOn 44).foldr (fun e acc =>
      acc.bind (fun xs => (decode_entry_name (pyStrip e)).map (fun x => x :: xs)))
      (.ok [])

/-- `_resolve_label_name`: numeric keys index the label-name table (range
checked), other keys must not start with an at sign. -/
def resolve_label_name (raw : PyStr) (label_names : Option (List PyStr)) :
    Except String PyStr :=
  match label_names with
  | some names =>
    match pyParseInt raw with
    | some idx =>
      if idx < 0 ∨ (names.length : Int) ≤ idx then
        .error "Label index is out of range"
      else .ok (names.getD idx.toNat [])
    | none =>
      if raw.head? == some 64 then
        .error "Label names must not start with at sign: reserved for computed labels"
      else .ok raw
  | none =>
    if raw.head? == some 64 then
      .error "Label names must not start with at sign: reserved for computed labels"
    else .ok raw

/-- Value step of the op scanner of `batch_v2.py`: a quoted value runs to
the closing quote (missing quote is `none`, an error in the source) and the
tail then drops leading commas and is stripped; an unquoted value runs to
the next comma, the tail stripped. -/
def parseOpValueB : PyStr → Option (PyStr × PyStr)
  | 34 :: vp =>
    match splitFirst 34 vp with
    | none => none
    | some (v, r) => some (v, pyStrip (r.dropWhile (fun c => decide (c = 44))))
  | value_part =>
    match splitFirst 44 value_part with
    | some (v, r) => some (v, pyStrip r)
    | none => some (value_part, [])

/-- Scanner loop of `_parse_label_delta_ops` of `batch_v2.py`; each
iteration consumes at least the equals sign, so fuel bounded by the string
length suffices (the fuel-exhaustion branch is unreachable). -/
def parseOpsLoopB (label_names : Option (List PyStr)) :
    Nat → PyStr → Except String (List (PyStr × Option PyStr))
  | _, [] => .ok []
  | 0, _ :: _ => .error "Invalid batched header"
  | fuel + 1, rest =>
    match splitFirst 61 rest with
    | none => .error "Invalid batched header"
    | some (raw_key, value_part) =>
      match resolve_label_name (pyStrip raw_key) label_names with
      | .error e => .error e
      | .ok key =>
        match parseOpValueB value_part with
        | none => .error "Invalid batched header"
        | some (v0, rest2) =>
          let v := pyStrip v0
          (parseOpsLoopB label_names fuel rest2).map
            (fun ops => (key, if v = [] then none else some v) :: ops)

/-- `_parse_label_delta_ops` of `batch_v2.py`. -/
def parse_label_delta_ops_b (raw_labels : PyStr)
    (label_names : Option (List PyStr)) :
    Except String (List (PyStr × Option PyStr)) :=
  let rest := pyStrip raw_labels
  if rest = [] then .ok []
  else parseOpsLoopB label_names rest.length rest

/-- `_apply_label_delta` of `batch_v2.py`. -/
def apply_label_delta_b (raw_labels : PyStr) (base : LMap)
    (label_names : Option (List PyStr)) : Except String LMap :=
  (parse_label_delta_ops_b raw_labels label_names).map (fun ops =>
    ops.foldl (fun labels op =>
      match op.2 with
      | none => lmapErase op.1 labels
      | some v => lmapInsert op.1 v labels) base)

/-- `_parse_record_header_with_defaults`: a bare size with no previous
header of the entry is an error; otherwise missing or empty segments fall
back to the previous header (or the default content type, empty labels). -/
def parse_record_header_with_defaults (raw : PyStr)
    (previous : Option RecordHeader) (label_names : Option (List PyStr)) :
    Except String RecordHeader :=
  let split1 := splitFirst 44 raw
  let content_length_str := match split1 with
    | some p => p.1
    | none => raw
  match pyParseInt (pyStrip content_length_str) with
  | none => .error "Invalid batched header"
  | some content_length =>
    match split1 with
    | none =>
      match previous with
      | none =>
        .error "Content-type and labels must be provided for the first record of an entry"
      | some p => .ok (RecordHeader.mk content_length p.content_type p.labels)
    | some pr =>
      let rest := pr.2
      let split2 := splitFirst 44 rest
      let content_type_raw := pyStrip (match split2 with
        | some q => q.1
        | none => rest)
      let content_type :=
        if content_type_raw ≠ [] then content_type_raw
        else match previous with
          | some p => p.content_type
          | none => strLit "application/octet-stream"
      let prev_labels := match previous with
        | some p => p.labels
        | none => []
      match split2 with
      | none => .ok (RecordHeader.mk content_length content_type prev_labels)
      | some q =>
        match apply_label_delta_b q.2 prev_labels label_names with
        | .error e => .error e
        | .ok labels => .ok (RecordHeader.mk content_length content_type labels)

/-- `_sort_headers_by_entry_and_time`: collect `x-reduct-<digits>-<digits>`
headers (case-insensitively, excluding error headers) and stable-sort them
by `(entryIndex, delta)`.  After the digit checks the name re-parse of the
source cannot fail, so it is inlined. -/
def sort_headers_by_entry_and_time (headers : List (PyStr × PyStr)) :
    List (Int × Int × PyStr) :=
  insertionSort (fun a b => decide (a.1 < b.1 ∨ (a.1 = b.1 ∧ a.2.1 ≤ b.2.1)))
    (headers.foldr (fun nv acc =>
      let low := pyLower nv.1
      if ¬ pyStartsWith (strLit "x-reduct-") low then acc
      else if pyStartsWith (strLit "x-reduct-error-") low then acc
      else
        match splitLast 45 (low.drop 9) with
        | none => acc
        | some (eis, ds) =>
          if pyIsDigit eis ∧ pyIsDigit ds then
            match parseDigits eis, parseDigits ds with
            | some ei, some d => ((ei : Int), (d : Int), nv.2) :: acc
            | _, _ => acc
          else acc) [])

/-- Record loop of `_parse_batched_headers`: an out-of-range entry index is
an error, each header resolves against the last header of the same entry. -/
def parseHeadersLoop (entries : List PyStr) (start_ts : Int)
    (label_names : Option (List PyStr)) :
    List (PyStr × RecordHeader) → List (Int × Int × PyStr) →
    Except String (List EntryRecordHeader)
  | _, [] => .ok []
  | last, h :: rest =>
    if h.1 < 0 ∨ (entries.length : Int) ≤ h.1 then
      .error "Invalid header: entry index out of range"
    else
      let entry := entries.getD h.1.toNat []
      match parse_record_header_with_defaults h.2.2 (dictGet last entry) label_names with
      | .error e => .error e
      | .ok hdr =>
        (parseHeadersLoop entries start_ts label_names (dictSet last entry hdr) rest).map
          (fun tail => EntryRecordHeader.mk entry (start_ts + h.2.1) hdr :: tail)

/-- `_parse_batched_headers` of `batch_v2.py`. -/
def parse_batched_headers (headers : List (PyStr × PyStr)) :
    Except String (List EntryRecordHeader) :=
  match parse_entries_header headers with
  | .error e => .error e
  | .ok entries =>
    match parse_start_timestamp headers with
    | .error e => .error e
    | .ok start_ts =>
      let label_names_exc : Except String (Option (List PyStr)) :=
        match dictGet headers (strLit "x-reduct-labels") with
        | some lraw =>
          if lraw = [] then .ok none else (parse_labels_header lraw).map some
        | none => .ok none
      match label_names_exc with
      | .error e => .error e
      | .ok label_names =>
        parseHeadersLoop entries start_ts label_names []
          (sort_headers_by_entry_and_time headers)

/-- `_format_label_value` of `batch_v2.py`: quote only on commas. -/
def formatLabelValue (value : PyStr) : PyStr :=
  if 44 ∈ value then 34 :: (value ++ [34]) else value

/-- `ensure_label` of `_build_label_delta`: look the name up in the
append-only table, assigning the next index when absent. -/
def ensureLabel (st : List (PyStr × Nat) × List PyStr) (name : PyStr) :
    Nat × (List (PyStr × Nat) × List PyStr) :=
  match V2.idxLookup st.1 name with
  | some i => (i, st)
  | none => (st.2.length, (st.1 ++ [(name, st.2.length)], st.2 ++ [name]))

/-- `_build_label_delta` of `batch_v2.py`: index-keyed ops sorted by index,
joined by commas; removal is the empty value.  The mutated label table is
threaded through the state. -/
def build_label_delta (labels : LMap) (previous_labels : Option LMap)
    (st : List (PyStr × Nat) × List PyStr) :
    PyStr × (List (PyStr × Nat) × List PyStr) :=
  let folded : List (Nat × PyStr) × (List (PyStr × Nat) × List PyStr) :=
    match previous_labels with
    | none =>
      labels.foldl (fun acc kv =>
        let p := ensureLabel acc.2 kv.1
        (acc.1 ++ [(p.1, formatLabelValue kv.2)], p.2)) ([], st)
    | some prev =>
      (sortStrs ((prev.map (fun kv => kv.1) ++ labels.map (fun kv => kv.1)).dedup)).foldl
        (fun acc key =>
          let pv := lmapLookup prev key
          let cv := lmapLookup labels key
          if pv == cv then acc
          else
            let p := ensureLabel acc.2 key
            match cv with
            | none => (acc.1 ++ [(p.1, [])], p.2)
            | some v => (acc.1 ++ [(p.1, formatLabelValue v)], p.2)) ([], st)
  let sorted := insertionSort (fun a b => decide (a.1 ≤ b.1)) folded.1
  (List.intercalate [44] (sorted.map (fun p => natDecimal p.1 ++ [61] ++ p.2)),
   folded.2)

/-- `_prepare_records_v2`: first-seen entry table, minimum timestamp, and
the records indexed and stable-sorted by `(entryIndex, timestamp)`.  The
records of a `RecordBatch` always carry an entry name, so the `None` error
branch of the source is outside this model. -/
def prepare_records_v2 (records : List ItemV2) :
    List PyStr × Int × List (Nat × Int × ItemV2) :=
  match records with
  | [] => ([], 0, [])
  | _ :: _ =>
    let start_ts := V2.minTimestamp records
    let res := records.foldl
      (fun (acc : List PyStr × List (Nat × Int × ItemV2)) record =>
        let p : Nat × List PyStr := match acc.1.indexOf? record.entry with
          | some i => (i, acc.1)
          | none => (acc.1.length, acc.1 ++ [record.entry])
        (p.2, acc.2 ++ [(p.1, record.timestamp, record)])) ([], [])
    (res.1, start_ts,
     insertionSort (fun a b => decide (a.1 < b.1 ∨ (a.1 = b.1 ∧ a.2.1 ≤ b.2.1))) res.2)

/-- Per-record loop state of `make_headers_v2` of `batch_v2.py`. -/
structure EncStateB where
  content_length : Nat
  headers : List (PyStr × PyStr)
  last_meta : List (Nat × (PyStr × LMap))
  table : List (PyStr × Nat) × List PyStr

/-- One iteration of the record loop of `make_headers_v2` of `batch_v2.py`:
the content-type segment is omitted when unchanged from the previous record
of the same entry, the label segment is the index-keyed delta. -/
def encStepB (start_ts : Int) (st : EncStateB) (h : Nat × Int × ItemV2) :
    EncStateB :=
  let record := h.2.2
  let entry_index := h.1
  let delta := h.2.1 - start_ts
  let content_type :=
    if record.content_type = [] then strLit "application/octet-stream"
    else record.content_type
  let prev := dictGet st.last_meta entry_index
  let content_type_part :=
    match prev with
    | none => content_type
    | some p => if p.1 ≠ content_type then content_type else []
  let bl := build_label_delta record.labels (prev.map (fun p => p.2)) st.table
  let label_delta := bl.1
  let has_labels := label_delta ≠ []
  let header_parts := [natDecimal record.size] ++
    (if content_type_part ≠ [] ∨ has_labels then [content_type_part] else []) ++
    (if has_labels then [label_delta] else [])
  { content_length := st.content_length + record.size
    headers := dictSet st.headers
      (strLit "x-reduct-" ++ natDecimal entry_index ++ [45] ++ intDecimal delta)
      (List.intercalate [44] header_parts)
    last_meta := dictSet st.last_meta entry_index (content_type, record.labels)
    table := bl.2 }

/-- `make_headers_v2` of `batch_v2.py`: the empty batch emits an empty
entries header and a zero start timestamp. -/
def make_headers_v2_batch (records : List ItemV2) : Nat × List (PyStr × PyStr) :=
  if records = [] then
    (0, [(strLit "x-reduct-entries", []),
         (strLit "x-reduct-start-ts", strLit "0"),
         (strLit "Content-Type", strLit "application/octet-stream")])
  else
    let pre := prepare_records_v2 records
    let entries := pre.1
    let start_ts := pre.2.1
    let indexed := pre.2.2
    let headers0 := dictSet ([] : List (PyStr × PyStr)) (strLit "x-reduct-entries")
      (List.intercalate [44] (entries.map encode_entry_name))
    let headers1 := dictSet headers0 (strLit "x-reduct-start-ts") (intDecimal start_ts)
    let final := indexed.foldl (encStepB start_ts) (EncStateB.mk 0 headers1 [] ([], []))
    let headers2 :=
      if final.table.2 ≠ [] then
        dictSet final.headers (strLit "x-reduct-labels")
          (List.intercalate [44] (final.table.2.map encode_entry_name))
      else final.headers
    (final.content_length,
     dictSet headers2 (strLit "Content-Type") (strLit "application/octet-stream"))

end BatchV2


/-! ### `Batch.sorted_items` of `reduct/record.py` -/

namespace RecordMod

/-- `BatchItem` of `record.py`: the payload is its byte string. -/
structure BatchItem where
  entry : Option PyStr
  timestamp : Int
  data : List Nat
  content_type : PyStr
  labels : LMap
deriving DecidableEq

/-- `item.entry or default_entry`: Python `or` falls through on `None` and
on the empty string. -/
def resolveEntry (e : Option PyStr) (default_entry : Option PyStr) : Option PyStr :=
  match e with
  | some s => if s ≠ [] then some s else default_entry
  | none => default_entry

/-- Sort order of `sorted_items`: ascending `(entry, timestamp)`. -/
def itemLe (a b : BatchItem) : Bool :=
  strLtB (a.entry.getD []) (b.entry.getD []) ||
    (a.entry.getD [] == b.entry.getD [] && decide (a.timestamp ≤ b.timestamp))

/-- The resolution loop of `sorted_items`: each item's entry resolved
against the default, an unresolvable item raising `ValueError`. -/
def resolveItems (items : List BatchItem) (default_entry : Option PyStr) :
    Except String (List BatchItem) :=
  items.foldr (fun (item : BatchItem) (acc : Except String (List BatchItem)) =>
    match resolveEntry item.entry default_entry with
    | none => Except.error "Entry is not specified for a batch item"
    | some e => acc.map (fun xs =>
        BatchItem.mk (some e) item.timestamp item.data item.content_type
          item.labels :: xs)) (Except.ok [])

/-- `Batch.sorted_items`: resolve each entry against the default (an
unresolvable item raises), then sort by `(entry, timestamp)`. -/
def sorted_items (items : List BatchItem) (default_entry : Option PyStr) :
    Except String (List BatchItem) :=
  (resolveItems items default_entry).map
    (fun resolved => insertionSort itemLe resolved)

end RecordMod

/-! ### Buffered chunk reader of `reduct/batch/__init__.py` (`_read`) and
`reduct/batch/common.py` (`read`) — the same loop in both files -/

namespace BatchRead

/-- Inner loop over one buffered part: slice `part[count : count + m]`,
advance, shrink `m` to the remaining bytes, yield.  The fuel bounds the
iteration count; `part.length` iterations suffice whenever `n ≥ 1` (for
`n = 0` the source loops forever on a nonempty part, which here surfaces
as the fuel running out). -/
def readPartLoop (part : List Nat) : Nat → Nat → Nat → List (List Nat)
  | _, _, 0 => []
  | count, m, fuel + 1 =>
    if count < part.length then
      let chunk := (part.drop count).take m
      chunk :: readPartLoop part (count + chunk.length)
        (min m (part.length - (count + chunk.length))) fuel
    else []

/-- The generator `_read` / `read`: pop parts off the buffer, skip empty
ones, chunk each; returns the yielded chunks and the final buffer state
(the source pops the shared list empty). -/
def read : List (List Nat) → Nat → List (List Nat) × List (List Nat)
  | [], _ => ([], [])
  | part :: rest, n =>
    if part.length = 0 then read rest n
    else
      let chunks := readPartLoop part 0 (min n part.length) part.length
      let r := read rest n
      (chunks ++ r.1, r.2)

/-- `_read_all` / `read_all`: join the buffered parts. -/
def read_all (buffer : List (List Nat)) : List Nat := buffer.flatMap id

end BatchRead

/-! ### Query loops of `reduct/bucket.py` (`Bucket.query`, `Bucket.subscribe`) -/

namespace BucketMod

/-- One fetch of the query loops as the code observes it: HTTP 204, or a
page of decoded records each carrying its `last` flag. -/
inductive FetchResult where
  | noContent
  | page (records : List (DecodedRecord × Bool))
deriving DecidableEq

/-- What one iteration of the `Bucket.query` loop does. -/
inductive QueryAction where
  | terminate (yielded : List (DecodedRecord × Bool))
  | yieldThenFetch (yielded : List (DecodedRecord × Bool)) (newLast : Bool)
deriving DecidableEq

/-- What one iteration of the `Bucket.subscribe` loop does;
`terminate` is in the type so that its absence is a statement. -/
inductive SubscribeAction (τ : Type) where
  | terminate
  | sleepThenFetch (interval : τ)
  | yieldThenFetch (yielded : List (DecodedRecord × Bool))

/-- One iteration of `Bucket.query` (the v2 and v1 branches are identical
at this level): the `while not last` guard, then a fetch; a 204 response
returns from the generator; otherwise every record of the page is yielded
while `last` tracks the last yielded record's flag. -/
def query_step (last : Bool) (resp : FetchResult) : QueryAction :=
  if last then .terminate []
  else
    match resp with
    | .noContent => .terminate []
    | .page records => .yieldThenFetch records (records.foldl (fun _ r => r.2) last)

/-- One iteration of the `while True` loop of `Bucket.subscribe`: a 204
response sleeps for `poll_interval` and refetches, any other page is
yielded and the loop refetches; no branch leaves the loop. -/
def subscribe_step {τ : Type} (poll_interval : τ) (resp : FetchResult) :
    SubscribeAction τ :=
  match resp with
  | .noContent => .sleepThenFetch poll_interval
  | .page records => .yieldThenFetch records

end BucketMod


/-- Keys the label-delta wire syntax can carry verbatim: nonempty, no
whitespace, and none of the three delimiter characters. -/
def SafeKey (k : PyStr) : Prop :=
  k ≠ [] ∧ (∀ c ∈ k, ¬ isSpaceChar c) ∧ 61 ∉ k ∧ 44 ∉ k ∧ 34 ∉ k

/-- Values the label-delta wire syntax can carry: nonempty, no double
quote, and invariant under stripping (no whitespace at either end). -/
def SafeVal (v : PyStr) : Prop := v ≠ [] ∧ 34 ∉ v ∧ pyStrip v = v

/-- Content types the v2 record-header syntax round-trips: nonempty,
comma-free, strip-invariant. -/
def SafeCT (ct : PyStr) : Prop := ct ≠ [] ∧ 44 ∉ ct ∧ pyStrip ct = ct


/-- The value part of an encoded delta segment (empty for a removal). -/
def encValOpt : Option PyStr → PyStr
  | none => []
  | some v => V2.encode_header_value v

/-- One encoded op segment as `_labels_delta` builds it: the chosen key,
an equals sign, and the encoded value (nothing for a removal). -/
def segEnc (op : PyStr × Option PyStr) : PyStr :=
  match op.2 with
  | none => op.1 ++ [61]
  | some v => op.1 ++ [61] ++ V2.encode_header_value v

/-! ### UTF-8 round-trip lemmas -/

set_option maxRecDepth 4000 in
theorem utf8DecodeOne_encodeChar (c : Nat) (hv : ValidScalar c) (tail : List Nat) :
    ∀ b bs, utf8EncodeChar c = b :: bs →
      utf8DecodeOne b (bs ++ tail) = some (c, tail) := by
  intro b bs henc
  by_cases h1 : c < 0x80
  · rw [utf8EncodeChar, if_pos h1] at henc
    cases henc
    rw [utf8DecodeOne.eq_def, if_pos h1]
    simp
  · rw [utf8EncodeChar, if_neg h1] at henc
    by_cases h2 : c < 0x800
    · rw [if_pos h2] at henc
      cases henc
      rw [utf8DecodeOne.eq_def]
      simp only [List.cons_append, List.nil_append]
      rw [if_neg (by omega), if_pos (by omega)]
      rw [if_pos (show isCont (0x80 + c % 64) from ⟨by omega, by omega⟩)]
      congr 2
      omega
    · rw [if_neg h2] at henc
      by_cases h3 : c < 0x10000
      · rw [if_pos h3] at henc
        cases henc
        rw [utf8DecodeOne.eq_def]
        simp only [List.cons_append, List.nil_append]
        rw [if_neg (by omega), if_neg (by omega), if_pos (by omega)]
        rw [if_pos ?cond3]
        case cond3 =>
          refine ⟨?_, by omega, by omega⟩
          by_cases he0 : c < 0x1000
          · exact Or.inl ⟨by omega, by omega, by omega⟩
          · by_cases hed : 0xD000 ≤ c ∧ c < 0xE000
            · have hc : c < 0xD800 := by
                rcases hv with h | ⟨h, _⟩
                · exact h
                · omega
              exact Or.inr (Or.inl ⟨by omega, by omega, by omega⟩)
            · exact Or.inr (Or.inr ⟨by omega, by omega, by omega, by omega⟩)
        congr 2
        omega
      · rw [if_neg h3] at henc
        cases henc
        have hup : c < 0x110000 := by
          rcases hv with h | ⟨_, h⟩
          · omega
          · exact h
        rw [utf8DecodeOne.eq_def]
        simp only [List.cons_append, List.nil_append]
        rw [if_neg (by omega), if_neg (by omega), if_neg (by omega), if_pos (by omega)]
        rw [if_pos ?cond4]
        case cond4 =>
          refine ⟨?_, ⟨by omega, by omega⟩, by omega, by omega⟩
          by_cases hf0 : c < 0x40000
          · exact Or.inl ⟨by omega, by omega, by omega⟩
          · by_cases hf4 : 0x100000 ≤ c
            · exact Or.inr (Or.inl ⟨by omega, by omega, by omega⟩)
            · exact Or.inr (Or.inr ⟨by omega, by omega, by omega, by omega⟩)
        congr 2
        omega

theorem utf8EncodeChar_ne_nil (c : Nat) : utf8EncodeChar c ≠ [] := by
  rw [utf8EncodeChar]
  split
  · simp
  · split
    · simp
    · split <;> simp

/-- With fuel counting the scalars of `s` plus a reserve, the loop peels off
exactly `s` from the front of its encoding. -/
theorem utf8DecodeLoop_encode_append (s : PyStr) (hs : ∀ c ∈ s, ValidScalar c)
    (tail : List Nat) (fuel : Nat) :
    utf8DecodeLoop (s.length + fuel) (utf8Encode s ++ tail) =
      (utf8DecodeLoop fuel tail).map (s ++ ·) := by
  induction s generalizing tail with
  | nil =>
    simp only [utf8Encode, List.flatMap_nil, List.nil_append, List.length_nil, Nat.zero_add]
    cases tail with
    | nil =>
      rw [utf8DecodeLoop]
      cases fuel <;> simp [utf8DecodeLoop]
    | cons b r =>
      cases utf8DecodeLoop fuel (b :: r) <;> simp
  | cons c cs ih =>
    have hv : ValidScalar c := hs c (by simp)
    have hcs : ∀ x ∈ cs, ValidScalar x := fun x hx => hs x (by simp [hx])
    simp only [utf8Encode, List.flatMap_cons, List.length_cons, List.append_assoc]
    cases henc : utf8EncodeChar c with
    | nil => exact absurd henc (utf8EncodeChar_ne_nil c)
    | cons b bs =>
      have hstep := utf8DecodeOne_encodeChar c hv
        (cs.flatMap utf8EncodeChar ++ tail) b bs henc
      have hfs : cs.length + 1 + fuel = (cs.length + fuel) + 1 := by omega
      rw [hfs]
      simp only [List.cons_append]
      rw [utf8DecodeLoop, hstep]
      dsimp only
      have := ih hcs tail
      simp only [utf8Encode] at this
      rw [this]
      cases utf8DecodeLoop fuel tail <;> simp

theorem utf8DecodeLoop_mono (fuel : Nat) (l : List Nat) (v : PyStr)
    (h : utf8DecodeLoop fuel l = some v) :
    ∀ g, fuel ≤ g → utf8DecodeLoop g l = some v := by
  induction fuel generalizing l v with
  | zero =>
    intro g hg
    cases l with
    | nil =>
      rw [utf8DecodeLoop] at h
      cases g <;> simpa [utf8DecodeLoop] using h
    | cons b r => rw [utf8DecodeLoop] at h; cases h
  | succ f ih =>
    intro g hg
    cases l with
    | nil =>
      rw [utf8DecodeLoop] at h
      cases g <;> simpa [utf8DecodeLoop] using h
    | cons b r =>
      rw [utf8DecodeLoop] at h
      match g, hg with
      | g' + 1, hg =>
        rw [utf8DecodeLoop]
        cases hone : utf8DecodeOne b r with
        | none => rw [hone] at h; cases h
        | some cr =>
          rw [hone] at h
          obtain ⟨c0, r0⟩ := cr
          simp only at h ⊢
          cases hrec : utf8DecodeLoop f r0 with
          | none => rw [hrec] at h; cases h
          | some v0 =>
            rw [hrec] at h
            rw [ih r0 v0 hrec g' (by omega)]
            exact h

theorem length_le_utf8Encode_length (s : PyStr) :
    s.length ≤ (utf8Encode s).length := by
  induction s with
  | nil => simp [utf8Encode]
  | cons c cs ih =>
    simp only [utf8Encode, List.flatMap_cons, List.length_append, List.length_cons]
    have h1 : 1 ≤ (utf8EncodeChar c).length := by
      cases henc : utf8EncodeChar c with
      | nil => exact absurd henc (utf8EncodeChar_ne_nil c)
      | cons b bs => simp
    simp only [utf8Encode] at ih
    omega

/-- Decoding inverts encoding on valid strings. -/
theorem utf8Decode_encode (s : PyStr) (hs : ∀ c ∈ s, ValidScalar c) :
    utf8Decode (utf8Encode s) = some s := by
  have h := utf8DecodeLoop_encode_append s hs [] 0
  rw [List.append_nil] at h
  have hz : utf8DecodeLoop 0 ([] : List Nat) = some [] := by rw [utf8DecodeLoop]
  have h2 : utf8DecodeLoop (s.length + 0) (utf8Encode s) = some s := by
    rw [h, hz]
    simp
  have hmono := utf8DecodeLoop_mono (s.length + 0) (utf8Encode s) s h2
    (utf8Encode s).length (by simpa using length_le_utf8Encode_length s)
  exact hmono

theorem hexDigitVal_hexUp (n : Nat) (h : n < 16) :
    hexDigitVal (hexUp n) = some n := by
  rw [hexUp]
  by_cases hn : n < 10
  · rw [if_pos hn, hexDigitVal, if_pos (by omega)]
    congr 1
    omega
  · rw [if_neg hn, hexDigitVal, if_neg (by omega), if_pos (by omega)]
    congr 1
    omega

theorem hexPairVal_hexUp (b : Nat) (hb : b < 256) :
    hexPairVal (hexUp (b / 16)) (hexUp (b % 16)) = some b := by
  rw [hexPairVal, hexDigitVal_hexUp (b / 16) (by omega), hexDigitVal_hexUp (b % 16) (by omega)]
  show some (b / 16 * 16 + b % 16) = some b
  congr 1
  omega

theorem hexUp_lt_128 (n : Nat) (h : n < 16) : hexUp n < 128 := by
  rw [hexUp]; split <;> omega

theorem hexUp_ne_37 (n : Nat) (h : n < 16) : hexUp n ≠ 37 := by
  rw [hexUp]; split <;> omega

/-! ### Byte ranges of UTF-8 encodings -/

theorem utf8EncodeChar_lt_256 (c : Nat) (hc : c < 0x110000) :
    ∀ b ∈ utf8EncodeChar c, b < 256 := by
  intro b hb
  rw [utf8EncodeChar] at hb
  split at hb
  · simp at hb; omega
  · split at hb
    · simp at hb
      rcases hb with h | h <;> omega
    · split at hb
      · simp at hb
        rcases hb with h | h | h <;> omega
      · simp at hb
        rcases hb with h | h | h | h <;> omega

theorem utf8EncodeChar_ascii (c : Nat) (hc : c < 0x80) :
    utf8EncodeChar c = [c] := by
  rw [utf8EncodeChar, if_pos hc]

theorem utf8EncodeChar_high (c : Nat) (hc : 0x80 ≤ c) :
    ∀ b ∈ utf8EncodeChar c, 0x80 ≤ b := by
  intro b hb
  rw [utf8EncodeChar] at hb
  split at hb
  · omega
  · split at hb
    · simp at hb
      rcases hb with h | h <;> omega
    · split at hb
      · simp at hb
        rcases hb with h | h | h <;> omega
      · simp at hb
        rcases hb with h | h | h | h <;> omega

theorem utf8Encode_ascii (s : PyStr) (hall : ∀ c ∈ s, c < 0x80) :
    utf8Encode s = s := by
  induction s with
  | nil => rfl
  | cons c cs ih =>
    have hc : c < 0x80 := hall c (by simp)
    simp only [utf8Encode, List.flatMap_cons]
    rw [utf8EncodeChar_ascii c hc]
    simp only [List.cons_append, List.nil_append]
    congr 1
    exact ih (fun x hx => hall x (by simp [hx]))

theorem utf8Encode_lt_256 (s : PyStr) (hs : ∀ c ∈ s, ValidScalar c) :
    ∀ b ∈ utf8Encode s, b < 256 := by
  intro b hb
  simp only [utf8Encode, List.mem_flatMap] at hb
  obtain ⟨c, hc, hbc⟩ := hb
  have : c < 0x110000 := by
    rcases hs c hc with h | ⟨_, h⟩ <;> omega
  exact utf8EncodeChar_lt_256 c this b hbc

theorem utf8Encode_no_37 (s : PyStr) (hnp : 37 ∉ s) : 37 ∉ utf8Encode s := by
  intro hmem
  simp only [utf8Encode, List.mem_flatMap] at hmem
  obtain ⟨c, hc, hbc⟩ := hmem
  by_cases hlow : c < 0x80
  · rw [utf8EncodeChar_ascii c hlow] at hbc
    simp at hbc
    subst hbc
    exact hnp hc
  · have := utf8EncodeChar_high c (by omega) 37 hbc
    omega


/-! ### Entry name codec round-trip -/

namespace BatchV2

theorem is_tchar_lt_128 (b : Nat) (h : is_tchar b) : b < 128 := by
  rcases h with h | h | h | h
  · omega
  · omega
  · omega
  · simp at h
    rcases h with h | h | h | h | h | h | h | h | h | h | h | h | h | h | h <;> omega

theorem encodeEntryByte_ascii (b : Nat) (hb : b < 256) :
    ∀ c ∈ encodeEntryByte b, c < 128 := by
  intro c hc
  rw [encodeEntryByte] at hc
  split at hc
  · rename_i ht
    simp at hc
    subst hc
    exact is_tchar_lt_128 c ht
  · simp at hc
    rcases hc with h | h | h
    · omega
    · subst h; exact hexUp_lt_128 _ (by omega)
    · subst h; exact hexUp_lt_128 _ (by omega)

theorem encodeEntryByte_ne_nil (b : Nat) : encodeEntryByte b ≠ [] := by
  rw [encodeEntryByte]
  split <;> simp

theorem decodeEntryLoop_encode (bs : List Nat) : ∀ fuel, (∀ b ∈ bs, b < 256) →
    37 ∉ bs → (bs.flatMap encodeEntryByte).length ≤ fuel →
    decodeEntryLoop fuel (bs.flatMap encodeEntryByte) = .ok bs := by
  induction bs with
  | nil =>
    intro fuel _ _ _
    cases fuel <;> rfl
  | cons b rest ih =>
    intro fuel h256 hnp hfuel
    have hb256 : b < 256 := h256 b (by simp)
    have hbnp : b ≠ 37 := fun h => hnp (by simp [h])
    have h256r : ∀ x ∈ rest, x < 256 := fun x hx => h256 x (by simp [hx])
    have hnpr : 37 ∉ rest := fun h => hnp (by simp [h])
    simp only [List.flatMap_cons, List.length_append] at hfuel ⊢
    rw [encodeEntryByte] at hfuel ⊢
    by_cases ht : is_tchar b
    · rw [if_pos ht] at hfuel ⊢
      simp only [List.length_cons, List.length_nil] at hfuel
      cases fuel with
      | zero => omega
      | succ f =>
        simp only [List.cons_append, List.nil_append]
        rw [decodeEntryLoop, if_neg hbnp, ih f h256r hnpr (by omega)]
        rfl
    · rw [if_neg ht] at hfuel ⊢
      simp only [List.length_cons, List.length_nil] at hfuel
      cases fuel with
      | zero => omega
      | succ f =>
        simp only [List.cons_append, List.nil_append]
        rw [decodeEntryLoop, if_pos rfl, decodeEscape]
        rw [hexPairVal_hexUp b hb256]
        dsimp only [Option.map]
        rw [ih f h256r hnpr (by omega)]
        rfl

theorem decodeEntryBytes_encode (bs : List Nat) (h256 : ∀ b ∈ bs, b < 256)
    (hnp : 37 ∉ bs) :
    decodeEntryBytes (bs.flatMap encodeEntryByte) = .ok bs := by
  rw [decodeEntryBytes]
  exact decodeEntryLoop_encode bs _ h256 hnp (le_refl _)

/-- Round-trip of the entry-name codec for strings without a percent sign
(percent is a tchar, so the encoder emits it unescaped and the round trip
breaks on strings containing it). -/
theorem decode_encode_entry_name (s : PyStr) (hs : ∀ c ∈ s, ValidScalar c)
    (hnp : 37 ∉ s) : decode_entry_name (encode_entry_name s) = .ok s := by
  have h256 := utf8Encode_lt_256 s hs
  have hnp2 := utf8Encode_no_37 s hnp
  have hascii : ∀ c ∈ encode_entry_name s, c < 0x80 := by
    intro c hc
    rw [encode_entry_name] at hc
    simp only [List.mem_flatMap] at hc
    obtain ⟨b, hbmem, hcb⟩ := hc
    exact encodeEntryByte_ascii b (h256 b hbmem) c hcb
  rw [decode_entry_name, utf8Encode_ascii _ hascii, encode_entry_name]
  rw [decodeEntryBytes_encode (utf8Encode s) h256 hnp2]
  dsimp only
  rw [utf8Decode_encode s hs]

end BatchV2


/-! ### urllib round-trip -/

theorem quoteSafeByte_range (b : Nat) (h : quoteSafeByte b) :
    45 ≤ b ∧ b ≤ 126 := by
  rcases h with h | h | h | h | h | h | h <;> omega

theorem quoteSafeByte_ne_37 (b : Nat) (h : quoteSafeByte b) : b ≠ 37 := by
  have := quoteSafeByte_range b h
  omega

theorem pyQuote_append (a b : PyStr) : pyQuote (a ++ b) = pyQuote a ++ pyQuote b := by
  simp [pyQuote, utf8Encode]

theorem pyQuote_safe_cons (c : Nat) (cs : PyStr) (h : quoteSafeChar c) :
    pyQuote (c :: cs) = c :: pyQuote cs := by
  obtain ⟨hlt, hsafe⟩ := h
  simp only [pyQuote, utf8Encode, List.flatMap_cons]
  rw [utf8EncodeChar_ascii c hlt]
  simp only [List.flatMap_cons, List.flatMap_nil, List.append_nil, List.flatMap_append]
  rw [quoteByte, if_pos hsafe]
  rfl

theorem unsafe_byte_of_char (c : Nat) (hv : ValidScalar c) (h : ¬ quoteSafeChar c) :
    ∀ b ∈ utf8EncodeChar c, ¬ quoteSafeByte b := by
  intro b hb
  by_cases hlt : c < 0x80
  · rw [utf8EncodeChar_ascii c hlt] at hb
    simp at hb
    subst hb
    intro hsb
    exact h ⟨hlt, hsb⟩
  · have hge := utf8EncodeChar_high c (by omega) b hb
    intro hsb
    have := quoteSafeByte_range b hsb
    omega

theorem flatMap_quoteByte_unsafe (bs : List Nat)
    (h : ∀ b ∈ bs, ¬ quoteSafeByte b) : bs.flatMap quoteByte = escList bs := by
  induction bs with
  | nil => rfl
  | cons b rest ih =>
    simp only [List.flatMap_cons, escList]
    rw [quoteByte, if_neg (h b (by simp))]
    congr 1
    exact ih (fun x hx => h x (by simp [hx]))

theorem pyQuote_unsafe_block (block : PyStr) (hv : ∀ c ∈ block, ValidScalar c)
    (hu : ∀ c ∈ block, ¬ quoteSafeChar c) :
    pyQuote block = escList (utf8Encode block) := by
  rw [pyQuote]
  apply flatMap_quoteByte_unsafe
  intro b hb
  simp only [utf8Encode, List.mem_flatMap] at hb
  obtain ⟨c, hc, hbc⟩ := hb
  exact unsafe_byte_of_char c (hv c hc) (hu c hc) b hbc


theorem takeEscapesLoop_comp (bs : List Nat) : ∀ fuel t, (∀ b ∈ bs, b < 256) →
    bs.length ≤ fuel → (∀ cs, t ≠ 37 :: cs) →
    takeEscapesLoop fuel (escList bs ++ t) = (bs, t) := by
  induction bs with
  | nil =>
    intro fuel t _ _ ht
    simp only [escList, List.flatMap_nil, List.nil_append]
    cases t with
    | nil => cases fuel <;> rfl
    | cons c cs =>
      cases fuel with
      | zero => rfl
      | succ f =>
        rw [takeEscapesLoop, if_neg (fun h => ht cs (by rw [h]))]
  | cons b rest ih =>
    intro fuel t h256 hfuel ht
    have hb256 : b < 256 := h256 b (by simp)
    simp only [escList, List.flatMap_cons, List.cons_append, List.append_assoc] at hfuel ⊢
    cases fuel with
    | zero => simp at hfuel
    | succ f =>
      rw [takeEscapesLoop, if_pos rfl, decodeEscape]
      rw [hexPairVal_hexUp b hb256]
      dsimp only [Option.map]
      have := ih f t (fun x hx => h256 x (by simp [hx])) (by simp at hfuel; omega) ht
      simp only [escList] at this
      simp only [List.nil_append]
      rw [this]

theorem escList_length (bs : List Nat) : (escList bs).length = 3 * bs.length := by
  induction bs with
  | nil => rfl
  | cons b rest ih =>
    simp only [escList, List.flatMap_cons, List.length_append, List.length_cons,
      List.length_nil] at ih ⊢
    omega

theorem takeEscapes_comp (bs : List Nat) (t : PyStr) (h256 : ∀ b ∈ bs, b < 256)
    (ht : ∀ cs, t ≠ 37 :: cs) :
    takeEscapes (escList bs ++ t) = (bs, t) := by
  rw [takeEscapes]
  have h1 := escList_length bs
  exact takeEscapesLoop_comp bs _ t h256 (by simp only [List.length_append]; omega) ht


theorem dropWhile_head_not (p : Nat → Bool) (l : PyStr) :
    l.dropWhile p = [] ∨ ∃ x xs, l.dropWhile p = x :: xs ∧ p x = false := by
  induction l with
  | nil => exact Or.inl rfl
  | cons c cs ih =>
    rw [List.dropWhile_cons]
    by_cases hc : p c = true
    · rw [if_pos hc]
      exact ih
    · rw [if_neg hc]
      exact Or.inr ⟨c, cs, rfl, by simpa using hc⟩

theorem pyUnquoteLoop_quote : ∀ n s fuel, s.length ≤ n → (∀ c ∈ s, ValidScalar c) →
    (pyQuote s).length ≤ fuel → pyUnquoteLoop fuel (pyQuote s) = some s := by
  intro n
  induction n with
  | zero =>
    intro s fuel hlen _ _
    have hs : s = [] := by
      cases s with
      | nil => rfl
      | cons c cs => simp at hlen
    subst hs
    cases fuel <;> rfl
  | succ n ih =>
    intro s fuel hlen hval hfuel
    cases hs : s with
    | nil =>
      subst hs
      cases fuel <;> rfl
    | cons c cs =>
      subst hs
      by_cases hsafe : quoteSafeChar c
      · rw [pyQuote_safe_cons c cs hsafe] at hfuel ⊢
        cases fuel with
        | zero => simp at hfuel
        | succ f =>
          have hc37 : c ≠ 37 := quoteSafeByte_ne_37 c hsafe.2
          rw [pyUnquoteLoop, if_neg hc37]
          rw [ih cs f (by simp at hlen; omega)
            (fun x hx => hval x (by simp [hx])) (by simp at hfuel; omega)]
          rfl
      · set p : Nat → Bool := fun x => ! decide (quoteSafeChar x) with hp
        set block := (c :: cs).takeWhile p with hblock
        set rest := (c :: cs).dropWhile p with hrest
        have hsplit : block ++ rest = c :: cs := List.takeWhile_append_dropWhile p (c :: cs)
        have hpc : p c = true := by simp [hp, hsafe]
        have hblock_cons : block = c :: cs.takeWhile p := by
          rw [hblock, List.takeWhile_cons, if_pos hpc]
        have hbu : ∀ x ∈ block, ¬ quoteSafeChar x := by
          intro x hx
          have := List.mem_takeWhile_imp (hblock ▸ hx)
          simpa [hp] using this
        have hbv : ∀ x ∈ block, ValidScalar x := by
          intro x hx
          apply hval
          rw [← hsplit]
          exact List.mem_append_left _ hx
        have hrv : ∀ x ∈ rest, ValidScalar x := by
          intro x hx
          apply hval
          rw [← hsplit]
          exact List.mem_append_right _ hx
        have hq : pyQuote (c :: cs) = escList (utf8Encode block) ++ pyQuote rest := by
          rw [← hsplit, pyQuote_append, pyQuote_unsafe_block block hbv hbu]
        have hrest37 : ∀ ds, pyQuote rest ≠ 37 :: ds := by
          intro ds hcontra
          rcases dropWhile_head_not p (c :: cs) with h0 | ⟨x, xs, hx, hpx⟩
          · rw [← hrest] at h0
            rw [h0] at hcontra
            simp [pyQuote, utf8Encode] at hcontra
          · rw [← hrest] at hx
            have hxsafe : quoteSafeChar x := by
              simpa [hp] using hpx
            rw [hx, pyQuote_safe_cons x xs hxsafe] at hcontra
            have hx37 : x = 37 := by injection hcontra
            exact quoteSafeByte_ne_37 x hxsafe.2 hx37
        have hb256 : ∀ b ∈ utf8Encode block, b < 256 := utf8Encode_lt_256 block hbv
        have htk := takeEscapes_comp (utf8Encode block) (pyQuote rest) hb256 hrest37
        have hbne : utf8Encode block ≠ [] := by
          rw [hblock_cons]
          simp only [utf8Encode, List.flatMap_cons]
          intro hctr
          rcases List.append_eq_nil.mp hctr with ⟨h1, _⟩
          exact utf8EncodeChar_ne_nil c h1
        obtain ⟨b0, bs0, hbs⟩ : ∃ b0 bs0, utf8Encode block = b0 :: bs0 := by
          cases hE : utf8Encode block with
          | nil => exact absurd hE hbne
          | cons x xs => exact ⟨x, xs, rfl⟩
        have hQT : pyQuote (c :: cs) =
            37 :: (hexUp (b0 / 16) :: hexUp (b0 % 16) :: escList bs0 ++ pyQuote rest) := by
          rw [hq, hbs]
          simp [escList]
        have hdec : utf8Decode (b0 :: bs0) = some block := by
          rw [← hbs]
          exact utf8Decode_encode block hbv
        have hblen : 1 ≤ block.length := by
          rw [hblock_cons]
          simp
        have hslen : block.length + rest.length = cs.length + 1 := by
          have := congrArg List.length hsplit
          simpa using this
        rw [hQT] at hfuel ⊢
        cases fuel with
        | zero => simp at hfuel
        | succ f =>
          rw [pyUnquoteLoop, if_pos rfl]
          have hback : (37 :: (hexUp (b0 / 16) :: hexUp (b0 % 16) :: escList bs0 ++
              pyQuote rest) : PyStr) = escList (utf8Encode block) ++ pyQuote rest := by
            rw [hbs]
            simp [escList]
          rw [hback, htk, hbs]
          dsimp only
          rw [hdec]
          have hrlen : rest.length ≤ n := by
            simp only [List.length_cons] at hlen
            omega
          have hrfuel : (pyQuote rest).length ≤ f := by
            simp only [List.length_cons, List.length_append] at hfuel
            omega
          rw [ih rest f hrlen hrv hrfuel]
          dsimp only [Option.map]
          rw [hsplit]

/-- `unquote` inverts `quote` on every encodable string. -/
theorem pyUnquote_quote (s : PyStr) (hs : ∀ c ∈ s, ValidScalar c) :
    pyUnquote (pyQuote s) = some s := by
  rw [pyUnquote]
  exact pyUnquoteLoop_quote s.length s _ (le_refl _) hs (le_refl _)


/-! ### Stable insertion sort: sortedness and permutation -/

theorem mem_insertSorted {α : Type} (le : α → α → Bool) (x : α) (l : List α)
    (z : α) : z ∈ insertSorted le x l ↔ z = x ∨ z ∈ l := by
  induction l with
  | nil => simp [insertSorted]
  | cons y ys ih =>
    rw [insertSorted]
    split
    · simp only [List.mem_cons]
    · simp only [List.mem_cons, ih]
      tauto

theorem insertSorted_pairwise {α : Type} (le : α → α → Bool)
    (htot : ∀ a b, le a b = true ∨ le b a = true)
    (htrans : ∀ a b c, le a b = true → le b c = true → le a c = true)
    (x : α) (l : List α) (hl : l.Pairwise (fun a b => le a b = true)) :
    (insertSorted le x l).Pairwise (fun a b => le a b = true) := by
  induction l with
  | nil => simp [insertSorted]
  | cons y ys ih =>
    rw [insertSorted]
    rcases List.pairwise_cons.mp hl with ⟨hy, hys⟩
    split
    · rename_i hxy
      refine List.pairwise_cons.mpr ⟨?_, hl⟩
      intro z hz
      rcases List.mem_cons.mp hz with hz | hz
      · subst hz
        exact hxy
      · exact htrans x y z hxy (hy z hz)
    · rename_i hxy
      have hyx : le y x = true := by
        rcases htot x y with h | h
        · exact absurd h hxy
        · exact h
      refine List.pairwise_cons.mpr ⟨?_, ih hys⟩
      intro z hz
      rcases (mem_insertSorted le x ys z).mp hz with hz | hz
      · subst hz
        exact hyx
      · exact hy z hz

theorem insertSorted_perm {α : Type} (le : α → α → Bool) (x : α) (l : List α) :
    (insertSorted le x l).Perm (x :: l) := by
  induction l with
  | nil => simp [insertSorted]
  | cons y ys ih =>
    rw [insertSorted]
    split
    · exact List.Perm.refl _
    · exact List.Perm.trans (List.Perm.cons y ih) (List.Perm.swap x y ys)

theorem insertionSort_pairwise {α : Type} (le : α → α → Bool)
    (htot : ∀ a b, le a b = true ∨ le b a = true)
    (htrans : ∀ a b c, le a b = true → le b c = true → le a c = true)
    (l : List α) :
    (insertionSort le l).Pairwise (fun a b => le a b = true) := by
  induction l with
  | nil => simp [insertionSort]
  | cons x xs ih =>
    rw [insertionSort]
    exact insertSorted_pairwise le htot htrans x _ ih

theorem insertionSort_perm {α : Type} (le : α → α → Bool) (l : List α) :
    (insertionSort le l).Perm l := by
  induction l with
  | nil => simp [insertionSort]
  | cons x xs ih =>
    rw [insertionSort]
    exact List.Perm.trans (insertSorted_perm le x _) (List.Perm.cons x ih)

/-- An already-sorted list is a fixed point of the insertion sort. -/
theorem insertionSort_eq_self {α : Type} (le : α → α → Bool) (l : List α)
    (hl : l.Pairwise (fun a b => le a b = true)) : insertionSort le l = l := by
  induction l with
  | nil => rfl
  | cons x xs ih =>
    rcases List.pairwise_cons.mp hl with ⟨hx, hxs⟩
    rw [insertionSort, ih hxs]
    cases xs with
    | nil => rfl
    | cons y ys =>
      rw [insertSorted, if_pos (hx y (by simp))]


/-! ### String order facts -/

theorem strLtB_trichotomy : ∀ a b : PyStr, strLtB a b = true ∨ strLtB b a = true ∨ a = b
  | [], [] => Or.inr (Or.inr rfl)
  | [], _ :: _ => Or.inl rfl
  | _ :: _, [] => Or.inr (Or.inl rfl)
  | a :: as, b :: bs => by
    by_cases h1 : a < b
    · left
      rw [strLtB, if_pos h1]
    · by_cases h2 : b < a
      · right
        left
        rw [strLtB, if_pos h2]
      · have hab : a = b := by omega
        subst hab
        rcases strLtB_trichotomy as bs with h | h | h
        · left
          rw [strLtB, if_neg h1, if_neg h1]
          exact h
        · right
          left
          rw [strLtB, if_neg h1, if_neg h1]
          exact h
        · right
          right
          rw [h]

theorem strLtB_trans : ∀ a b c : PyStr, strLtB a b = true → strLtB b c = true →
    strLtB a c = true
  | _, [], [] => by intro _ h; rw [strLtB] at h; cases h
  | _, _ :: _, [] => by intro _ h; rw [strLtB] at h; cases h
  | [], _, _ :: _ => by intro _ _; rw [strLtB]
  | _ :: _, [], _ :: _ => by intro h _; rw [strLtB] at h; cases h
  | a :: as, b :: bs, c :: cs => by
    intro h1 h2
    rw [strLtB] at h1 h2
    rw [strLtB]
    by_cases hab : a < b
    · by_cases hbc : b < c
      · rw [if_pos (by omega)]
      · by_cases hcb : c < b
        · rw [if_neg hbc, if_pos hcb] at h2
          cases h2
        · rw [if_pos (by omega)]
    · by_cases hba : b < a
      · rw [if_neg hab, if_pos hba] at h1
        cases h1
      · rw [if_neg hab, if_neg hba] at h1
        by_cases hbc : b < c
        · rw [if_pos (by omega)]
        · by_cases hcb : c < b
          · rw [if_neg hbc, if_pos hcb] at h2
            cases h2
          · rw [if_neg hbc, if_neg hcb] at h2
            rw [if_neg (by omega), if_neg (by omega)]
            exact strLtB_trans as bs cs h1 h2

theorem strLtB_irrefl : ∀ a : PyStr, strLtB a a = false
  | [] => rfl
  | a :: as => by
    rw [strLtB, if_neg (by omega), if_neg (by omega)]
    exact strLtB_irrefl as

/-! ### C10: the buffered chunk reader -/

theorem readPartLoop_spec (part : List Nat) (n : Nat) (hn : 1 ≤ n) :
    ∀ fuel count, part.length - count ≤ fuel →
      (BatchRead.readPartLoop part count (min n (part.length - count)) fuel).flatMap id =
        part.drop count ∧
      ∀ ch ∈ BatchRead.readPartLoop part count (min n (part.length - count)) fuel,
        ch ≠ [] ∧ ch.length ≤ n := by
  intro fuel
  induction fuel with
  | zero =>
    intro count hc
    rw [BatchRead.readPartLoop]
    constructor
    · simp only [List.flatMap_nil]
      symm
      exact List.drop_eq_nil_of_le (by omega)
    · intro ch hch
      simp at hch
  | succ f ih =>
    intro count hc
    rw [BatchRead.readPartLoop]
    by_cases hlt : count < part.length
    · rw [if_pos hlt]
      have hm : min n (part.length - count) ≤ part.length - count := Nat.min_le_right _ _
      have hmn : min n (part.length - count) ≤ n := Nat.min_le_left _ _
      have hm1 : 1 ≤ min n (part.length - count) := by omega
      have hchunklen : ((part.drop count).take (min n (part.length - count))).length =
          min n (part.length - count) := by
        rw [List.length_take, List.length_drop]
        omega
      dsimp only
      rw [hchunklen]
      set m := min n (part.length - count) with hmdef
      have hrec : min m (part.length - (count + m)) = min n (part.length - (count + m)) := by
        omega
      rw [hrec]
      have hih := ih (count + m) (by omega)
      constructor
      · simp only [List.flatMap_cons, id]
        rw [hih.1]
        calc List.take m (List.drop count part) ++ List.drop (count + m) part
            = List.take m (List.drop count part) ++ List.drop m (List.drop count part) := by
              rw [List.drop_drop, Nat.add_comm]
          _ = List.drop count part := List.take_append_drop m (List.drop count part)
      · intro ch hch
        rcases List.mem_cons.mp hch with hch | hch
        · subst hch
          constructor
          · intro hnil
            have := congrArg List.length hnil
            rw [hchunklen] at this
            simp at this
            omega
          · rw [hchunklen]
            omega
        · exact hih.2 ch hch
    · rw [if_neg hlt]
      constructor
      · simp only [List.flatMap_nil]
        symm
        exact List.drop_eq_nil_of_le (by omega)
      · intro ch hch
        simp at hch

theorem read_spec (buffer : List (List Nat)) (n : Nat) (hn : 1 ≤ n) :
    (BatchRead.read buffer n).1.flatMap id = buffer.flatMap id ∧
    (∀ ch ∈ (BatchRead.read buffer n).1, ch ≠ [] ∧ ch.length ≤ n) ∧
    (BatchRead.read buffer n).2 = [] := by
  induction buffer with
  | nil =>
    refine ⟨rfl, ?_, rfl⟩
    intro ch hch
    simp [BatchRead.read] at hch
  | cons part rest ih =>
    rw [BatchRead.read]
    by_cases hz : part.length = 0
    · rw [if_pos hz]
      have hpnil : part = [] := List.length_eq_zero.mp hz
      subst hpnil
      refine ⟨?_, ih.2.1, ih.2.2⟩
      simp only [List.flatMap_cons, List.flatMap_nil, id]
      rw [ih.1]
      simp
    · rw [if_neg hz]
      have hmin : min n part.length = min n (part.length - 0) := by omega
      have hspec := readPartLoop_spec part n hn part.length 0 (by omega)
      rw [← hmin] at hspec
      simp only [List.drop_zero] at hspec
      constructor
      · simp only [List.flatMap_append, List.flatMap_cons, id]
        rw [hspec.1, ih.1]
      · constructor
        · intro ch hch
          rcases List.mem_append.mp hch with hch | hch
          · exact hspec.2 ch hch
          · exact ih.2.1 ch hch
        · exact ih.2.2


/-! ### C9 support: entry resolution -/

theorem resolveEntry_eq_none (e d : Option PyStr) :
    RecordMod.resolveEntry e d = none ↔ (e = none ∨ e = some []) ∧ d = none := by
  cases e with
  | none => simp [RecordMod.resolveEntry]
  | some s =>
    rw [RecordMod.resolveEntry]
    by_cases hs : s ≠ []
    · rw [if_pos hs]
      simp [hs]
    · rw [if_neg hs]
      push_neg at hs
      subst hs
      simp

theorem resolveItems_spec (items : List RecordMod.BatchItem) (d : Option PyStr) :
    (RecordMod.resolveItems items d = .ok (items.map (fun it =>
        RecordMod.BatchItem.mk (RecordMod.resolveEntry it.entry d) it.timestamp
          it.data it.content_type it.labels)) ∧
      ∀ item ∈ items, RecordMod.resolveEntry item.entry d ≠ none) ∨
    ((∃ e, RecordMod.resolveItems items d = .error e) ∧
      ∃ item ∈ items, RecordMod.resolveEntry item.entry d = none) := by
  induction items with
  | nil =>
    left
    constructor
    · rfl
    · intro item h
      cases h
  | cons it rest ih =>
    rw [RecordMod.resolveItems, List.foldr_cons]
    cases hres : RecordMod.resolveEntry it.entry d with
    | none =>
      right
      refine ⟨⟨_, rfl⟩, it, by simp, hres⟩
    | some e =>
      rcases ih with ⟨hok, hall⟩ | ⟨⟨msg, herr⟩, bad, hbad, hbadres⟩
      · left
        constructor
        · rw [RecordMod.resolveItems] at hok
          rw [hok]
          simp only [Except.map, List.map_cons]
          rw [hres]
        · intro item hitem
          rcases List.mem_cons.mp hitem with h | h
          · subst h
            rw [hres]
            simp
          · exact hall item h
      · right
        rw [RecordMod.resolveItems] at herr
        rw [herr]
        exact ⟨⟨msg, rfl⟩, bad, by simp [hbad], hbadres⟩

theorem itemLe_total (a b : RecordMod.BatchItem) :
    RecordMod.itemLe a b = true ∨ RecordMod.itemLe b a = true := by
  rw [RecordMod.itemLe, RecordMod.itemLe]
  rcases strLtB_trichotomy (a.entry.getD []) (b.entry.getD []) with h | h | h
  · left
    simp [h]
  · right
    simp [h]
  · rw [h]
    by_cases ht : a.timestamp ≤ b.timestamp
    · left
      simp [ht]
    · right
      simp
      omega

theorem itemLe_trans (a b c : RecordMod.BatchItem) (h1 : RecordMod.itemLe a b = true)
    (h2 : RecordMod.itemLe b c = true) : RecordMod.itemLe a c = true := by
  rw [RecordMod.itemLe] at h1 h2 ⊢
  simp only [Bool.or_eq_true, Bool.and_eq_true, beq_iff_eq, decide_eq_true_eq] at h1 h2 ⊢
  rcases h1 with h1 | ⟨h1e, h1t⟩
  · rcases h2 with h2 | ⟨h2e, h2t⟩
    · exact Or.inl (strLtB_trans _ _ _ h1 h2)
    · rw [h2e] at h1
      exact Or.inl h1
  · rcases h2 with h2 | ⟨h2e, h2t⟩
    · rw [← h1e] at h2
      exact Or.inl h2
    · exact Or.inr ⟨h1e.trans h2e, by omega⟩

/-- C9 (amended): `Batch.sorted_items` raises exactly when no default entry
is supplied and some item's entry is null or the empty string (Python `or`
treats the empty string as absent); otherwise it returns the items with
entries resolved against the default, sorted ascending by
`(resolvedEntry, timestamp)`. -/
theorem C9_sorted_items_resolution (items : List RecordMod.BatchItem)
    (default_entry : Option PyStr) :
    ((∃ e, RecordMod.sorted_items items default_entry = .error e) ↔
      default_entry = none ∧
        ∃ item ∈ items, item.entry = none ∨ item.entry = some []) ∧
    ∀ l, RecordMod.sorted_items items default_entry = .ok l →
      l.Pairwise (fun a b => RecordMod.itemLe a b = true) ∧
      l.Perm (items.map (fun it =>
        RecordMod.BatchItem.mk (RecordMod.resolveEntry it.entry default_entry)
          it.timestamp it.data it.content_type it.labels)) := by
  rcases resolveItems_spec items default_entry with ⟨hok, hall⟩ | ⟨⟨msg, herr⟩, bad, hbad, hbadres⟩
  · constructor
    · constructor
      · intro ⟨e, he⟩
        rw [RecordMod.sorted_items, hok] at he
        cases he
      · intro ⟨hd, item, hitem, hent⟩
        exact absurd ((resolveEntry_eq_none item.entry default_entry).mpr
          ⟨hent, hd⟩) (hall item hitem)
    · intro l hl
      rw [RecordMod.sorted_items, hok] at hl
      simp only [Except.map] at hl
      have hleq : l = insertionSort RecordMod.itemLe (items.map (fun it =>
          RecordMod.BatchItem.mk (RecordMod.resolveEntry it.entry default_entry)
            it.timestamp it.data it.content_type it.labels)) := by
        cases hl
        rfl
      subst hleq
      exact ⟨insertionSort_pairwise _ itemLe_total itemLe_trans _,
        insertionSort_perm _ _⟩
  · constructor
    · constructor
      · intro _
        rcases (resolveEntry_eq_none bad.entry default_entry).mp hbadres with ⟨hb, hd⟩
        exact ⟨hd, bad, hbad, hb⟩
      · intro _
        rw [RecordMod.sorted_items, herr]
        exact ⟨msg, rfl⟩
    · intro l hl
      rw [RecordMod.sorted_items, herr] at hl
      cases hl

/-- C9 witness: a batch of two items, one with a null entry resolved by the
default, sorted by entry then timestamp. -/
theorem C9_sorted_items_resolution_witness :
    (¬ (∃ e, RecordMod.sorted_items
        [RecordMod.BatchItem.mk none 5 [1] [] [], RecordMod.BatchItem.mk (some [97]) 3 [] [] []]
        (some [98]) = .error e)) ∧
    RecordMod.sorted_items
        [RecordMod.BatchItem.mk none 5 [1] [] [], RecordMod.BatchItem.mk (some [97]) 3 [] [] []]
        (some [98]) = .ok
      [RecordMod.BatchItem.mk (some [97]) 3 [] [] [],
       RecordMod.BatchItem.mk (some [98]) 5 [1] [] []] := by
  have h := C9_sorted_items_resolution
    [RecordMod.BatchItem.mk none 5 [1] [] [], RecordMod.BatchItem.mk (some [97]) 3 [] [] []]
    (some [98])
  constructor
  · intro hcontra
    rcases h.1.mp hcontra with ⟨hd, _⟩
    cases hd
  · rfl

/-- C9 counterexample: an item with the explicit empty-string entry and no
default raises, although no item has a null entry — the claim's
"if and only if some item has no explicit entry" fails. -/
theorem C9_counterexample :
    RecordMod.sorted_items [RecordMod.BatchItem.mk (some []) 0 [] [] []] none =
      .error "Entry is not specified for a batch item" ∧
    ∀ item ∈ [RecordMod.BatchItem.mk (some []) 0 [] [] []], item.entry ≠ none := by
  constructor
  · rfl
  · intro item hitem
    rcases List.mem_singleton.mp hitem with rfl
    simp

/-! ### C10: the buffered chunk reader -/

/-- C10: for a chunk size of at least one, the buffered reader yields only
nonempty chunks no longer than the chunk size whose concatenation is the
concatenation of the buffers, and it leaves the buffer empty, so a
subsequent `_read_all` returns the empty byte string. -/
theorem C10_read_chunks (buffer : List (List Nat)) (n : Nat) (hn : 1 ≤ n) :
    (BatchRead.read buffer n).1.flatMap id = BatchRead.read_all buffer ∧
    (∀ ch ∈ (BatchRead.read buffer n).1, ch ≠ [] ∧ ch.length ≤ n) ∧
    (BatchRead.read buffer n).2 = [] ∧
    BatchRead.read_all (BatchRead.read buffer n).2 = [] := by
  have h := read_spec buffer n hn
  refine ⟨h.1, h.2.1, h.2.2, ?_⟩
  rw [h.2.2]
  rfl

/-- C10 witness at a concrete buffer and chunk size. -/
theorem C10_read_chunks_witness :
    1 ≤ 2 ∧
    ((BatchRead.read [[1, 2, 3], [], [4]] 2).1.flatMap id =
        BatchRead.read_all [[1, 2, 3], [], [4]] ∧
      (∀ ch ∈ (BatchRead.read [[1, 2, 3], [], [4]] 2).1, ch ≠ [] ∧ ch.length ≤ 2) ∧
      (BatchRead.read [[1, 2, 3], [], [4]] 2).2 = [] ∧
      BatchRead.read_all (BatchRead.read [[1, 2, 3], [], [4]] 2).2 = []) :=
  ⟨by omega, C10_read_chunks [[1, 2, 3], [], [4]] 2 (by omega)⟩

/-! ### C8: empty-page transitions of the query loops -/

/-- C8: a fetch with no content (HTTP 204) makes the one-shot query loop
terminate without yielding any record, makes the subscribe loop sleep for
the poll interval and then fetch again, and no fetch result ever makes the
subscribe loop terminate. -/
theorem C8_empty_page_transitions {τ : Type} (poll_interval : τ) :
    (∀ last, BucketMod.query_step last .noContent = .terminate []) ∧
    BucketMod.subscribe_step poll_interval .noContent =
      .sleepThenFetch poll_interval ∧
    ∀ resp, BucketMod.subscribe_step poll_interval resp ≠ .terminate := by
  refine ⟨?_, rfl, ?_⟩
  · intro last
    cases last <;> rfl
  · intro resp h
    cases resp <;> simp [BucketMod.subscribe_step] at h

/-- C8 witness at a concrete poll interval. -/
theorem C8_empty_page_transitions_witness :
    (∀ last, BucketMod.query_step last .noContent = .terminate []) ∧
    BucketMod.subscribe_step (2 : Nat) .noContent = .sleepThenFetch 2 ∧
    ∀ resp, BucketMod.subscribe_step (2 : Nat) resp ≠ .terminate :=
  C8_empty_page_transitions 2


/-! ### splitFirst / splitLast facts -/

theorem splitFirst_eq_none (c : Nat) (l : PyStr) (h : c ∉ l) :
    splitFirst c l = none := by
  induction l with
  | nil => rfl
  | cons x xs ih =>
    rw [splitFirst, if_neg (fun hx => h (by simp [hx]))]
    rw [ih (fun hx => h (by simp [hx]))]
    rfl

theorem splitFirst_of_append (c : Nat) (u v : PyStr) (hu : c ∉ u) :
    splitFirst c (u ++ c :: v) = some (u, v) := by
  induction u with
  | nil =>
    simp only [List.nil_append]
    rw [splitFirst, if_pos rfl]
  | cons x xs ih =>
    simp only [List.cons_append]
    rw [splitFirst, if_neg (fun hx => hu (by simp [hx]))]
    rw [ih (fun hx => hu (by simp [hx]))]
    rfl

theorem splitLast_of_append (c : Nat) (u v : PyStr) (hv : c ∉ v) :
    splitLast c (u ++ c :: v) = some (u, v) := by
  rw [splitLast]
  have hrev : (u ++ c :: v).reverse = v.reverse ++ c :: u.reverse := by
    simp
  rw [hrev, splitFirst_of_append c v.reverse u.reverse (by simpa using hv)]
  simp

/-! ### C6: empty-batch encoding -/

/-- C6 (amended): the `batch_v2.py` encoder maps the empty batch to content
length 0 with exactly the empty entries header, the zero start timestamp
and the body content type — in particular no per-record header; the
streaming encoder of `v2.py` instead emits only the content type. -/
theorem C6_empty_batch_headers :
    BatchV2.make_headers_v2_batch [] =
      (0, [(strLit "x-reduct-entries", []),
           (strLit "x-reduct-start-ts", strLit "0"),
           (strLit "Content-Type", strLit "application/octet-stream")]) ∧
    BatchV2.sort_headers_by_entry_and_time (BatchV2.make_headers_v2_batch []).2 = [] ∧
    V2.make_headers_v2 [] =
      (0, [(strLit "Content-Type", strLit "application/octet-stream")]) := by
  refine ⟨rfl, ?_, rfl⟩
  rfl

/-- C6 counterexample: the `v2.py` encoder on the empty batch emits no
entries header and no start-ts header at all, refuting the claim for that
cited encoder. -/
theorem C6_counterexample :
    dictGet (V2.make_headers_v2 []).2 (strLit "x-reduct-entries") = none ∧
    dictGet (V2.make_headers_v2 []).2 (strLit "x-reduct-start-ts") = none := by
  constructor <;> rfl

/-! ### C7: first-record segment requirement -/

/-- C7 (amended): for a size-only header value (no comma, integer size),
`batch_v2.py` raises when no previous header of the entry exists and
otherwise copies the previous content type and labels; the `v2.py` parser
instead falls back to the default content type and empty labels. -/
theorem C7_first_record_segment (raw : PyStr) (label_names : Option (List PyStr))
    (n : Int) (hc : 44 ∉ raw) (hn : pyParseInt (pyStrip raw) = some n) :
    BatchV2.parse_record_header_with_defaults raw none label_names =
      .error "Content-type and labels must be provided for the first record of an entry" ∧
    ∀ p : BatchV2.RecordHeader,
      BatchV2.parse_record_header_with_defaults raw (some p) label_names =
        .ok (BatchV2.RecordHeader.mk n p.content_type p.labels) := by
  have hsplit : splitFirst 44 raw = none := splitFirst_eq_none 44 raw hc
  constructor
  · rw [BatchV2.parse_record_header_with_defaults, hsplit]
    dsimp only
    rw [hn]
  · intro p
    rw [BatchV2.parse_record_header_with_defaults, hsplit]
    dsimp only
    rw [hn]

/-- C7 witness at the header value `5`. -/
theorem C7_first_record_segment_witness :
    (44 ∉ strLit "5" ∧ pyParseInt (pyStrip (strLit "5")) = some 5) ∧
    (BatchV2.parse_record_header_with_defaults (strLit "5") none none =
      .error "Content-type and labels must be provided for the first record of an entry" ∧
    ∀ p : BatchV2.RecordHeader,
      BatchV2.parse_record_header_with_defaults (strLit "5") (some p) none =
        .ok (BatchV2.RecordHeader.mk 5 p.content_type p.labels)) :=
  ⟨⟨by decide, by rfl⟩, C7_first_record_segment (strLit "5") none 5 (by decide) (by rfl)⟩

/-- C7 counterexample: the `v2.py` record-header parser does not raise on a
size-only first record — it substitutes the default content type and empty
labels. -/
theorem C7_counterexample :
    V2.parse_record_header_v2 (strLit "5") none none =
      some (5, strLit "application/octet-stream", []) := by
  rfl


/-! ### C3: entry-name codec round-trip -/

/-- C3 (amended): the entry-name codec round-trips every encodable string
without a percent sign, and the urllib quote codec of `_encode_list`
round-trips every encodable string.  Percent is itself a tchar, so
`_encode_entry_name` emits it unescaped and its round trip breaks on
strings containing it. -/
theorem C3_entry_name_roundtrip (s : PyStr) (hs : ∀ c ∈ s, ValidScalar c)
    (hnp : 37 ∉ s) :
    BatchV2.decode_entry_name (BatchV2.encode_entry_name s) = .ok s ∧
    pyUnquote (pyQuote s) = some s :=
  ⟨BatchV2.decode_encode_entry_name s hs hnp, pyUnquote_quote s hs⟩

/-- C3 witness on a string with a space, a slash and a non-ASCII letter. -/
theorem C3_entry_name_roundtrip_witness :
    ((∀ c ∈ strLit "a ö/b", ValidScalar c) ∧ 37 ∉ strLit "a ö/b") ∧
    (BatchV2.decode_entry_name (BatchV2.encode_entry_name (strLit "a ö/b")) =
        .ok (strLit "a ö/b") ∧
      pyUnquote (pyQuote (strLit "a ö/b")) = some (strLit "a ö/b")) :=
  ⟨⟨by decide, by decide⟩,
   C3_entry_name_roundtrip (strLit "a ö/b") (by decide) (by decide)⟩

/-- C3 counterexample: percent is a tchar, so the string `%41` encodes to
itself and decodes to `A`. -/
theorem C3_counterexample :
    BatchV2.encode_entry_name (strLit "%41") = strLit "%41" ∧
    BatchV2.decode_entry_name (BatchV2.encode_entry_name (strLit "%41")) =
      .ok (strLit "A") ∧
    strLit "A" ≠ strLit "%41" := by
  refine ⟨rfl, rfl, ?_⟩
  decide

/-! ### Canonical label-map lemmas -/

theorem strLtB_ne (a b : PyStr) (h : strLtB a b = true) : a ≠ b := by
  intro he
  subst he
  rw [strLtB_irrefl] at h
  cases h

theorem lmapLookup_nil (k : PyStr) : lmapLookup [] k = none := rfl

theorem lmapLookup_cons (k1 : PyStr) (v1 : PyStr) (m : LMap) (k : PyStr) :
    lmapLookup ((k1, v1) :: m) k = if k1 = k then some v1 else lmapLookup m k := by
  simp only [lmapLookup, List.find?_cons]
  by_cases h : k1 = k
  · subst h
    simp
  · have hb : ((k1, v1).1 == k) = false := by simpa using h
    rw [hb, if_neg h]

theorem lmapLookup_insert (k v : PyStr) (m : LMap) :
    lmapLookup (lmapInsert k v m) k = some v := by
  induction m with
  | nil =>
    rw [lmapInsert, lmapLookup_cons, if_pos rfl]
  | cons kv rest ih =>
    obtain ⟨k1, v1⟩ := kv
    rw [lmapInsert]
    split
    · rw [lmapLookup_cons, if_pos rfl]
    · split
      · rw [lmapLookup_cons, if_pos rfl]
      · rename_i hlt heq
        rw [lmapLookup_cons, if_neg (fun h => heq h.symm)]
        exact ih

theorem lmapLookup_insert_ne (k v : PyStr) (m : LMap) (k2 : PyStr) (hne : k2 ≠ k) :
    lmapLookup (lmapInsert k v m) k2 = lmapLookup m k2 := by
  induction m with
  | nil =>
    rw [lmapInsert, lmapLookup_cons, if_neg (fun h => hne h.symm)]
  | cons kv rest ih =>
    obtain ⟨k1, v1⟩ := kv
    rw [lmapInsert]
    split
    · rw [lmapLookup_cons, if_neg (fun h => hne h.symm)]
    · split
      · rename_i hlt heq
        subst heq
        rw [lmapLookup_cons, if_neg (fun h => hne h.symm), lmapLookup_cons,
          if_neg (fun h => hne h.symm)]
      · rw [lmapLookup_cons, lmapLookup_cons]
        split
        · rfl
        · exact ih

theorem lmapErase_sublist (k : PyStr) (m : LMap) : (lmapErase k m).Sublist m := by
  induction m with
  | nil => simp [lmapErase]
  | cons kv rest ih =>
    obtain ⟨k1, v1⟩ := kv
    rw [lmapErase]
    split
    · exact List.sublist_cons_self _ _
    · exact List.Sublist.cons₂ _ ih

theorem LCanon_erase (k : PyStr) (m : LMap) (hm : LCanon m) :
    LCanon (lmapErase k m) :=
  List.Pairwise.sublist (lmapErase_sublist k m) hm

theorem LCanon_cons_lookup_none (k1 : PyStr) (v1 : PyStr) (m : LMap)
    (hm : LCanon ((k1, v1) :: m)) : lmapLookup m k1 = none := by
  rcases List.pairwise_cons.mp hm with ⟨hall, _⟩
  have hf : m.find? (fun kv => kv.1 == k1) = none := by
    rw [List.find?_eq_none]
    intro kv hkv
    simp only [beq_iff_eq]
    intro hc
    exact strLtB_ne k1 kv.1 (hall kv hkv) hc.symm
  rw [lmapLookup, hf]
  rfl

theorem lmapLookup_lt_none (k k2 : PyStr) (v2 : PyStr) (rest2 : LMap)
    (h2 : LCanon ((k2, v2) :: rest2)) (hlt : strLtB k k2 = true) :
    lmapLookup ((k2, v2) :: rest2) k = none := by
  rw [lmapLookup_cons, if_neg (fun he => strLtB_ne k k2 hlt he.symm)]
  rcases List.pairwise_cons.mp h2 with ⟨hall, _⟩
  have hf : rest2.find? (fun kv => kv.1 == k) = none := by
    rw [List.find?_eq_none]
    intro kv hkv
    simp only [beq_iff_eq]
    intro hc
    exact strLtB_ne k kv.1 (strLtB_trans _ _ _ hlt (hall kv hkv)) hc.symm
  rw [lmapLookup, hf]
  rfl

theorem lmapLookup_eq_some_of_mem (m : LMap) (hm : LCanon m) (kv : PyStr × PyStr)
    (hmem : kv ∈ m) : lmapLookup m kv.1 = some kv.2 := by
  induction m with
  | nil => cases hmem
  | cons hd rest ih =>
    obtain ⟨k1, v1⟩ := hd
    rcases List.mem_cons.mp hmem with h | h
    · subst h
      rw [lmapLookup_cons, if_pos rfl]
    · rcases List.pairwise_cons.mp hm with ⟨hall, hrest⟩
      rw [lmapLookup_cons, if_neg (strLtB_ne k1 kv.1 (hall kv h))]
      exact ih hrest h

theorem mem_lmapInsert (k v : PyStr) (m : LMap) (z : PyStr × PyStr)
    (hz : z ∈ lmapInsert k v m) : z = (k, v) ∨ z ∈ m := by
  induction m with
  | nil =>
    rw [lmapInsert] at hz
    rcases List.mem_singleton.mp hz with rfl
    exact Or.inl rfl
  | cons kv1 rest ih =>
    obtain ⟨k1, v1⟩ := kv1
    rw [lmapInsert] at hz
    split at hz
    · rcases List.mem_cons.mp hz with h | h
      · exact Or.inl h
      · exact Or.inr h
    · split at hz
      · rcases List.mem_cons.mp hz with h | h
        · exact Or.inl h
        · exact Or.inr (List.mem_cons_of_mem _ h)
      · rcases List.mem_cons.mp hz with h | h
        · exact Or.inr (h ▸ List.mem_cons_self _ _)
        · rcases ih h with h2 | h2
          · exact Or.inl h2
          · exact Or.inr (List.mem_cons_of_mem _ h2)

theorem LCanon_insert (k v : PyStr) (m : LMap) (hm : LCanon m) :
    LCanon (lmapInsert k v m) := by
  induction m with
  | nil =>
    rw [lmapInsert]
    simp [LCanon]
  | cons kv rest ih =>
    obtain ⟨k1, v1⟩ := kv
    rcases List.pairwise_cons.mp hm with ⟨hall, hrest⟩
    rw [lmapInsert]
    split
    · rename_i hlt
      refine List.pairwise_cons.mpr ⟨?_, hm⟩
      intro z hz
      rcases List.mem_cons.mp hz with hz | hz
      · subst hz
        exact hlt
      · exact strLtB_trans _ _ _ hlt (hall z hz)
    · split
      · rename_i hlt heq
        subst heq
        exact List.pairwise_cons.mpr ⟨hall, hrest⟩
      · rename_i hlt heq
        refine List.pairwise_cons.mpr ⟨?_, ih hrest⟩
        intro z hz
        rcases mem_lmapInsert k v rest z hz with hz2 | hz2
        · subst hz2
          rcases strLtB_trichotomy k1 k with h | h | h
          · exact h
          · exact absurd h (by simpa using hlt)
          · exact absurd h.symm heq
        · exact hall z hz2

theorem lmapEq_of_lookup (m1 : LMap) : ∀ m2 : LMap, LCanon m1 → LCanon m2 →
    (∀ k, lmapLookup m1 k = lmapLookup m2 k) → m1 = m2 := by
  induction m1 with
  | nil =>
    intro m2 _ h2 h
    cases m2 with
    | nil => rfl
    | cons kv rest =>
      obtain ⟨k2, v2⟩ := kv
      have := h k2
      rw [lmapLookup_nil, lmapLookup_cons, if_pos rfl] at this
      cases this
  | cons kv rest ih =>
    obtain ⟨k1, v1⟩ := kv
    intro m2 h1 h2 h
    cases m2 with
    | nil =>
      have := h k1
      rw [lmapLookup_nil, lmapLookup_cons, if_pos rfl] at this
      cases this
    | cons kv2 rest2 =>
      obtain ⟨k2, v2⟩ := kv2
      have hkeq : k1 = k2 := by
        rcases strLtB_trichotomy k1 k2 with hlt | hgt | heq
        · exfalso
          have ha := h k1
          rw [lmapLookup_cons, if_pos rfl,
            lmapLookup_lt_none k1 k2 v2 rest2 h2 hlt] at ha
          cases ha
        · exfalso
          have ha := h k2
          rw [lmapLookup_lt_none k2 k1 v1 rest h1 hgt] at ha
          rw [lmapLookup_cons, if_pos rfl] at ha
          cases ha
        · exact heq
      subst hkeq
      have hveq : v1 = v2 := by
        have ha := h k1
        rw [lmapLookup_cons, if_pos rfl, lmapLookup_cons, if_pos rfl] at ha
        exact Option.some.inj ha
      subst hveq
      congr 1
      refine ih rest2 (List.Pairwise.of_cons h1) (List.Pairwise.of_cons h2) ?_
      intro k
      by_cases hk : k = k1
      · subst hk
        rw [LCanon_cons_lookup_none k v1 rest h1, LCanon_cons_lookup_none k v1 rest2 h2]
      · have := h k
        rw [lmapLookup_cons, lmapLookup_cons, if_neg (fun hx => hk hx.symm),
          if_neg (fun hx => hk hx.symm)] at this
        exact this


/-! ### Scanner correctness for encoded label deltas -/

theorem pyStrip_no_space (l : PyStr) (h : ∀ c ∈ l, ¬ isSpaceChar c) :
    pyStrip l = l := by
  rw [pyStrip]
  have hd : ∀ m : PyStr, (∀ c ∈ m, ¬ isSpaceChar c) →
      m.dropWhile (fun c => decide (isSpaceChar c)) = m := by
    intro m hm
    cases m with
    | nil => rfl
    | cons x xs =>
      rw [List.dropWhile_cons_of_neg]
      simp
      exact hm x (by simp)
  rw [hd l h, hd l.reverse (fun c hc => h c (List.mem_reverse.mp hc)), List.reverse_reverse]

theorem intercalate44_singleton (x : PyStr) : List.intercalate [44] [x] = x := by
  simp [List.intercalate, List.intersperse]

theorem intercalate44_cons_cons (x y : PyStr) (ys : List PyStr) :
    List.intercalate [44] (x :: y :: ys) = x ++ 44 :: List.intercalate [44] (y :: ys) := by
  simp [List.intercalate, List.intersperse]

theorem parseOpValue_empty : V2.parseOpValue [] = some (none, []) := rfl

theorem parseOpValue_quote (tl v rest2 : PyStr)
    (h : splitFirst 34 tl = some (v, rest2)) :
    V2.parseOpValue (34 :: tl) = some (some v, V2.skipComma rest2) := by
  rw [V2.parseOpValue, h]

theorem parseOpValue_not_quote_split (c : Nat) (tl seg rest2 : PyStr)
    (hc : c ≠ 34) (h : splitFirst 44 (c :: tl) = some (seg, rest2)) :
    V2.parseOpValue (c :: tl) =
      some (if pyStrip seg = [] then none else some (pyStrip seg), rest2) := by
  rw [V2.parseOpValue.eq_def]
  split
  · rename_i heq
    cases heq
    exact absurd rfl hc
  · rw [h]

theorem parseOpValue_not_quote_nosplit (c : Nat) (tl : PyStr)
    (hc : c ≠ 34) (h : splitFirst 44 (c :: tl) = none) :
    V2.parseOpValue (c :: tl) =
      some (if pyStrip (c :: tl) = [] then none else some (pyStrip (c :: tl)), []) := by
  rw [V2.parseOpValue.eq_def]
  split
  · rename_i heq
    cases heq
    exact absurd rfl hc
  · rw [h]


theorem skipComma_nil : V2.skipComma [] = [] := rfl

theorem skipComma_comma (T : PyStr) : V2.skipComma (44 :: T) = T := by
  rw [V2.skipComma, if_pos rfl]

theorem segEnc_eq (op : PyStr × Option PyStr) :
    segEnc op = op.1 ++ 61 :: encValOpt op.2 := by
  rw [segEnc]
  cases op.2 with
  | none => simp [encValOpt]
  | some v => simp [encValOpt]

theorem parseOpValue_enc (val : Option PyStr) (tail : PyStr)
    (hv : ∀ v, val = some v → SafeVal v)
    (ht : tail = [] ∨ ∃ T, tail = 44 :: T) :
    V2.parseOpValue (encValOpt val ++ tail) =
      some (val, V2.skipComma tail) := by
  cases val with
  | none =>
    simp only [encValOpt, List.nil_append]
    rcases ht with rfl | ⟨T, rfl⟩
    · exact parseOpValue_empty
    · rw [parseOpValue_not_quote_split 44 T [] T (by omega)
        (by rw [splitFirst, if_pos rfl])]
      rw [skipComma_comma]
      rfl
  | some v =>
    obtain ⟨hvne, hvq, hvstrip⟩ := hv v rfl
    simp only [encValOpt]
    rw [V2.encode_header_value]
    by_cases hq : 44 ∈ v ∨ 61 ∈ v
    · rw [if_pos hq]
      have hshape : (34 :: (v ++ [34])) ++ tail = 34 :: (v ++ 34 :: tail) := by
        simp
      rw [hshape]
      rw [parseOpValue_quote (v ++ 34 :: tail) v tail (splitFirst_of_append 34 v tail hvq)]
    · rw [if_neg hq]
      push_neg at hq
      obtain ⟨hv44, hv61⟩ := hq
      cases hvc : v with
      | nil => exact absurd hvc hvne
      | cons vh vt =>
        have hvh34 : vh ≠ 34 := by
          intro hcontra
          exact hvq (by rw [hvc, hcontra]; simp)
        rcases ht with rfl | ⟨T, rfl⟩
        · simp only [List.append_nil]
          rw [parseOpValue_not_quote_nosplit vh vt hvh34
            (by rw [← hvc]; exact splitFirst_eq_none 44 v hv44)]
          rw [← hvc, hvstrip, if_neg hvne]
          rfl
        · have hsp : splitFirst 44 (vh :: (vt ++ 44 :: T)) = some (vh :: vt, T) := by
            have h0 := splitFirst_of_append 44 v T hv44
            rw [hvc] at h0
            simpa using h0
          simp only [List.cons_append]
          rw [parseOpValue_not_quote_split vh (vt ++ 44 :: T) (vh :: vt) T hvh34 hsp]
          rw [← hvc, hvstrip, if_neg hvne, skipComma_comma]



/-- One step of the delta scanner on an encoded segment followed by a
comma-started (or empty) tail. -/
theorem parseOpsLoop_enc_step (label_names : Option (List PyStr))
    (op : PyStr × Option PyStr) (tail : PyStr) (f : Nat)
    (hkey : SafeKey op.1) (hval : ∀ v, op.2 = some v → SafeVal v)
    (ht : tail = [] ∨ ∃ T, tail = 44 :: T) :
    V2.parseOpsLoop label_names (f + 1) (segEnc op ++ tail) =
      (V2.mapKey label_names op.1, op.2) ::
        V2.parseOpsLoop label_names f (V2.skipComma tail) := by
  obtain ⟨hkne, hksp, hk61, hk44, hk34⟩ := hkey
  rw [segEnc_eq]
  cases hk : op.1 with
  | nil => exact absurd hk hkne
  | cons kh kt =>
    have hkh : ¬ isSpaceChar kh := by
      apply hksp
      rw [hk]
      simp
    simp only [List.append_assoc, List.cons_append]
    rw [V2.parseOpsLoop]
    dsimp only
    rw [List.dropWhile_cons_of_neg (by simpa using hkh)]
    rw [if_neg (List.cons_ne_nil _ _)]
    have hsp : splitFirst 61 (kh :: (kt ++ 61 :: (encValOpt op.2 ++ tail))) =
        some (kh :: kt, encValOpt op.2 ++ tail) := by
      have h0 := splitFirst_of_append 61 op.1 (encValOpt op.2 ++ tail) hk61
      rw [hk] at h0
      simpa using h0
    rw [hsp]
    dsimp only
    rw [← hk, pyStrip_no_space op.1 hksp]
    rw [parseOpValue_enc op.2 tail hval ht]
    exact fun h => List.noConfusion h

/-- The scanner recovers the encoded op list, mapping each encoded key
through `_map_key`. -/
theorem parseOpsLoop_enc (label_names : Option (List PyStr)) :
    ∀ opsE : List (PyStr × Option PyStr), ∀ fuel,
    (∀ op ∈ opsE, SafeKey op.1 ∧ ∀ v, op.2 = some v → SafeVal v) →
    opsE.length ≤ fuel →
    V2.parseOpsLoop label_names fuel (List.intercalate [44] (opsE.map segEnc)) =
      opsE.map (fun op => (V2.mapKey label_names op.1, op.2)) := by
  intro opsE
  induction opsE with
  | nil =>
    intro fuel _ _
    cases fuel <;> rfl
  | cons op rest ih =>
    intro fuel hsafe hfuel
    obtain ⟨hkey, hval⟩ := hsafe op (by simp)
    have hsafer : ∀ o ∈ rest, SafeKey o.1 ∧ ∀ v, o.2 = some v → SafeVal v :=
      fun o ho => hsafe o (by simp [ho])
    cases fuel with
    | zero => simp at hfuel
    | succ f =>
      have hfr : rest.length ≤ f := by simp at hfuel; omega
      cases rest with
      | nil =>
        simp only [List.map_cons, List.map_nil]
        rw [intercalate44_singleton]
        have := parseOpsLoop_enc_step label_names op [] f hkey hval (Or.inl rfl)
        simp only [List.append_nil] at this
        rw [this, skipComma_nil]
        cases f <;> rfl
      | cons r rs =>
        simp only [List.map_cons]
        rw [intercalate44_cons_cons]
        rw [parseOpsLoop_enc_step label_names op _ f hkey hval (Or.inr ⟨_, rfl⟩)]
        rw [skipComma_comma]
        have hih := ih f hsafer hfr
        simp only [List.map_cons] at hih ⊢
        rw [hih]


theorem lmapLookup_erase (k : PyStr) (m : LMap) (hm : LCanon m) :
    lmapLookup (lmapErase k m) k = none := by
  induction m with
  | nil => rfl
  | cons kv rest ih =>
    obtain ⟨k1, v1⟩ := kv
    rw [lmapErase]
    split
    · rename_i heq
      subst heq
      exact LCanon_cons_lookup_none k v1 rest hm
    · rename_i hne
      rw [lmapLookup_cons, if_neg (fun h => hne h.symm)]
      exact ih (List.Pairwise.of_cons hm)

theorem lmapLookup_erase_ne (k : PyStr) (m : LMap) (k2 : PyStr) (hne : k2 ≠ k) :
    lmapLookup (lmapErase k m) k2 = lmapLookup m k2 := by
  induction m with
  | nil => rfl
  | cons kv rest ih =>
    obtain ⟨k1, v1⟩ := kv
    rw [lmapErase]
    split
    · rename_i heq
      subst heq
      rw [lmapLookup_cons, if_neg (fun h => hne h.symm)]
    · rw [lmapLookup_cons, lmapLookup_cons]
      split
      · rfl
      · exact ih

theorem mem_of_lmapLookup (m : LMap) (k v : PyStr)
    (h : lmapLookup m k = some v) : (k, v) ∈ m := by
  rw [lmapLookup] at h
  cases hf : m.find? (fun kv => kv.1 == k) with
  | none =>
    rw [hf] at h
    cases h
  | some kv =>
    rw [hf] at h
    have hmem := List.mem_of_find?_eq_some hf
    have hp := List.find?_some hf
    simp only [beq_iff_eq] at hp
    dsimp only [Option.map] at h
    obtain ⟨k1, v1⟩ := kv
    cases h
    cases hp
    exact hmem

theorem intercalate44_length_ge (l : List PyStr) (h : ∀ x ∈ l, x ≠ []) :
    l.length ≤ (List.intercalate [44] l).length := by
  induction l with
  | nil => simp
  | cons a t ih =>
    have ha : 1 ≤ a.length := by
      have hne : a ≠ [] := h a (by simp)
      cases a with
      | nil => exact absurd rfl hne
      | cons x xs => simp
    cases t with
    | nil =>
      rw [intercalate44_singleton]
      simpa using ha
    | cons b t2 =>
      rw [intercalate44_cons_cons]
      have ih2 := ih (fun x hx => h x (by simp [hx]))
      simp only [List.length_cons, List.length_append] at ih2 ⊢
      omega

theorem segEncIdx_nil : V2.segEncIdx [] = segEnc := by
  funext op
  obtain ⟨k1, o1⟩ := op
  cases o1 <;> rfl

theorem labels_delta_nil_eq (P C : LMap) :
    V2.labels_delta P C [] =
      (if V2.deltaOps P C = [] then none
       else some (List.intercalate [44] ((V2.deltaOps P C).map segEnc))) := by
  rw [V2.labels_delta, segEncIdx_nil]

theorem applyOps_lookup_not_mem :
    ∀ (ops : List (PyStr × Option PyStr)) (base : LMap) (k : PyStr),
    (∀ op ∈ ops, op.1 ≠ k) →
    lmapLookup (V2.applyOps ops base) k = lmapLookup base k := by
  intro ops
  induction ops with
  | nil =>
    intro base k _
    rfl
  | cons op rest ih =>
    intro base k h
    have hop : op.1 ≠ k := h op (by simp)
    have hrest : ∀ o ∈ rest, o.1 ≠ k := fun o ho => h o (by simp [ho])
    obtain ⟨k1, o1⟩ := op
    cases o1 with
    | none =>
      have hstep : V2.applyOps ((k1, none) :: rest) base =
          V2.applyOps rest (lmapErase k1 base) := by
        simp only [V2.applyOps, List.foldl_cons]
      rw [hstep, ih _ k hrest]
      exact lmapLookup_erase_ne k1 base k (fun he => hop he.symm)
    | some v =>
      have hstep : V2.applyOps ((k1, some v) :: rest) base =
          V2.applyOps rest (lmapInsert k1 v base) := by
        simp only [V2.applyOps, List.foldl_cons]
      rw [hstep, ih _ k hrest]
      exact lmapLookup_insert_ne k1 v base k (fun he => hop he.symm)

theorem applyOps_canon :
    ∀ (ops : List (PyStr × Option PyStr)) (base : LMap), LCanon base →
    LCanon (V2.applyOps ops base) := by
  intro ops
  induction ops with
  | nil =>
    intro base hb
    exact hb
  | cons op rest ih =>
    intro base hb
    obtain ⟨k1, o1⟩ := op
    cases o1 with
    | none =>
      have hstep : V2.applyOps ((k1, none) :: rest) base =
          V2.applyOps rest (lmapErase k1 base) := by
        simp only [V2.applyOps, List.foldl_cons]
      rw [hstep]
      exact ih _ (LCanon_erase k1 base hb)
    | some v =>
      have hstep : V2.applyOps ((k1, some v) :: rest) base =
          V2.applyOps rest (lmapInsert k1 v base) := by
        simp only [V2.applyOps, List.foldl_cons]
      rw [hstep]
      exact ih _ (LCanon_insert k1 v base hb)

theorem applyOps_lookup_mem :
    ∀ (ops : List (PyStr × Option PyStr)) (base : LMap) (k : PyStr)
      (o : Option PyStr), LCanon base →
    List.Pairwise (fun a b => a.1 ≠ b.1) ops → (k, o) ∈ ops →
    lmapLookup (V2.applyOps ops base) k = o := by
  intro ops
  induction ops with
  | nil =>
    intro base k o _ _ h
    cases h
  | cons op rest ih =>
    intro base k o hb hpw hmem
    rcases List.pairwise_cons.mp hpw with ⟨hhead, hrest_pw⟩
    rcases List.mem_cons.mp hmem with heq | hmem2
    · subst heq
      have hne : ∀ b ∈ rest, b.1 ≠ k := fun b hbm => (hhead b hbm).symm
      cases o with
      | none =>
        have hstep : V2.applyOps ((k, none) :: rest) base =
            V2.applyOps rest (lmapErase k base) := by
          simp only [V2.applyOps, List.foldl_cons]
        rw [hstep, applyOps_lookup_not_mem rest _ k hne]
        exact lmapLookup_erase k base hb
      | some v =>
        have hstep : V2.applyOps ((k, some v) :: rest) base =
            V2.applyOps rest (lmapInsert k v base) := by
          simp only [V2.applyOps, List.foldl_cons]
        rw [hstep, applyOps_lookup_not_mem rest _ k hne]
        exact lmapLookup_insert k v base
    · obtain ⟨k1, o1⟩ := op
      cases o1 with
      | none =>
        have hstep : V2.applyOps ((k1, none) :: rest) base =
            V2.applyOps rest (lmapErase k1 base) := by
          simp only [V2.applyOps, List.foldl_cons]
        rw [hstep]
        exact ih _ k o (LCanon_erase k1 base hb) hrest_pw hmem2
      | some v =>
        have hstep : V2.applyOps ((k1, some v) :: rest) base =
            V2.applyOps rest (lmapInsert k1 v base) := by
          simp only [V2.applyOps, List.foldl_cons]
        rw [hstep]
        exact ih _ k o (LCanon_insert k1 v base hb) hrest_pw hmem2


theorem deltaOps_change_mem (P C : LMap) (kv : PyStr × PyStr) (hkv : kv ∈ C)
    (hne : ¬ lmapLookup P kv.1 = some kv.2) :
    (kv.1, some kv.2) ∈ V2.deltaOps P C := by
  rw [V2.deltaOps]
  apply List.mem_append_left
  exact List.mem_map.mpr ⟨kv, List.mem_filter.mpr ⟨hkv, by simpa using hne⟩, rfl⟩

theorem deltaOps_removal_mem (P C : LMap) (kv : PyStr × PyStr) (hkv : kv ∈ P)
    (hn : lmapLookup C kv.1 = none) :
    (kv.1, (none : Option PyStr)) ∈ V2.deltaOps P C := by
  rw [V2.deltaOps]
  apply List.mem_append_right
  exact List.mem_map.mpr ⟨kv, List.mem_filter.mpr ⟨hkv, by simpa using hn⟩, rfl⟩

theorem deltaOps_mem_char (P C : LMap) (z : PyStr × Option PyStr)
    (hz : z ∈ V2.deltaOps P C) :
    (∃ kv, kv ∈ C ∧ ¬ lmapLookup P kv.1 = some kv.2 ∧ z = (kv.1, some kv.2)) ∨
    (∃ kv, kv ∈ P ∧ lmapLookup C kv.1 = none ∧ z = (kv.1, none)) := by
  rw [V2.deltaOps] at hz
  rcases List.mem_append.mp hz with hz | hz
  · left
    rcases List.mem_map.mp hz with ⟨kv, hf, hzeq⟩
    rcases List.mem_filter.mp hf with ⟨hkv, hpred⟩
    exact ⟨kv, hkv, by simpa using hpred, hzeq.symm⟩
  · right
    rcases List.mem_map.mp hz with ⟨kv, hf, hzeq⟩
    rcases List.mem_filter.mp hf with ⟨hkv, hpred⟩
    exact ⟨kv, hkv, by simpa using hpred, hzeq.symm⟩

theorem deltaOps_keys_pairwise (P C : LMap) (hP : LCanon P) (hC : LCanon C) :
    List.Pairwise (fun a b : PyStr × Option PyStr => a.1 ≠ b.1)
      (V2.deltaOps P C) := by
  rw [V2.deltaOps]
  apply List.pairwise_append.mpr
  refine ⟨?_, ?_, ?_⟩
  · refine List.pairwise_map.mpr ?_
    have hCpw : List.Pairwise (fun a b : PyStr × PyStr => strLtB a.1 b.1 = true)
        (C.filter (fun kv => ! (lmapLookup P kv.1 == some kv.2))) :=
      List.Pairwise.sublist (List.filter_sublist C) hC
    exact hCpw.imp (fun h => strLtB_ne _ _ h)
  · refine List.pairwise_map.mpr ?_
    have hPpw : List.Pairwise (fun a b : PyStr × PyStr => strLtB a.1 b.1 = true)
        (P.filter (fun kv => lmapLookup C kv.1 == none)) :=
      List.Pairwise.sublist (List.filter_sublist P) hP
    exact hPpw.imp (fun h => strLtB_ne _ _ h)
  · intro a ha b hb
    rcases List.mem_map.mp ha with ⟨kva, hfa, haeq⟩
    rcases List.mem_map.mp hb with ⟨kvb, hfb, hbeq⟩
    rcases List.mem_filter.mp hfa with ⟨hkva, _⟩
    rcases List.mem_filter.mp hfb with ⟨hkvb, hpredb⟩
    subst haeq
    subst hbeq
    intro hcontra
    have h1 : lmapLookup C kva.1 = some kva.2 :=
      lmapLookup_eq_some_of_mem C hC kva hkva
    have h2 : lmapLookup C kvb.1 = none := by simpa using hpredb
    rw [hcontra, h2] at h1
    cases h1

theorem deltaOps_nil_eq (P C : LMap) (hP : LCanon P) (hC : LCanon C)
    (h0 : V2.deltaOps P C = []) : P = C := by
  refine lmapEq_of_lookup P C hP hC ?_
  intro k
  cases hc : lmapLookup C k with
  | some v =>
    by_cases hp : lmapLookup P k = some v
    · rw [hp]
    · have := deltaOps_change_mem P C (k, v) (mem_of_lmapLookup C k v hc) hp
      rw [h0] at this
      cases this
  | none =>
    cases hp : lmapLookup P k with
    | none => rfl
    | some w =>
      have := deltaOps_removal_mem P C (k, w) (mem_of_lmapLookup P k w hp) hc
      rw [h0] at this
      cases this

theorem applyOps_deltaOps (P C : LMap) (hP : LCanon P) (hC : LCanon C) :
    V2.applyOps (V2.deltaOps P C) P = C := by
  refine lmapEq_of_lookup _ C (applyOps_canon _ P hP) hC ?_
  intro k
  by_cases hk : ∃ o, (k, o) ∈ V2.deltaOps P C
  · obtain ⟨o, ho⟩ := hk
    rw [applyOps_lookup_mem (V2.deltaOps P C) P k o hP
      (deltaOps_keys_pairwise P C hP hC) ho]
    rcases deltaOps_mem_char P C (k, o) ho with
      ⟨kv, hkv, _, heq⟩ | ⟨kv, hkv, hn, heq⟩
    · have h1 : k = kv.1 := congrArg Prod.fst heq
      have h2 : o = some kv.2 := congrArg Prod.snd heq
      rw [h1, h2, lmapLookup_eq_some_of_mem C hC kv hkv]
    · have h1 : k = kv.1 := congrArg Prod.fst heq
      have h2 : o = none := congrArg Prod.snd heq
      rw [h1, h2, hn]
  · have hnk : ∀ op ∈ V2.deltaOps P C, op.1 ≠ k := by
      intro op hop hcontra
      exact hk ⟨op.2, by rw [← hcontra]; simpa using hop⟩
    rw [applyOps_lookup_not_mem _ P k hnk]
    cases hc : lmapLookup C k with
    | some v =>
      by_cases hp : lmapLookup P k = some v
      · rw [hp]
      · exact absurd rfl
          (hnk (k, some v)
            (deltaOps_change_mem P C (k, v) (mem_of_lmapLookup C k v hc) hp))
    | none =>
      cases hp : lmapLookup P k with
      | none => rfl
      | some w =>
        exact absurd rfl
          (hnk (k, none)
            (deltaOps_removal_mem P C (k, w) (mem_of_lmapLookup P k w hp) hc))

/-- C4: the label delta-then-apply roundtrip of `v2.py` reproduces the
current map `C` from the previous map `P` — and when no delta is emitted
the two maps were already equal — for canonical (key-sorted) maps whose
keys and values fit the unescaped wire syntax (keys nonempty without
whitespace, comma, equals or quote; values nonempty, quote-free and
strip-invariant).  The claim as stated, for arbitrary maps including
empty-string values, is refuted separately: an empty value encodes as a
removal op. -/
theorem C4_label_delta_roundtrip (P C : LMap)
    (hP : LCanon P) (hC : LCanon C)
    (hPsafe : ∀ kv ∈ P, SafeKey kv.1 ∧ SafeVal kv.2)
    (hCsafe : ∀ kv ∈ C, SafeKey kv.1 ∧ SafeVal kv.2) :
    (V2.labels_delta P C [] = none → P = C) ∧
    (∀ raw, V2.labels_delta P C [] = some raw →
      V2.apply_label_delta raw P none = C) := by
  have hops_safe : ∀ op ∈ V2.deltaOps P C,
      SafeKey op.1 ∧ ∀ v, op.2 = some v → SafeVal v := by
    intro op hop
    rcases deltaOps_mem_char P C op hop with ⟨kv, hkv, _, rfl⟩ | ⟨kv, hkv, _, rfl⟩
    · exact ⟨(hCsafe kv hkv).1, fun v hv => by cases hv; exact (hCsafe kv hkv).2⟩
    · exact ⟨(hPsafe kv hkv).1, fun v hv => by cases hv⟩
  have hseg_ne : ∀ x ∈ (V2.deltaOps P C).map segEnc, x ≠ [] := by
    intro x hx
    rcases List.mem_map.mp hx with ⟨op, _, rfl⟩
    rw [segEnc_eq]
    simp
  constructor
  · intro hnone
    rw [labels_delta_nil_eq] at hnone
    by_cases h0 : V2.deltaOps P C = []
    · exact deltaOps_nil_eq P C hP hC h0
    · rw [if_neg h0] at hnone
      cases hnone
  · intro raw hraw
    rw [labels_delta_nil_eq] at hraw
    by_cases h0 : V2.deltaOps P C = []
    · rw [if_pos h0] at hraw
      cases hraw
    · rw [if_neg h0] at hraw
      have hraweq : raw = List.intercalate [44] ((V2.deltaOps P C).map segEnc) :=
        (Option.some.inj hraw).symm
      subst hraweq
      rw [V2.apply_label_delta]
      have hfuel : (V2.deltaOps P C).length ≤
          (List.intercalate [44] ((V2.deltaOps P C).map segEnc)).length := by
        have h := intercalate44_length_ge ((V2.deltaOps P C).map segEnc) hseg_ne
        simpa using h
      have hparse : V2.parse_label_delta_ops
          (List.intercalate [44] ((V2.deltaOps P C).map segEnc)) none =
          V2.deltaOps P C := by
        rw [V2.parse_label_delta_ops]
        rw [parseOpsLoop_enc none (V2.deltaOps P C) _ hops_safe hfuel]
        simp [V2.mapKey]
      rw [hparse]
      exact applyOps_deltaOps P C hP hC

theorem C4_label_delta_roundtrip_witness :
    V2.apply_label_delta (strLit "a=y,b=z") [(strLit "a", strLit "x")] none =
      [(strLit "a", strLit "y"), (strLit "b", strLit "z")] := by
  have h := C4_label_delta_roundtrip [(strLit "a", strLit "x")]
    [(strLit "a", strLit "y"), (strLit "b", strLit "z")]
    (by unfold LCanon; decide) (by unfold LCanon; decide)
    (by unfold SafeKey SafeVal; decide) (by unfold SafeKey SafeVal; decide)
  exact h.2 (strLit "a=y,b=z") rfl

/-- C4 as claimed fails on an empty-string value: the delta from the
empty map to `{"a": ""}` encodes as the op `a=`, which decodes as a
removal, so applying it yields the empty map, not the current map. -/
theorem C4_counterexample :
    ∃ raw, V2.labels_delta [] [(strLit "a", [])] [] = some raw ∧
      V2.apply_label_delta raw [] none ≠ [(strLit "a", [])] :=
  ⟨strLit "a=", rfl, by decide⟩


/-! ### C5: decode-side sorting -/

/-- C5: both decoders sort their collected per-record headers ascending by
`(entryIndex, delta)` — equivalently `(entryIndex, timestamp)`, the
timestamp being `startTs + delta` — whatever the order of the raw header
map. -/
theorem C5_decode_sorted (headers : List (PyStr × PyStr)) :
    (V2.sortHeaders (V2.collectHeadersV2 headers)).Pairwise
      (fun a b => a.1 < b.1 ∨ (a.1 = b.1 ∧ a.2.1 ≤ b.2.1)) ∧
    (BatchV2.sort_headers_by_entry_and_time headers).Pairwise
      (fun a b => a.1 < b.1 ∨ (a.1 = b.1 ∧ a.2.1 ≤ b.2.1)) := by
  constructor
  · have h := insertionSort_pairwise V2.hdrLe
      (by intro a b; simp only [V2.hdrLe, decide_eq_true_eq]; omega)
      (by intro a b c; simp only [V2.hdrLe, decide_eq_true_eq]; omega)
      (V2.collectHeadersV2 headers)
    rw [V2.sortHeaders]
    refine h.imp ?_
    intro a b hab
    simpa [V2.hdrLe] using hab
  · have h := insertionSort_pairwise
      (fun a b : Int × Int × PyStr =>
        decide (a.1 < b.1 ∨ (a.1 = b.1 ∧ a.2.1 ≤ b.2.1)))
      (by intro a b; simp only [decide_eq_true_eq]; omega)
      (by intro a b c; simp only [decide_eq_true_eq]; omega)
      (headers.foldr (fun nv acc =>
        let low := pyLower nv.1
        if ¬ pyStartsWith (strLit "x-reduct-") low then acc
        else if pyStartsWith (strLit "x-reduct-error-") low then acc
        else
          match splitLast 45 (low.drop 9) with
          | none => acc
          | some (eis, ds) =>
            if pyIsDigit eis ∧ pyIsDigit ds then
              match parseDigits eis, parseDigits ds with
              | some ei, some d => ((ei : Int), (d : Int), nv.2) :: acc
              | _, _ => acc
            else acc) [])
    rw [BatchV2.sort_headers_by_entry_and_time]
    refine h.imp ?_
    intro a b hab
    simpa using hab


/-! ### C2: entry index bounds -/

theorem parseHeadersLoop_oob (entries : List PyStr) (start_ts : Int)
    (label_names : Option (List PyStr)) :
    ∀ (hs : List (Int × Int × PyStr)) (last : List (PyStr × BatchV2.RecordHeader)),
    (∃ h ∈ hs, h.1 < 0 ∨ (entries.length : Int) ≤ h.1) →
    ∃ e, BatchV2.parseHeadersLoop entries start_ts label_names last hs =
      .error e := by
  intro hs
  induction hs with
  | nil =>
    intro last hex
    obtain ⟨h, hm, _⟩ := hex
    cases hm
  | cons h rest ih =>
    intro last hex
    rw [BatchV2.parseHeadersLoop]
    by_cases hob : h.1 < 0 ∨ (entries.length : Int) ≤ h.1
    · rw [if_pos hob]
      exact ⟨_, rfl⟩
    · rw [if_neg hob]
      obtain ⟨h2, hm2, hoob2⟩ := hex
      rcases List.mem_cons.mp hm2 with rfl | hm3
      · exact absurd hoob2 hob
      · dsimp only
        cases hp : BatchV2.parse_record_header_with_defaults h.2.2
            (dictGet last (entries.getD h.1.toNat [])) label_names with
        | error e =>
          exact ⟨e, rfl⟩
        | ok hdr =>
          obtain ⟨e, he⟩ := ih (dictSet last (entries.getD h.1.toNat []) hdr)
            ⟨h2, hm3, hoob2⟩
          refine ⟨e, ?_⟩
          dsimp only
          rw [he]
          rfl

/-- C2 (amended): the strict `batch_v2.py` header parser raises on any
per-record header whose entry index is at least the number of listed
entries; the lenient `v2.py` decoder instead silently skips such a header
(refuted separately). -/
theorem C2_entry_index_bounds (headers : List (PyStr × PyStr))
    (entries : List PyStr)
    (hent : BatchV2.parse_entries_header headers = .ok entries)
    (hd : Int × Int × PyStr)
    (hmem : hd ∈ BatchV2.sort_headers_by_entry_and_time headers)
    (hoob : (entries.length : Int) ≤ hd.1) :
    ∃ e, BatchV2.parse_batched_headers headers = .error e := by
  rw [BatchV2.parse_batched_headers, hent]
  dsimp only
  cases hts : BatchV2.parse_start_timestamp headers with
  | error e => exact ⟨e, rfl⟩
  | ok start_ts =>
    dsimp only
    cases hlg : dictGet headers (strLit "x-reduct-labels") with
    | none =>
      dsimp only
      exact parseHeadersLoop_oob entries start_ts none
        (BatchV2.sort_headers_by_entry_and_time headers) []
        ⟨hd, hmem, Or.inr hoob⟩
    | some lraw =>
      dsimp only
      by_cases hle : lraw = []
      · rw [if_pos hle]
        exact parseHeadersLoop_oob entries start_ts none
          (BatchV2.sort_headers_by_entry_and_time headers) []
          ⟨hd, hmem, Or.inr hoob⟩
      · rw [if_neg hle]
        cases hlp : BatchV2.parse_labels_header lraw with
        | error e => exact ⟨e, rfl⟩
        | ok names =>
          dsimp only [Except.map]
          exact parseHeadersLoop_oob entries start_ts (some names)
            (BatchV2.sort_headers_by_entry_and_time headers) []
            ⟨hd, hmem, Or.inr hoob⟩

theorem C2_entry_index_bounds_witness :
    (BatchV2.parse_entries_header
        [(strLit "x-reduct-entries", strLit "a"),
         (strLit "x-reduct-start-ts", strLit "0"),
         (strLit "x-reduct-0-0", strLit "1,text/plain"),
         (strLit "x-reduct-5-0", strLit "2,text/plain")] = .ok [strLit "a"] ∧
      ((5 : Int), (0 : Int), strLit "2,text/plain") ∈
        BatchV2.sort_headers_by_entry_and_time
          [(strLit "x-reduct-entries", strLit "a"),
           (strLit "x-reduct-start-ts", strLit "0"),
           (strLit "x-reduct-0-0", strLit "1,text/plain"),
           (strLit "x-reduct-5-0", strLit "2,text/plain")] ∧
      (([strLit "a"].length : Int) ≤ 5)) ∧
    ∃ e, BatchV2.parse_batched_headers
        [(strLit "x-reduct-entries", strLit "a"),
         (strLit "x-reduct-start-ts", strLit "0"),
         (strLit "x-reduct-0-0", strLit "1,text/plain"),
         (strLit "x-reduct-5-0", strLit "2,text/plain")] = .error e :=
  ⟨⟨rfl, by decide, by decide⟩,
   C2_entry_index_bounds
     [(strLit "x-reduct-entries", strLit "a"),
      (strLit "x-reduct-start-ts", strLit "0"),
      (strLit "x-reduct-0-0", strLit "1,text/plain"),
      (strLit "x-reduct-5-0", strLit "2,text/plain")]
     [strLit "a"] rfl ((5 : Int), (0 : Int), strLit "2,text/plain")
     (by decide) (by decide)⟩

/-- C2 counterexample: the `v2.py` decoder neither raises nor yields a
record for the out-of-range header `x-reduct-5-0` — it silently skips it
and returns the one in-range record. -/
theorem C2_counterexample :
    V2.parse_batched_records_v2
      [(strLit "x-reduct-entries", strLit "a"),
       (strLit "x-reduct-start-ts", strLit "0"),
       (strLit "x-reduct-0-0", strLit "1,text/plain"),
       (strLit "x-reduct-5-0", strLit "2,text/plain")] =
      some [DecodedRecord.mk (strLit "a") 0 1 (strLit "text/plain") []] := by
  rfl


/-! ### Decimal formatting and parsing round-trip -/

theorem natDecimalGo_congr : ∀ (n f1 f2 : Nat), n ≤ f1 → n ≤ f2 →
    natDecimalGo f1 n = natDecimalGo f2 n := by
  intro n
  induction n using Nat.strong_induction_on with
  | _ n ih =>
    intro f1 f2 h1 h2
    cases f1 with
    | zero =>
      have hn0 : n = 0 := by omega
      subst hn0
      cases f2 with
      | zero => rfl
      | succ g2 =>
        rw [natDecimalGo, natDecimalGo, if_pos (by omega : (0 : Nat) < 10)]
    | succ g1 =>
      cases f2 with
      | zero =>
        have hn0 : n = 0 := by omega
        subst hn0
        rw [natDecimalGo, natDecimalGo, if_pos (by omega : (0 : Nat) < 10)]
      | succ g2 =>
        rw [natDecimalGo, natDecimalGo]
        by_cases hn : n < 10
        · rw [if_pos hn, if_pos hn]
        · rw [if_neg hn, if_neg hn]
          rw [ih (n / 10) (by omega) g1 g2 (by omega) (by omega)]

theorem natDecimal_unfold (n : Nat) : natDecimal n =
    (if n < 10 then [48 + n] else natDecimal (n / 10) ++ [48 + n % 10]) := by
  by_cases hn : n < 10
  · rw [if_pos hn]
    cases n with
    | zero => rfl
    | succ m =>
      rw [natDecimal, natDecimalGo, if_pos hn]
  · rw [if_neg hn]
    cases n with
    | zero => exact absurd (by omega) hn
    | succ m =>
      rw [natDecimal, natDecimalGo, if_neg hn, natDecimal]
      rw [natDecimalGo_congr ((m + 1) / 10) m ((m + 1) / 10) (by omega) (by omega)]

theorem natDecimal_digits (n : Nat) : ∀ c ∈ natDecimal n, isDigitChar c := by
  induction n using Nat.strong_induction_on with
  | _ n ih =>
    rw [natDecimal_unfold]
    split
    · rename_i h
      intro c hc
      simp only [List.mem_singleton] at hc
      subst hc
      constructor <;> omega
    · rename_i h
      intro c hc
      rcases List.mem_append.mp hc with hc | hc
      · exact ih (n / 10) (Nat.div_lt_self (by omega) (by omega)) c hc
      · simp only [List.mem_singleton] at hc
        subst hc
        have := Nat.mod_lt n (show 0 < 10 by omega)
        constructor <;> omega

theorem natDecimal_ne_nil (n : Nat) : natDecimal n ≠ [] := by
  rw [natDecimal_unfold]
  split
  · simp
  · simp

theorem natDecimal_foldl (n : Nat) : ∀ a : Nat,
    (natDecimal n).foldl (fun m c => m * 10 + (c - 48)) a =
      a * 10 ^ (natDecimal n).length + n := by
  induction n using Nat.strong_induction_on with
  | _ n ih =>
    intro a
    rw [natDecimal_unfold]
    split
    · rename_i h
      simp only [List.foldl_cons, List.foldl_nil, List.length_cons,
        List.length_nil]
      have : 48 + n - 48 = n := by omega
      rw [this, pow_one]
    · rename_i h
      rw [List.foldl_append]
      simp only [List.foldl_cons, List.foldl_nil, List.length_append,
        List.length_cons, List.length_nil]
      rw [ih (n / 10) (Nat.div_lt_self (by omega) (by omega)) a]
      have h48 : 48 + n % 10 - 48 = n % 10 := by omega
      rw [h48]
      have hpow : 10 ^ ((natDecimal (n / 10)).length + (0 + 1)) =
          10 ^ (natDecimal (n / 10)).length * 10 := by
        rw [pow_succ]
      rw [hpow]
      have hmod : n / 10 * 10 + n % 10 = n := by omega
      ring_nf
      omega

theorem parseDigits_go (l : List Nat) : ∀ a : Nat, (∀ c ∈ l, isDigitChar c) →
    l.foldl (fun acc c =>
      acc.bind (fun n => if isDigitChar c then some (n * 10 + (c - 48)) else none))
      (some a) =
    some (l.foldl (fun m c => m * 10 + (c - 48)) a) := by
  induction l with
  | nil =>
    intro a _
    rfl
  | cons c t ih =>
    intro a h
    simp only [List.foldl_cons]
    have hc : isDigitChar c := h c (by simp)
    have hstep : (Option.bind (some a) (fun n =>
        if isDigitChar c then some (n * 10 + (c - 48)) else none)) =
        some (a * 10 + (c - 48)) := by
      rw [Option.bind]
      rw [if_pos hc]
    rw [hstep]
    exact ih _ (fun x hx => h x (by simp [hx]))

theorem parseDigits_natDecimal (n : Nat) : parseDigits (natDecimal n) = some n := by
  have hd := natDecimal_digits n
  cases hnd : natDecimal n with
  | nil => exact absurd hnd (natDecimal_ne_nil n)
  | cons x xs =>
    have hfold : parseDigits (x :: xs) = (x :: xs).foldl (fun acc c =>
        acc.bind (fun m =>
          if isDigitChar c then some (m * 10 + (c - 48)) else none)) (some 0) := rfl
    rw [hfold, parseDigits_go (x :: xs) 0 (by rw [← hnd]; exact hd)]
    have := natDecimal_foldl n 0
    rw [hnd] at this
    rw [this]
    simp

theorem pyIsDigit_natDecimal (n : Nat) : pyIsDigit (natDecimal n) :=
  ⟨natDecimal_ne_nil n, natDecimal_digits n⟩

theorem natDecimal_not_space (n : Nat) : ∀ c ∈ natDecimal n, ¬ isSpaceChar c := by
  intro c hc
  have := natDecimal_digits n c hc
  rw [isDigitChar] at this
  rw [isSpaceChar]
  omega

theorem pyParseInt_digits (x : Nat) (xs : List Nat)
    (hall : ∀ c ∈ x :: xs, isDigitChar c) :
    pyParseInt (x :: xs) = (parseDigits (x :: xs)).map (fun n => (n : Int)) := by
  rw [pyParseInt]
  have hstrip : pyStrip (x :: xs) = x :: xs := by
    apply pyStrip_no_space
    intro c hc
    have := hall c hc
    rw [isDigitChar] at this
    rw [isSpaceChar]
    omega
  rw [hstrip]
  have hx := hall x (by simp)
  rw [isDigitChar] at hx
  split
  · rename_i heq
    exact absurd (List.head_eq_of_cons_eq heq).symm (by omega)
  · rename_i heq
    exact absurd (List.head_eq_of_cons_eq heq).symm (by omega)
  · rfl

theorem pyParseInt_natDecimal (n : Nat) :
    pyParseInt (natDecimal n) = some (n : Int) := by
  cases hnd : natDecimal n with
  | nil => exact absurd hnd (natDecimal_ne_nil n)
  | cons x xs =>
    rw [pyParseInt_digits x xs (by rw [← hnd]; exact natDecimal_digits n)]
    rw [← hnd, parseDigits_natDecimal n]
    rfl

theorem pyParseInt_intDecimal (i : Int) :
    pyParseInt (intDecimal i) = some i := by
  rw [intDecimal]
  split
  · rename_i hneg
    rw [pyParseInt]
    have hstrip : pyStrip (45 :: natDecimal (-i).toNat) =
        45 :: natDecimal (-i).toNat := by
      apply pyStrip_no_space
      intro c hc
      rcases List.mem_cons.mp hc with rfl | hc
      · rw [isSpaceChar]
        omega
      · exact natDecimal_not_space _ c hc
    rw [hstrip]
    dsimp only
    rw [parseDigits_natDecimal]
    have htn : (((-i).toNat : Int)) = -i := Int.toNat_of_nonneg (by omega)
    show some (-(((-i).toNat : Int))) = some i
    rw [htn]
    simp
  · rename_i hneg
    rw [pyParseInt_natDecimal]
    have htn : ((i.toNat : Int)) = i := Int.toNat_of_nonneg (by omega)
    rw [htn]


/-! ### Label-index encoding of the delta keys -/

theorem natDecimal_safeKey (n : Nat) : SafeKey (natDecimal n) := by
  have hd := natDecimal_digits n
  refine ⟨natDecimal_ne_nil n, natDecimal_not_space n, ?_, ?_, ?_⟩
  · intro hmem
    have := hd 61 hmem
    rw [isDigitChar] at this
    omega
  · intro hmem
    have := hd 44 hmem
    rw [isDigitChar] at this
    omega
  · intro hmem
    have := hd 34 hmem
    rw [isDigitChar] at this
    omega

theorem idxOfStr_lt_length (names : List PyStr) (k : PyStr) :
    ∀ hk : k ∈ names, idxOfStr names k < names.length := by
  induction names with
  | nil =>
    intro hk
    cases hk
  | cons a t ih =>
    intro hk
    rw [idxOfStr]
    by_cases hak : a = k
    · rw [if_pos hak]
      simp
    · rw [if_neg hak]
      have hkt : k ∈ t := by
        rcases List.mem_cons.mp hk with h | h
        · exact absurd h.symm hak
        · exact h
      simpa using ih hkt

theorem getD_idxOfStr (names : List PyStr) (k : PyStr) :
    ∀ hk : k ∈ names, names.getD (idxOfStr names k) [] = k := by
  induction names with
  | nil =>
    intro hk
    cases hk
  | cons a t ih =>
    intro hk
    rw [idxOfStr]
    by_cases hak : a = k
    · rw [if_pos hak]
      exact hak
    · rw [if_neg hak]
      have hkt : k ∈ t := by
        rcases List.mem_cons.mp hk with h | h
        · exact absurd h.symm hak
        · exact h
      exact ih hkt

theorem idxLookup_enumFrom (names : List PyStr) : ∀ (n : Nat) (k : PyStr),
    k ∈ names →
    V2.idxLookup ((List.enumFrom n names).map (fun p => (p.2, p.1))) k =
      some (n + idxOfStr names k) := by
  induction names with
  | nil =>
    intro n k hk
    cases hk
  | cons a t ih =>
    intro n k hk
    rw [V2.idxLookup]
    simp only [List.enumFrom, List.map_cons, List.find?_cons]
    by_cases hak : a = k
    · subst hak
      have hba : ((a, n).1 == a) = true := by simp
      rw [hba]
      rw [idxOfStr, if_pos rfl]
      rfl
    · have hba : ((a, n).1 == k) = false := by simpa using hak
      rw [hba]
      have hkt : k ∈ t := by
        rcases List.mem_cons.mp hk with h | h
        · exact absurd h.symm hak
        · exact h
      have := ih (n + 1) k hkt
      rw [V2.idxLookup] at this
      rw [this, idxOfStr, if_neg hak]
      congr 1
      omega

theorem idxLookup_enum (names : List PyStr) (k : PyStr) (hk : k ∈ names) :
    V2.idxLookup ((names.enum).map (fun p => (p.2, p.1))) k =
      some (idxOfStr names k) := by
  have := idxLookup_enumFrom names 0 k hk
  simpa [List.enum] using this

theorem mapKey_natDecimal (names : List PyStr) (i : Nat) (hi : i < names.length) :
    V2.mapKey (some names) (natDecimal i) = names.getD i [] := by
  rw [V2.mapKey]
  rw [if_pos (pyIsDigit_natDecimal i), parseDigits_natDecimal]
  dsimp only
  rw [if_pos hi]

theorem mapKey_idxOfStr (names : List PyStr) (k : PyStr) (hk : k ∈ names) :
    V2.mapKey (some names) (natDecimal (idxOfStr names k)) = k := by
  rw [mapKey_natDecimal names _ (idxOfStr_lt_length names k hk)]
  exact getD_idxOfStr names k hk

theorem intercalate44_ne_nil (l : List PyStr) (hl : l ≠ [])
    (hx : ∀ x ∈ l, x ≠ []) : List.intercalate [44] l ≠ [] := by
  cases l with
  | nil => exact absurd rfl hl
  | cons a t =>
    cases t with
    | nil =>
      rw [intercalate44_singleton]
      exact hx a (by simp)
    | cons b t2 =>
      rw [intercalate44_cons_cons]
      have : a ≠ [] := hx a (by simp)
      cases a with
      | nil => exact absurd rfl this
      | cons x xs => simp

theorem labels_delta_eq (P C : LMap) (li : List (PyStr × Nat)) :
    V2.labels_delta P C li =
      (if V2.deltaOps P C = [] then none
       else some (List.intercalate [44]
         ((V2.deltaOps P C).map (V2.segEncIdx li)))) := by
  rw [V2.labels_delta]

theorem segEncIdx_enum (names : List PyStr) (op : PyStr × Option PyStr)
    (hk : op.1 ∈ names) :
    V2.segEncIdx ((names.enum).map (fun p => (p.2, p.1))) op =
      segEnc (natDecimal (idxOfStr names op.1), op.2) := by
  rw [V2.segEncIdx, idxLookup_enum names op.1 hk]
  obtain ⟨k1, o1⟩ := op
  cases o1 <;> rfl

theorem apply_labels_delta_idx (names : List PyStr) (P C : LMap)
    (hP : LCanon P) (hC : LCanon C)
    (hkeys : ∀ op ∈ V2.deltaOps P C, op.1 ∈ names)
    (hvals : ∀ op ∈ V2.deltaOps P C, ∀ v, op.2 = some v → SafeVal v)
    (lp : PyStr)
    (hlp : V2.labels_delta P C ((names.enum).map (fun p => (p.2, p.1))) =
      some lp) :
    lp ≠ [] ∧ V2.apply_label_delta lp P (some names) = C := by
  rw [labels_delta_eq] at hlp
  by_cases h0 : V2.deltaOps P C = []
  · rw [if_pos h0] at hlp
    cases hlp
  · rw [if_neg h0] at hlp
    have hlift : (V2.deltaOps P C).map
        (V2.segEncIdx ((names.enum).map (fun p => (p.2, p.1)))) =
        ((V2.deltaOps P C).map
          (fun op => (natDecimal (idxOfStr names op.1), op.2))).map segEnc := by
      rw [List.map_map]
      exact List.map_congr_left (fun op hop => segEncIdx_enum names op (hkeys op hop))
    rw [hlift] at hlp
    have hlpv : lp = List.intercalate [44]
        (((V2.deltaOps P C).map
          (fun op => (natDecimal (idxOfStr names op.1), op.2))).map segEnc) :=
      (Option.some.inj hlp).symm
    have hsegne : ∀ x ∈ ((V2.deltaOps P C).map
        (fun op => (natDecimal (idxOfStr names op.1), op.2))).map segEnc, x ≠ [] := by
      intro x hx
      rcases List.mem_map.mp hx with ⟨op, _, rfl⟩
      rw [segEnc_eq]
      simp
    constructor
    · rw [hlpv]
      apply intercalate44_ne_nil _ _ hsegne
      simp [h0]
    · subst hlpv
      rw [V2.apply_label_delta]
      have hops_safe : ∀ op ∈ (V2.deltaOps P C).map
          (fun op => (natDecimal (idxOfStr names op.1), op.2)),
          SafeKey op.1 ∧ ∀ v, op.2 = some v → SafeVal v := by
        intro op hop
        rcases List.mem_map.mp hop with ⟨op0, hop0, rfl⟩
        exact ⟨natDecimal_safeKey _, fun v hv => hvals op0 hop0 v hv⟩
      have hfuel : ((V2.deltaOps P C).map
          (fun op => (natDecimal (idxOfStr names op.1), op.2))).length ≤
          (List.intercalate [44] (((V2.deltaOps P C).map
            (fun op => (natDecimal (idxOfStr names op.1), op.2))).map segEnc)).length := by
        have h := intercalate44_length_ge _ hsegne
        simpa using h
      have hparse : V2.parse_label_delta_ops
          (List.intercalate [44] (((V2.deltaOps P C).map
            (fun op => (natDecimal (idxOfStr names op.1), op.2))).map segEnc))
          (some names) = V2.deltaOps P C := by
        rw [V2.parse_label_delta_ops]
        rw [parseOpsLoop_enc (some names) _ _ hops_safe hfuel]
        rw [List.map_map]
        have hpt : ∀ op ∈ V2.deltaOps P C,
            ((fun op => (V2.mapKey (some names) op.1, op.2)) ∘
              (fun op => (natDecimal (idxOfStr names op.1), op.2))) op = op := by
          intro op hop
          simp only [Function.comp]
          rw [mapKey_idxOfStr names op.1 (hkeys op hop)]
        rw [List.map_congr_left hpt]
        simp
      rw [hparse]
      exact applyOps_deltaOps P C hP hC


theorem labels_delta_idx_none (P C : LMap) (hP : LCanon P) (hC : LCanon C)
    (li : List (PyStr × Nat)) (h : V2.labels_delta P C li = none) : P = C := by
  rw [labels_delta_eq] at h
  by_cases h0 : V2.deltaOps P C = []
  · exact deltaOps_nil_eq P C hP hC h0
  · rw [if_neg h0] at h
    cases h

/-! ### Per-record header names -/

theorem intDecimal_nonneg (i : Int) (h : 0 ≤ i) :
    intDecimal i = natDecimal i.toNat := by
  rw [intDecimal, if_neg (by omega)]

theorem intDecimal_chars (i : Int) :
    ∀ c ∈ intDecimal i, c = 45 ∨ isDigitChar c := by
  intro c hc
  rw [intDecimal] at hc
  split at hc
  · rcases List.mem_cons.mp hc with rfl | hc
    · exact Or.inl rfl
    · exact Or.inr (natDecimal_digits _ c hc)
  · exact Or.inr (natDecimal_digits _ c hc)

theorem pyLower_eq_self : ∀ s : PyStr, (∀ c ∈ s, ¬ (65 ≤ c ∧ c ≤ 90)) →
    pyLower s = s := by
  intro s
  induction s with
  | nil =>
    intro _
    rfl
  | cons c t ih =>
    intro h
    rw [pyLower]
    simp only [List.map_cons]
    rw [if_neg (h c (List.mem_cons_self _ _))]
    congr 1
    exact ih (fun x hx => h x (List.mem_cons_of_mem _ hx))

theorem pyLower_headerName (idx : Nat) (delta : Int) :
    pyLower (V2.headerName idx delta) = V2.headerName idx delta := by
  apply pyLower_eq_self
  intro c hc
  rw [V2.headerName] at hc
  rcases List.mem_append.mp hc with hc | hc
  · rcases List.mem_append.mp hc with hc | hc
    · rcases List.mem_append.mp hc with hc | hc
      · have hc2 : c ∈ [120, 45, 114, 101, 100, 117, 99, 116, 45] := hc
        simp only [List.mem_cons, List.not_mem_nil, or_false] at hc2
        rcases hc2 with rfl | rfl | rfl | rfl | rfl | rfl | rfl | rfl | rfl <;>
          omega
      · have := natDecimal_digits idx c hc
        rw [isDigitChar] at this
        omega
    · rcases List.mem_singleton.mp hc with rfl
      omega
  · rcases intDecimal_chars delta c hc with rfl | hdig
    · omega
    · rw [isDigitChar] at hdig
      omega

theorem headerName_startsWith (idx : Nat) (delta : Int) :
    pyStartsWith (strLit "x-reduct-") (V2.headerName idx delta) := by
  rw [pyStartsWith, V2.headerName]
  rw [List.append_assoc, List.append_assoc]
  exact List.prefix_append _ _

theorem headerName_not_error (idx : Nat) (delta : Int) :
    ¬ pyStartsWith (strLit "x-reduct-error-") (V2.headerName idx delta) := by
  intro h
  rw [pyStartsWith, V2.headerName] at h
  rw [List.append_assoc, List.append_assoc] at h
  cases hnd : natDecimal idx with
  | nil => exact absurd hnd (natDecimal_ne_nil idx)
  | cons x xs =>
    rw [hnd] at h
    have hx := natDecimal_digits idx x (by rw [hnd]; simp)
    rw [isDigitChar] at hx
    have h9 : strLit "x-reduct-" = [120, 45, 114, 101, 100, 117, 99, 116, 45] :=
      rfl
    have he : strLit "x-reduct-error-" =
        [120, 45, 114, 101, 100, 117, 99, 116, 45, 101, 114, 114, 111, 114, 45] :=
      rfl
    rw [h9, he] at h
    simp only [List.cons_append, List.nil_append, List.cons_prefix_cons,
      true_and] at h
    omega

theorem headerName_drop9 (idx : Nat) (delta : Int) :
    (V2.headerName idx delta).drop 9 = natDecimal idx ++ 45 :: intDecimal delta := by
  rw [V2.headerName]
  rw [List.append_assoc, List.append_assoc]
  rw [show strLit "x-reduct-" = [120, 45, 114, 101, 100, 117, 99, 116, 45] from rfl]
  rw [List.drop_left' (show ([120, 45, 114, 101, 100, 117, 99, 116, 45] :
    List Nat).length = 9 from rfl)]
  rfl

theorem recordHeaderKey_headerName (idx : Nat) (delta : Int) (hd : 0 ≤ delta) :
    V2.recordHeaderKey (pyLower (V2.headerName idx delta)) = some (idx, delta) := by
  rw [pyLower_headerName]
  rw [V2.recordHeaderKey]
  rw [if_pos ⟨headerName_startsWith idx delta, headerName_not_error idx delta⟩]
  rw [headerName_drop9]
  have h45 : 45 ∉ intDecimal delta := by
    rw [intDecimal_nonneg delta hd]
    intro hmem
    have := natDecimal_digits _ 45 hmem
    rw [isDigitChar] at this
    omega
  rw [splitLast_of_append 45 (natDecimal idx) (intDecimal delta) h45]
  dsimp only
  rw [if_pos (pyIsDigit_natDecimal idx)]
  rw [parseDigits_natDecimal, pyParseInt_intDecimal]

theorem recordHeaderKey_entries :
    V2.recordHeaderKey (pyLower (strLit "x-reduct-entries")) = none := by
  rfl

theorem recordHeaderKey_start_ts :
    V2.recordHeaderKey (pyLower (strLit "x-reduct-start-ts")) = none := by
  rfl

theorem recordHeaderKey_labels :
    V2.recordHeaderKey (pyLower (strLit "x-reduct-labels")) = none := by
  rfl

theorem recordHeaderKey_content_type :
    V2.recordHeaderKey (pyLower (strLit "Content-Type")) = none := by
  rfl


/-! ### Encoded-list round-trip -/

theorem hexUp_props (n : Nat) : hexUp n ≠ 44 ∧ ¬ isSpaceChar (hexUp n) := by
  rw [hexUp, isSpaceChar]
  split <;> omega

theorem quoteByte_props (b : Nat) :
    ∀ x ∈ quoteByte b, x ≠ 44 ∧ ¬ isSpaceChar x := by
  intro x hx
  rw [quoteByte] at hx
  split at hx
  · rename_i h
    rcases List.mem_singleton.mp hx with rfl
    rw [quoteSafeByte] at h
    rw [isSpaceChar]
    rcases h with h | h | h | h | h | h | h <;> omega
  · simp only [List.mem_cons, List.not_mem_nil, or_false] at hx
    rcases hx with rfl | rfl | rfl
    · rw [isSpaceChar]
      omega
    · exact hexUp_props _
    · exact hexUp_props _

theorem pyQuote_props (s : PyStr) :
    ∀ x ∈ pyQuote s, x ≠ 44 ∧ ¬ isSpaceChar x := by
  intro x hx
  rw [pyQuote] at hx
  rcases List.mem_flatMap.mp hx with ⟨b, _, hxb⟩
  exact quoteByte_props b x hxb

theorem quoteByte_ne_nil (b : Nat) : quoteByte b ≠ [] := by
  rw [quoteByte]
  split <;> simp

theorem pyQuote_ne_nil (s : PyStr) (hs : s ≠ []) : pyQuote s ≠ [] := by
  cases s with
  | nil => exact absurd rfl hs
  | cons c t =>
    rw [pyQuote]
    have h1 : utf8Encode (c :: t) = utf8EncodeChar c ++ utf8Encode t := rfl
    rw [h1]
    cases he : utf8EncodeChar c with
    | nil => exact absurd he (utf8EncodeChar_ne_nil c)
    | cons b bs =>
      simp only [List.cons_append, List.flatMap_cons]
      cases hq : quoteByte b with
      | nil => exact absurd hq (quoteByte_ne_nil b)
      | cons y ys => simp

theorem parse_encoded_foldr (items : List PyStr)
    (hv : ∀ e ∈ items, ∀ c ∈ e, ValidScalar c)
    (hnn : ∀ e ∈ items, e ≠ []) :
    (items.map pyQuote).foldr (fun item acc =>
      acc.bind (fun xs =>
        let t := pyStrip item
        if t = [] then some xs
        else (pyUnquote t).map (fun x => x :: xs))) (some []) = some items := by
  induction items with
  | nil => rfl
  | cons e t ih =>
    simp only [List.map_cons, List.foldr_cons]
    rw [ih (fun x hx c hc => hv x (List.mem_cons_of_mem _ hx) c hc)
      (fun x hx => hnn x (List.mem_cons_of_mem _ hx))]
    show (let t2 := pyStrip (pyQuote e);
      if t2 = [] then some t
      else (pyUnquote t2).map (fun x => x :: t)) = some (e :: t)
    have hstrip : pyStrip (pyQuote e) = pyQuote e :=
      pyStrip_no_space _ (fun c hc => (pyQuote_props e c hc).2)
    rw [hstrip]
    rw [if_neg (pyQuote_ne_nil e (hnn e (List.mem_cons_self _ _)))]
    rw [pyUnquote_quote e (hv e (List.mem_cons_self _ _))]
    rfl

theorem parse_encoded_list_encode (items : List PyStr) (hne : items ≠ [])
    (hv : ∀ e ∈ items, ∀ c ∈ e, ValidScalar c) (hnn : ∀ e ∈ items, e ≠ []) :
    V2.parse_encoded_list (V2.encode_list items) = some items := by
  rw [V2.encode_list, V2.parse_encoded_list]
  have hq : ∀ l ∈ items.map pyQuote, 44 ∉ l := by
    intro l hl hmem
    rcases List.mem_map.mp hl with ⟨e, _, rfl⟩
    exact (pyQuote_props e 44 hmem).1 rfl
  rw [List.splitOn_intercalate (items.map pyQuote) 44 hq (by simpa using hne)]
  exact parse_encoded_foldr items hv hnn


/-! ### Python dict get/set lemmas -/

theorem find_replace_map {κ α : Type} [BEq κ] [LawfulBEq κ]
    (k : κ) (v : α) : ∀ m : List (κ × α),
    (m.map (fun kv => if kv.1 == k then (k, v) else kv)).find?
        (fun kv => kv.1 == k) =
      (if m.any (fun kv => kv.1 == k) then some (k, v) else none) := by
  intro m
  induction m with
  | nil => rfl
  | cons kv t ih =>
    obtain ⟨k1, v1⟩ := kv
    simp only [List.map_cons, List.any_cons]
    by_cases hk : k1 == k
    · rw [if_pos hk]
      rw [List.find?_cons_of_pos _ (by simp)]
      rw [if_pos (by simp [hk])]
    · rw [if_neg hk]
      rw [List.find?_cons_of_neg _ (by simpa using hk)]
      rw [ih]
      simp only [show (k1 == k) = false from by simpa using hk, Bool.false_or]

theorem dictGet_set_self {κ α : Type} [BEq κ] [LawfulBEq κ]
    (m : List (κ × α)) (k : κ) (v : α) :
    dictGet (dictSet m k v) k = some v := by
  rw [dictSet, dictGet]
  split
  · rename_i h
    rw [find_replace_map k v m, if_pos h]
    rfl
  · rename_i h
    rw [List.find?_append]
    have hnone : m.find? (fun kv => kv.1 == k) = none := by
      rw [List.find?_eq_none]
      intro kv hkv hbeq
      exact h (List.any_eq_true.mpr ⟨kv, hkv, hbeq⟩)
    rw [hnone]
    rw [List.find?_cons_of_pos _ (by simp)]
    rfl

theorem dictGet_set_ne {κ α : Type} [BEq κ] [LawfulBEq κ]
    (m : List (κ × α)) (k : κ) (v : α) (k2 : κ) (hne : ¬ (k2 == k) = true) :
    dictGet (dictSet m k v) k2 = dictGet m k2 := by
  have hkk : k2 ≠ k := by simpa using hne
  rw [dictSet, dictGet, dictGet]
  split
  · rename_i hany
    clear hany
    induction m with
    | nil => rfl
    | cons kv t ih =>
      obtain ⟨k1, v1⟩ := kv
      simp only [List.map_cons]
      by_cases hk : (k1 == k) = true
      · rw [if_pos hk]
        have h1 : k1 = k := by simpa using hk
        subst h1
        rw [List.find?_cons_of_neg _ (by simpa using hkk.symm),
          List.find?_cons_of_neg _ (by simpa using hkk.symm)]
        exact ih
      · rw [if_neg hk]
        rw [List.find?_cons, List.find?_cons]
        cases hmatch : ((k1, v1).1 == k2) <;> simp only [hmatch]
        · exact ih
  · rw [List.find?_append]
    have h1 : [(k, v)].find? (fun kv => kv.1 == k2) = none := by
      rw [List.find?_eq_none]
      intro kv hkv
      rcases List.mem_singleton.mp hkv with rfl
      simpa using hkk.symm
    rw [h1]
    cases hf : m.find? (fun kv => kv.1 == k2) <;> rfl

theorem dictGet_nil {κ α : Type} [BEq κ] (k : κ) :
    dictGet ([] : List (κ × α)) k = none := rfl


/-! ### Entries table and minimum timestamp -/

theorem entFold_mono (f : List PyStr → ItemV2 → List PyStr)
    (hf : f = fun acc it => if it.entry ∈ acc then acc else acc ++ [it.entry]) :
    ∀ (l : List ItemV2) (acc : List PyStr) (x : PyStr),
    x ∈ acc → x ∈ l.foldl f acc := by
  intro l
  induction l with
  | nil =>
    intro acc x hx
    simpa using hx
  | cons a t ih =>
    intro acc x hx
    rw [List.foldl_cons]
    apply ih
    rw [hf]
    dsimp only
    split
    · exact hx
    · exact List.mem_append_left _ hx

theorem entFold_mem (f : List PyStr → ItemV2 → List PyStr)
    (hf : f = fun acc it => if it.entry ∈ acc then acc else acc ++ [it.entry]) :
    ∀ (l : List ItemV2) (acc : List PyStr) (it : ItemV2),
    it ∈ l → it.entry ∈ l.foldl f acc := by
  intro l
  induction l with
  | nil =>
    intro acc it hit
    cases hit
  | cons a t ih =>
    intro acc it hit
    rw [List.foldl_cons]
    rcases List.mem_cons.mp hit with rfl | hit2
    · apply entFold_mono f hf
      rw [hf]
      dsimp only
      split
      · assumption
      · exact List.mem_append_right _ (by simp)
    · exact ih _ it hit2

theorem entriesOf_mem (items : List ItemV2) (it : ItemV2) (hit : it ∈ items) :
    it.entry ∈ V2.entriesOf items := by
  rw [V2.entriesOf]
  exact entFold_mem _ rfl items [] it hit

theorem indexOf_mem_lt (l : List PyStr) (a : PyStr) :
    ∀ _ : a ∈ l, l.indexOf a < l.length := by
  induction l with
  | nil =>
    intro h
    cases h
  | cons b t ih =>
    intro h
    rw [List.indexOf_cons]
    by_cases hba : b = a
    · rw [show (b == a) = true from by simpa using hba]
      simp
    · rw [show (b == a) = false from by simpa using hba]
      have hat : a ∈ t := by
        rcases List.mem_cons.mp h with h2 | h2
        · exact absurd h2.symm hba
        · exact h2
      have := ih hat
      simp only [cond_false, List.length_cons]
      omega

theorem getD_indexOf_mem (l : List PyStr) (a : PyStr) :
    ∀ _ : a ∈ l, l.getD (l.indexOf a) [] = a := by
  induction l with
  | nil =>
    intro h
    cases h
  | cons b t ih =>
    intro h
    rw [List.indexOf_cons]
    by_cases hba : b = a
    · rw [show (b == a) = true from by simpa using hba]
      exact hba
    · rw [show (b == a) = false from by simpa using hba]
      have hat : a ∈ t := by
        rcases List.mem_cons.mp h with h2 | h2
        · exact absurd h2.symm hba
        · exact h2
      simpa using ih hat

theorem foldl_min_le_init :
    ∀ (l : List ItemV2) (m : Int),
    l.foldl (fun m x => min m x.timestamp) m ≤ m := by
  intro l
  induction l with
  | nil =>
    intro m
    simp
  | cons a t ih =>
    intro m
    rw [List.foldl_cons]
    exact le_trans (ih _) (min_le_left _ _)

theorem foldl_min_le_mem :
    ∀ (l : List ItemV2) (m : Int) (x : ItemV2), x ∈ l →
    l.foldl (fun m x => min m x.timestamp) m ≤ x.timestamp := by
  intro l
  induction l with
  | nil =>
    intro m x hx
    cases hx
  | cons a t ih =>
    intro m x hx
    rw [List.foldl_cons]
    rcases List.mem_cons.mp hx with rfl | hx2
    · exact le_trans (foldl_min_le_init t _) (min_le_right _ _)
    · exact ih _ x hx2

theorem minTimestamp_le (items : List ItemV2) (it : ItemV2) (hit : it ∈ items) :
    V2.minTimestamp items ≤ it.timestamp := by
  cases items with
  | nil => cases hit
  | cons a t =>
    rw [V2.minTimestamp]
    rcases List.mem_cons.mp hit with rfl | hit2
    · exact foldl_min_le_init t _
    · exact foldl_min_le_mem t _ it hit2


/-! ### One-record header value: encode and parse -/

theorem recordSegs_eq (LI : List (PyStr × Nat)) (prev : Option (PyStr × LMap))
    (record : ItemV2) (hct : record.content_type ≠ []) :
    V2.recordSegs LI prev record =
      (record.content_type,
        match V2.labels_delta (prev.getD ([], [])).2 record.labels LI with
        | some lp =>
          if lp = [] then natDecimal record.size ++ [44] ++ record.content_type
          else natDecimal record.size ++ [44] ++ record.content_type ++ [44] ++ lp
        | none => natDecimal record.size ++ [44] ++ record.content_type) := by
  rw [V2.recordSegs]
  rw [if_neg hct, if_pos hct]

theorem parse_rec_hdr_nolabels (size : Nat) (ct : PyStr)
    (prevOpt : Option (Int × PyStr × LMap)) (names : Option (List PyStr))
    (hct : SafeCT ct) :
    V2.parse_record_header_v2 (natDecimal size ++ 44 :: ct) prevOpt names =
      some ((size : Int), ct,
        (match prevOpt with
         | some p => p.2.2
         | none => [])) := by
  obtain ⟨hne, h44, hstrip⟩ := hct
  rw [V2.parse_record_header_v2.eq_def]
  have h44d : 44 ∉ natDecimal size := by
    intro hmem
    have := natDecimal_digits size 44 hmem
    rw [isDigitChar] at this
    omega
  rw [splitFirst_of_append 44 (natDecimal size) ct h44d]
  dsimp only
  rw [pyStrip_no_space _ (natDecimal_not_space size)]
  rw [if_neg (natDecimal_ne_nil size)]
  rw [pyParseInt_natDecimal]
  dsimp only
  rw [if_neg hne]
  rw [splitFirst_eq_none 44 ct h44]
  dsimp only
  rw [if_neg hne, hstrip, if_neg hne]

theorem parse_rec_hdr_labels (size : Nat) (ct lp : PyStr)
    (prevOpt : Option (Int × PyStr × LMap)) (names : Option (List PyStr))
    (hct : SafeCT ct) :
    V2.parse_record_header_v2 (natDecimal size ++ 44 :: (ct ++ 44 :: lp))
        prevOpt names =
      some ((size : Int), ct,
        V2.apply_label_delta lp
          (match prevOpt with
           | some p => p.2.2
           | none => []) names) := by
  obtain ⟨hne, h44, hstrip⟩ := hct
  rw [V2.parse_record_header_v2.eq_def]
  have h44d : 44 ∉ natDecimal size := by
    intro hmem
    have := natDecimal_digits size 44 hmem
    rw [isDigitChar] at this
    omega
  rw [splitFirst_of_append 44 (natDecimal size) (ct ++ 44 :: lp) h44d]
  dsimp only
  rw [pyStrip_no_space _ (natDecimal_not_space size)]
  rw [if_neg (natDecimal_ne_nil size)]
  rw [pyParseInt_natDecimal]
  dsimp only
  have hne2 : ct ++ 44 :: lp ≠ [] := by simp
  rw [if_neg hne2]
  rw [splitFirst_of_append 44 ct lp h44]
  dsimp only
  rw [hstrip, if_neg hne]


/-! ### Header list produced by the encoder fold -/

theorem dictSet_fresh {κ α : Type} [BEq κ] (m : List (κ × α)) (k : κ) (v : α)
    (h : ∀ kv ∈ m, ¬ (kv.1 == k) = true) : dictSet m k v = m ++ [(k, v)] := by
  rw [dictSet, if_neg]
  intro hany
  rcases List.any_eq_true.mp hany with ⟨kv, hkv, hb⟩
  exact h kv hkv hb

theorem emitRecords_keys (entries : List PyStr) (start_ts : Int)
    (LI : List (PyStr × Nat)) :
    ∀ (items : List ItemV2) (LH : List (Nat × (PyStr × LMap))),
    (V2.emitRecords entries start_ts LI LH items).map (fun p => p.1) =
      items.map (fun it => (entries.indexOf it.entry, it.timestamp - start_ts)) := by
  intro items
  induction items with
  | nil =>
    intro LH
    rfl
  | cons a t ih =>
    intro LH
    rw [V2.emitRecords]
    simp only [List.map_cons]
    rw [ih]

theorem encFold_headers (entries : List PyStr) (start_ts : Int)
    (LI : List (PyStr × Nat)) :
    ∀ (items : List ItemV2) (st : V2.EncState),
    (∀ p ∈ V2.emitRecords entries start_ts LI st.last_header items,
       ∀ kv ∈ st.headers, ¬ (kv.1 == V2.headerName p.1.1 p.1.2) = true) →
    ((V2.emitRecords entries start_ts LI st.last_header items).map
        (fun p => p.1)).Pairwise
      (fun a b => V2.headerName a.1 a.2 ≠ V2.headerName b.1 b.2) →
    (items.foldl (V2.encStep entries start_ts LI) st).headers =
      st.headers ++
        (V2.emitRecords entries start_ts LI st.last_header items).map
          (fun p => (V2.headerName p.1.1 p.1.2, p.2)) := by
  intro items
  induction items with
  | nil =>
    intro st _ _
    rw [show V2.emitRecords entries start_ts LI st.last_header [] = [] from rfl]
    simp
  | cons a t ih =>
    intro st hfresh hpw
    have hemit : V2.emitRecords entries start_ts LI st.last_header (a :: t) =
        ((entries.indexOf a.entry, a.timestamp - start_ts),
          (V2.recordSegs LI (dictGet st.last_header (entries.indexOf a.entry)) a).2) ::
        V2.emitRecords entries start_ts LI
          (dictSet st.last_header (entries.indexOf a.entry)
            ((V2.recordSegs LI (dictGet st.last_header (entries.indexOf a.entry)) a).1,
              a.labels)) t := rfl
    have hstep_headers : (V2.encStep entries start_ts LI st a).headers =
        dictSet st.headers
          (V2.headerName (entries.indexOf a.entry) (a.timestamp - start_ts))
          (V2.recordSegs LI (dictGet st.last_header (entries.indexOf a.entry)) a).2 :=
      rfl
    have hstep_last : (V2.encStep entries start_ts LI st a).last_header =
        dictSet st.last_header (entries.indexOf a.entry)
          ((V2.recordSegs LI (dictGet st.last_header (entries.indexOf a.entry)) a).1,
            a.labels) := rfl
    rw [List.foldl_cons]
    rw [hemit] at hfresh hpw
    have hfresh0 := hfresh _ (List.mem_cons_self _ _)
    have hset : dictSet st.headers
        (V2.headerName (entries.indexOf a.entry) (a.timestamp - start_ts))
        (V2.recordSegs LI (dictGet st.last_header (entries.indexOf a.entry)) a).2 =
        st.headers ++
          [(V2.headerName (entries.indexOf a.entry) (a.timestamp - start_ts),
            (V2.recordSegs LI (dictGet st.last_header (entries.indexOf a.entry)) a).2)] :=
      dictSet_fresh _ _ _ (fun kv hkv => hfresh0 kv hkv)
    rcases List.pairwise_cons.mp (by
      simpa only [List.map_cons] using hpw) with ⟨hhead, htail⟩
    have ihres := ih (V2.encStep entries start_ts LI st a) ?_ ?_
    · rw [ihres, hstep_headers, hstep_last, hset, hemit]
      simp [List.append_assoc]
    · intro p hp kv hkv
      rw [hstep_last] at hp
      rw [hstep_headers, hset] at hkv
      rcases List.mem_append.mp hkv with hkv2 | hkv2
      · exact hfresh p (List.mem_cons_of_mem _ hp) kv hkv2
      · rcases List.mem_singleton.mp hkv2 with rfl
        have hkeymem : p.1 ∈ (V2.emitRecords entries start_ts LI
            (dictSet st.last_header (entries.indexOf a.entry)
              ((V2.recordSegs LI
                (dictGet st.last_header (entries.indexOf a.entry)) a).1,
                a.labels)) t).map (fun p => p.1) :=
          List.mem_map_of_mem _ hp
        have hne := hhead p.1 hkeymem
        simpa using hne
    · rw [hstep_last]
      exact htail


/-! ### Collecting the per-record headers on the decode side -/

theorem collectF_none (acc : List (Nat × Int × PyStr)) :
    ∀ A : List (PyStr × PyStr),
    (∀ nv ∈ A, V2.recordHeaderKey (pyLower nv.1) = none) →
    A.foldr (fun nv acc =>
      match V2.recordHeaderKey (pyLower nv.1) with
      | some p => (p.1, p.2, nv.2) :: acc
      | none => acc) acc = acc := by
  intro A
  induction A with
  | nil =>
    intro _
    rfl
  | cons nv t ih =>
    intro h
    rw [List.foldr_cons]
    rw [ih (fun x hx => h x (List.mem_cons_of_mem _ hx))]
    rw [h nv (List.mem_cons_self _ _)]

theorem collectF_named (acc : List (Nat × Int × PyStr)) :
    ∀ L : List ((Nat × Int) × PyStr), (∀ p ∈ L, 0 ≤ p.1.2) →
    (L.map (fun p => (V2.headerName p.1.1 p.1.2, p.2))).foldr (fun nv acc =>
      match V2.recordHeaderKey (pyLower nv.1) with
      | some p => (p.1, p.2, nv.2) :: acc
      | none => acc) acc =
      L.map (fun p => (p.1.1, p.1.2, p.2)) ++ acc := by
  intro L
  induction L with
  | nil =>
    intro _
    rfl
  | cons p t ih =>
    intro h
    simp only [List.map_cons, List.foldr_cons]
    rw [ih (fun x hx => h x (List.mem_cons_of_mem _ hx))]
    rw [recordHeaderKey_headerName p.1.1 p.1.2 (h p (List.mem_cons_self _ _))]
    rfl

theorem collectHeadersV2_shape (A C : List (PyStr × PyStr))
    (L : List ((Nat × Int) × PyStr))
    (hA : ∀ nv ∈ A, V2.recordHeaderKey (pyLower nv.1) = none)
    (hC : ∀ nv ∈ C, V2.recordHeaderKey (pyLower nv.1) = none)
    (hd : ∀ p ∈ L, 0 ≤ p.1.2) :
    V2.collectHeadersV2
        (A ++ (L.map (fun p => (V2.headerName p.1.1 p.1.2, p.2))) ++ C) =
      L.map (fun p => (p.1.1, p.1.2, p.2)) := by
  rw [V2.collectHeadersV2]
  rw [List.foldr_append, List.foldr_append]
  rw [collectF_none _ C hC]
  rw [collectF_named _ L hd]
  rw [List.append_nil]
  rw [collectF_none _ A hA]


/-! ### Decoder simulation of the encoder record loop -/

theorem iterFold_emit (entries : List PyStr) (start_ts : Int)
    (lnames : Option (List PyStr)) (LI : List (PyStr × Nat))
    (KP : PyStr → Prop)
    (hlabnone : ∀ P C, LCanon P → LCanon C →
      (∀ kv ∈ P, KP kv.1 ∧ SafeVal kv.2) →
      (∀ kv ∈ C, KP kv.1 ∧ SafeVal kv.2) →
      V2.labels_delta P C LI = none → P = C)
    (hlabsome : ∀ P C lp, LCanon P → LCanon C →
      (∀ kv ∈ P, KP kv.1 ∧ SafeVal kv.2) →
      (∀ kv ∈ C, KP kv.1 ∧ SafeVal kv.2) →
      V2.labels_delta P C LI = some lp →
      lp ≠ [] ∧ V2.apply_label_delta lp P lnames = C) :
    ∀ (items : List ItemV2) (LH : List (Nat × (PyStr × LMap)))
      (last2 : List (Nat × (Int × PyStr × LMap))) (out : List DecodedRecord),
    (∀ it ∈ items, it.entry ∈ entries ∧
      entries.getD (entries.indexOf it.entry) [] = it.entry ∧
      SafeCT it.content_type ∧ LCanon it.labels ∧
      (∀ kv ∈ it.labels, KP kv.1 ∧ SafeVal kv.2)) →
    (∀ idx : Nat,
      (dictGet LH idx = none ∧ dictGet last2 idx = none) ∨
      (∃ sz ct lb, dictGet LH idx = some (ct, lb) ∧
        dictGet last2 idx = some (sz, ct, lb) ∧
        SafeCT ct ∧ LCanon lb ∧ ∀ kv ∈ lb, KP kv.1 ∧ SafeVal kv.2)) →
    (((V2.emitRecords entries start_ts LI LH items).map
        (fun p => (p.1.1, p.1.2, p.2))).foldl
      (fun (st : List (Nat × (Int × PyStr × LMap)) × List DecodedRecord) h =>
        if h.1 ≥ entries.length then st
        else
          match V2.parse_record_header_v2 h.2.2 (dictGet st.1 h.1) lnames with
          | none => st
          | some hdr =>
            (dictSet st.1 h.1 hdr,
             st.2 ++ [DecodedRecord.mk (entries.getD h.1 []) (start_ts + h.2.1)
               hdr.1 hdr.2.1 hdr.2.2])) (last2, out)).2 =
      out ++ items.map (fun it =>
        DecodedRecord.mk it.entry it.timestamp (it.size : Int)
          it.content_type it.labels) := by
  intro items
  induction items with
  | nil =>
    intro LH last2 out _ _
    rw [show V2.emitRecords entries start_ts LI LH [] = [] from rfl]
    simp
  | cons a t ih =>
    intro LH last2 out hitems hrel
    obtain ⟨hmem, hgetD, hSct, hLc, hkv⟩ := hitems a (List.mem_cons_self _ _)
    have hitems' := fun it hit => hitems it (List.mem_cons_of_mem _ hit)
    have hidx_lt : entries.indexOf a.entry < entries.length :=
      indexOf_mem_lt entries a.entry hmem
    have hemit : V2.emitRecords entries start_ts LI LH (a :: t) =
        ((entries.indexOf a.entry, a.timestamp - start_ts),
          (V2.recordSegs LI (dictGet LH (entries.indexOf a.entry)) a).2) ::
        V2.emitRecords entries start_ts LI
          (dictSet LH (entries.indexOf a.entry)
            ((V2.recordSegs LI (dictGet LH (entries.indexOf a.entry)) a).1,
              a.labels)) t := rfl
    rw [hemit]
    simp only [List.map_cons, List.foldl_cons]
    obtain ⟨P, hgetLH, hgetl2, hPc, hPp⟩ :
        ∃ P, ((dictGet LH (entries.indexOf a.entry)).getD ([], [])).2 = P ∧
          (match dictGet last2 (entries.indexOf a.entry) with
           | some p => p.2.2
           | none => ([] : LMap)) = P ∧ LCanon P ∧
          (∀ kv ∈ P, KP kv.1 ∧ SafeVal kv.2) := by
      rcases hrel (entries.indexOf a.entry) with
        ⟨hLHn, hl2n⟩ | ⟨sz0, ct0, lb0, hLHs, hl2s, hct0, hlb0c, hlb0p⟩
      · refine ⟨[], ?_, ?_, List.Pairwise.nil, by simp⟩
        · rw [hLHn]
          rfl
        · rw [hl2n]
      · refine ⟨lb0, ?_, ?_, hlb0c, hlb0p⟩
        · rw [hLHs]
          rfl
        · rw [hl2s]
    have hcv := recordSegs_eq LI (dictGet LH (entries.indexOf a.entry)) a hSct.1
    rw [hgetLH] at hcv
    have hcv1 : (V2.recordSegs LI (dictGet LH (entries.indexOf a.entry)) a).1 =
        a.content_type := by
      rw [hcv]
    have htime : start_ts + (a.timestamp - start_ts) = a.timestamp := by ring
    rw [if_neg (by omega : ¬ entries.indexOf a.entry ≥ entries.length)]
    have hparse : V2.parse_record_header_v2
        (V2.recordSegs LI (dictGet LH (entries.indexOf a.entry)) a).2
        (dictGet last2 (entries.indexOf a.entry)) lnames =
        some ((a.size : Int), a.content_type, a.labels) := by
      cases hdel : V2.labels_delta P a.labels LI with
      | none =>
        have hPeq : P = a.labels := hlabnone P a.labels hPc hLc hPp hkv hdel
        have hcv2 : (V2.recordSegs LI (dictGet LH (entries.indexOf a.entry)) a).2 =
            natDecimal a.size ++ 44 :: a.content_type := by
          rw [hcv]
          dsimp only
          rw [hdel]
          simp [List.append_assoc]
        rw [hcv2]
        rw [parse_rec_hdr_nolabels a.size a.content_type _ lnames hSct]
        rw [hgetl2, hPeq]
      | some lp =>
        obtain ⟨hlpne, happly⟩ :=
          hlabsome P a.labels lp hPc hLc hPp hkv hdel
        have hcv2 : (V2.recordSegs LI (dictGet LH (entries.indexOf a.entry)) a).2 =
            natDecimal a.size ++ 44 :: (a.content_type ++ 44 :: lp) := by
          rw [hcv]
          dsimp only
          rw [hdel]
          dsimp only
          rw [if_neg hlpne]
          simp [List.append_assoc]
        rw [hcv2]
        rw [parse_rec_hdr_labels a.size a.content_type lp _ lnames hSct]
        rw [hgetl2, happly]
    rw [hparse]
    dsimp only
    rw [hgetD]
    rw [htime]
    have hrel' : ∀ idx : Nat,
        (dictGet (dictSet LH (entries.indexOf a.entry)
            ((V2.recordSegs LI (dictGet LH (entries.indexOf a.entry)) a).1,
              a.labels)) idx = none ∧
          dictGet (dictSet last2 (entries.indexOf a.entry)
            ((a.size : Int), a.content_type, a.labels)) idx = none) ∨
        (∃ sz ct lb, dictGet (dictSet LH (entries.indexOf a.entry)
            ((V2.recordSegs LI (dictGet LH (entries.indexOf a.entry)) a).1,
              a.labels)) idx = some (ct, lb) ∧
          dictGet (dictSet last2 (entries.indexOf a.entry)
            ((a.size : Int), a.content_type, a.labels)) idx = some (sz, ct, lb) ∧
          SafeCT ct ∧ LCanon lb ∧ ∀ kv ∈ lb, KP kv.1 ∧ SafeVal kv.2) := by
      intro idx
      by_cases hii : idx = entries.indexOf a.entry
      · subst hii
        right
        refine ⟨(a.size : Int), a.content_type, a.labels, ?_, ?_, hSct, hLc, hkv⟩
        · rw [hcv1]
          exact dictGet_set_self _ _ _
        · exact dictGet_set_self _ _ _
      · rw [dictGet_set_ne _ _ _ _ (by simpa using hii),
          dictGet_set_ne _ _ _ _ (by simpa using hii)]
        exact hrel idx
    have := ih (dictSet LH (entries.indexOf a.entry)
        ((V2.recordSegs LI (dictGet LH (entries.indexOf a.entry)) a).1, a.labels))
      (dictSet last2 (entries.indexOf a.entry)
        ((a.size : Int), a.content_type, a.labels))
      (out ++ [DecodedRecord.mk a.entry a.timestamp (a.size : Int)
        a.content_type a.labels])
      hitems' hrel'
    rw [this]
    simp


/-! ### Assembling the v2 round-trip -/

theorem headerName_inj (i1 i2 : Nat) (d1 d2 : Int) (h1 : 0 ≤ d1) (h2 : 0 ≤ d2)
    (hne : (i1, d1) ≠ (i2, d2)) :
    V2.headerName i1 d1 ≠ V2.headerName i2 d2 := by
  intro heq
  have ha := recordHeaderKey_headerName i1 d1 h1
  rw [heq, recordHeaderKey_headerName i2 d2 h2] at ha
  exact hne (Option.some.inj ha).symm

theorem name_ne_headerName (m : PyStr)
    (hm : V2.recordHeaderKey (pyLower m) = none)
    (i : Nat) (d : Int) (hd : 0 ≤ d) : m ≠ V2.headerName i d := by
  intro heq
  rw [heq, recordHeaderKey_headerName i d hd] at hm
  cases hm

theorem entriesOf_ne_nil (items : List ItemV2) (hne : items ≠ []) :
    V2.entriesOf items ≠ [] := by
  cases items with
  | nil => exact absurd rfl hne
  | cons a t =>
    have := entriesOf_mem (a :: t) a (List.mem_cons_self _ _)
    intro h0
    rw [h0] at this
    cases this

theorem parse_batched_eq (headers : List (PyStr × PyStr)) (entries : List PyStr)
    (start_ts : Int) (lnames : Option (List PyStr))
    (triples : List (Nat × Int × PyStr))
    (hE : V2.ciGet headers (strLit "x-reduct-entries") =
      some (V2.encode_list entries))
    (hS : V2.ciGet headers (strLit "x-reduct-start-ts") =
      some (intDecimal start_ts))
    (hEnc : V2.parse_encoded_list (V2.encode_list entries) = some entries)
    (hEne : entries ≠ [])
    (hL : (match V2.ciGet headers (strLit "x-reduct-labels") with
           | some lraw =>
             if lraw = [] then none else V2.parse_encoded_list lraw
           | none => none) = lnames)
    (hsort : V2.sortHeaders (V2.collectHeadersV2 headers) = triples)
    (hTne : triples ≠ []) :
    V2.parse_batched_records_v2 headers =
      some (V2.iterRecords entries start_ts lnames triples) := by
  rw [V2.parse_batched_records_v2.eq_def]
  rw [hE, hS]
  dsimp only
  rw [pyParseInt_intDecimal]
  dsimp only
  rw [hEnc]
  dsimp only
  rw [if_neg hEne]
  rw [hL, hsort]
  rw [if_neg hTne]


theorem make_headers_v2_shape (items : List ItemV2) (hne : items ≠ [])
    (entries : List PyStr) (start_ts : Int) (names : List PyStr)
    (LI : List (PyStr × Nat))
    (hEnt : entries = V2.entriesOf items)
    (hTs : start_ts = V2.minTimestamp items)
    (hNm : names = sortStrs
      (items.flatMap (fun it => it.labels.map (fun kv => kv.1))).dedup)
    (hLI : LI = (names.enum).map (fun p => (p.2, p.1)))
    (hdpos : ∀ p ∈ V2.emitRecords entries start_ts LI [] items, 0 ≤ p.1.2)
    (hpwn : ((V2.emitRecords entries start_ts LI [] items).map
        (fun p => p.1)).Pairwise
      (fun a b => V2.headerName a.1 a.2 ≠ V2.headerName b.1 b.2)) :
    (V2.make_headers_v2 items).2 =
      ((if names = [] then
          [(strLit "x-reduct-entries", V2.encode_list entries),
           (strLit "x-reduct-start-ts", intDecimal start_ts)]
        else
          [(strLit "x-reduct-entries", V2.encode_list entries),
           (strLit "x-reduct-start-ts", intDecimal start_ts),
           (strLit "x-reduct-labels", V2.encode_list names)]) ++
        (V2.emitRecords entries start_ts LI [] items).map
          (fun p => (V2.headerName p.1.1 p.1.2, p.2)) ++
        [(strLit "Content-Type", strLit "application/octet-stream")]) := by
  rw [V2.make_headers_v2, if_neg hne]
  dsimp only
  rw [← hEnt, ← hTs, ← hNm, ← hLI]
  have h01 : dictSet (dictSet ([] : List (PyStr × PyStr))
      (strLit "x-reduct-entries") (V2.encode_list entries))
      (strLit "x-reduct-start-ts") (intDecimal start_ts) =
      [(strLit "x-reduct-entries", V2.encode_list entries),
       (strLit "x-reduct-start-ts", intDecimal start_ts)] := by
    rw [show dictSet ([] : List (PyStr × PyStr))
      (strLit "x-reduct-entries") (V2.encode_list entries) =
      [(strLit "x-reduct-entries", V2.encode_list entries)] from rfl]
    rw [dictSet_fresh _ _ _ (by
      intro kv hkv
      rcases List.mem_singleton.mp hkv with rfl
      exact (by decide : ¬ (strLit "x-reduct-entries" ==
        strLit "x-reduct-start-ts") = true))]
    rfl
  have hA : (if names ≠ [] then
      dictSet (dictSet (dictSet ([] : List (PyStr × PyStr))
        (strLit "x-reduct-entries") (V2.encode_list entries))
        (strLit "x-reduct-start-ts") (intDecimal start_ts))
        (strLit "x-reduct-labels") (V2.encode_list names)
    else
      dictSet (dictSet ([] : List (PyStr × PyStr))
        (strLit "x-reduct-entries") (V2.encode_list entries))
        (strLit "x-reduct-start-ts") (intDecimal start_ts)) =
      (if names = [] then
        [(strLit "x-reduct-entries", V2.encode_list entries),
         (strLit "x-reduct-start-ts", intDecimal start_ts)]
      else
        [(strLit "x-reduct-entries", V2.encode_list entries),
         (strLit "x-reduct-start-ts", intDecimal start_ts),
         (strLit "x-reduct-labels", V2.encode_list names)]) := by
    by_cases hn : names = []
    · rw [if_neg (by simp [hn]), if_pos hn]
      exact h01
    · rw [if_pos hn, if_neg hn, h01]
      rw [dictSet_fresh _ _ _ (by
        intro kv hkv
        rcases List.mem_cons.mp hkv with rfl | hkv2
        · exact (by decide : ¬ (strLit "x-reduct-entries" ==
            strLit "x-reduct-labels") = true)
        · rcases List.mem_singleton.mp hkv2 with rfl
          exact (by decide : ¬ (strLit "x-reduct-start-ts" ==
            strLit "x-reduct-labels") = true))]
      rfl
  rw [hA]
  have hAmem : ∀ kv ∈ (if names = [] then
      [(strLit "x-reduct-entries", V2.encode_list entries),
       (strLit "x-reduct-start-ts", intDecimal start_ts)]
    else
      [(strLit "x-reduct-entries", V2.encode_list entries),
       (strLit "x-reduct-start-ts", intDecimal start_ts),
       (strLit "x-reduct-labels", V2.encode_list names)]),
      V2.recordHeaderKey (pyLower kv.1) = none := by
    intro kv hkv
    by_cases hn : names = []
    · rw [if_pos hn] at hkv
      rcases List.mem_cons.mp hkv with rfl | hkv2
      · exact recordHeaderKey_entries
      · rcases List.mem_singleton.mp hkv2 with rfl
        exact recordHeaderKey_start_ts
    · rw [if_neg hn] at hkv
      rcases List.mem_cons.mp hkv with rfl | hkv2
      · exact recordHeaderKey_entries
      · rcases List.mem_cons.mp hkv2 with rfl | hkv3
        · exact recordHeaderKey_start_ts
        · rcases List.mem_singleton.mp hkv3 with rfl
          exact recordHeaderKey_labels
  have hfold := encFold_headers entries start_ts LI items
    (V2.EncState.mk 0 (if names = [] then
      [(strLit "x-reduct-entries", V2.encode_list entries),
       (strLit "x-reduct-start-ts", intDecimal start_ts)]
    else
      [(strLit "x-reduct-entries", V2.encode_list entries),
       (strLit "x-reduct-start-ts", intDecimal start_ts),
       (strLit "x-reduct-labels", V2.encode_list names)]) [])
    (by
      intro p hp kv hkv
      have hnone := hAmem kv hkv
      have hd := hdpos p hp
      have := name_ne_headerName kv.1 hnone p.1.1 p.1.2 hd
      simpa using this)
    hpwn
  rw [hfold]
  dsimp only
  rw [dictSet_fresh _ _ _ (by
    intro kv hkv
    rcases List.mem_append.mp hkv with hkv | hkv
    · by_cases hn : names = []
      · rw [if_pos hn] at hkv
        rcases List.mem_cons.mp hkv with rfl | hkv2
        · exact (by decide : ¬ (strLit "x-reduct-entries" ==
            strLit "Content-Type") = true)
        · rcases List.mem_singleton.mp hkv2 with rfl
          exact (by decide : ¬ (strLit "x-reduct-start-ts" ==
            strLit "Content-Type") = true)
      · rw [if_neg hn] at hkv
        rcases List.mem_cons.mp hkv with rfl | hkv2
        · exact (by decide : ¬ (strLit "x-reduct-entries" ==
            strLit "Content-Type") = true)
        · rcases List.mem_cons.mp hkv2 with rfl | hkv3
          · exact (by decide : ¬ (strLit "x-reduct-start-ts" ==
              strLit "Content-Type") = true)
          · rcases List.mem_singleton.mp hkv3 with rfl
            exact (by decide : ¬ (strLit "x-reduct-labels" ==
              strLit "Content-Type") = true)
    · rcases List.mem_map.mp hkv with ⟨p, hp, rfl⟩
      have hd := hdpos p hp
      have hnn := name_ne_headerName (strLit "Content-Type")
        recordHeaderKey_content_type p.1.1 p.1.2 hd
      simpa using hnn.symm)]


theorem ciGet_cons_hit (kv : PyStr × PyStr) (rest : List (PyStr × PyStr))
    (key : PyStr) (h : (pyLower kv.1 == key) = true) :
    V2.ciGet (kv :: rest) key = some kv.2 := by
  rw [V2.ciGet,
    @List.find?_cons_of_pos (PyStr × PyStr)
      (fun kv2 => pyLower kv2.1 == key) kv rest h]
  rfl

theorem ciGet_cons_skip (kv : PyStr × PyStr) (rest : List (PyStr × PyStr))
    (key : PyStr) (h : (pyLower kv.1 == key) = false) :
    V2.ciGet (kv :: rest) key = V2.ciGet rest key := by
  rw [V2.ciGet, V2.ciGet,
    @List.find?_cons_of_neg (PyStr × PyStr)
      (fun kv2 => pyLower kv2.1 == key) kv rest (by simp [h])]

theorem ciGet_none (headers : List (PyStr × PyStr)) (key : PyStr)
    (h : ∀ kv ∈ headers, (pyLower kv.1 == key) = false) :
    V2.ciGet headers key = none := by
  rw [V2.ciGet]
  rw [List.find?_eq_none.mpr (fun kv hkv => by simp [h kv hkv])]
  rfl


theorem entFold_subset (f : List PyStr → ItemV2 → List PyStr)
    (hf : f = fun acc it => if it.entry ∈ acc then acc else acc ++ [it.entry]) :
    ∀ (l : List ItemV2) (acc : List PyStr) (x : PyStr),
    x ∈ l.foldl f acc → x ∈ acc ∨ ∃ it ∈ l, x = it.entry := by
  intro l
  induction l with
  | nil =>
    intro acc x hx
    exact Or.inl (by simpa using hx)
  | cons a t ih =>
    intro acc x hx
    rw [List.foldl_cons] at hx
    rcases ih (f acc a) x hx with hx2 | ⟨it, hit, rfl⟩
    · rw [hf] at hx2
      dsimp only at hx2
      split at hx2
      · exact Or.inl hx2
      · rcases List.mem_append.mp hx2 with hx3 | hx3
        · exact Or.inl hx3
        · rcases List.mem_singleton.mp hx3 with rfl
          exact Or.inr ⟨a, List.mem_cons_self _ _, rfl⟩
    · exact Or.inr ⟨it, List.mem_cons_of_mem _ hit, rfl⟩

theorem entriesOf_subset (items : List ItemV2) (x : PyStr)
    (hx : x ∈ V2.entriesOf items) : ∃ it ∈ items, x = it.entry := by
  rw [V2.entriesOf] at hx
  rcases entFold_subset _ rfl items [] x hx with h | h
  · cases h
  · exact h


theorem C1_decode_part (items : List ItemV2) (entries : List PyStr)
    (start_ts : Int) (names : List PyStr) (LI : List (PyStr × Nat))
    (lnames : Option (List PyStr)) (H : List (PyStr × PyStr))
    (hE : V2.ciGet H (strLit "x-reduct-entries") = some (V2.encode_list entries))
    (hS : V2.ciGet H (strLit "x-reduct-start-ts") = some (intDecimal start_ts))
    (hEnc : V2.parse_encoded_list (V2.encode_list entries) = some entries)
    (hEne : entries ≠ [])
    (hL : (match V2.ciGet H (strLit "x-reduct-labels") with
           | some lraw =>
             if lraw = [] then none else V2.parse_encoded_list lraw
           | none => none) = lnames)
    (hcollect : V2.collectHeadersV2 H =
      (V2.emitRecords entries start_ts LI [] items).map
        (fun p => (p.1.1, p.1.2, p.2)))
    (hpwle : ((V2.emitRecords entries start_ts LI [] items).map
      (fun p => (p.1.1, p.1.2, p.2))).Pairwise
        (fun a b => V2.hdrLe a b = true))
    (hTne : (V2.emitRecords entries start_ts LI [] items).map
      (fun p => (p.1.1, p.1.2, p.2)) ≠ [])
    (hgood : ∀ it ∈ items, it.entry ∈ entries ∧
      entries.getD (entries.indexOf it.entry) [] = it.entry ∧
      SafeCT it.content_type ∧ LCanon it.labels ∧
      (∀ kv ∈ it.labels, kv.1 ∈ names ∧ SafeVal kv.2))
    (hlabnone : ∀ P C, LCanon P → LCanon C →
      (∀ kv ∈ P, kv.1 ∈ names ∧ SafeVal kv.2) →
      (∀ kv ∈ C, kv.1 ∈ names ∧ SafeVal kv.2) →
      V2.labels_delta P C LI = none → P = C)
    (hlabsome : ∀ P C lp, LCanon P → LCanon C →
      (∀ kv ∈ P, kv.1 ∈ names ∧ SafeVal kv.2) →
      (∀ kv ∈ C, kv.1 ∈ names ∧ SafeVal kv.2) →
      V2.labels_delta P C LI = some lp →
      lp ≠ [] ∧ V2.apply_label_delta lp P lnames = C) :
    V2.parse_batched_records_v2 H =
      some (items.map (fun it => DecodedRecord.mk it.entry it.timestamp
        (it.size : Int) it.content_type it.labels)) := by
  rw [parse_batched_eq H entries start_ts lnames _ hE hS hEnc hEne hL
    (by rw [hcollect, V2.sortHeaders]
        exact insertionSort_eq_self _ _ hpwle) hTne]
  congr 1
  have hiter : V2.iterRecords entries start_ts lnames
      ((V2.emitRecords entries start_ts LI [] items).map
        (fun p => (p.1.1, p.1.2, p.2))) =
      (((V2.emitRecords entries start_ts LI [] items).map
        (fun p => (p.1.1, p.1.2, p.2))).foldl
        (fun (st : List (Nat × (Int × PyStr × LMap)) × List DecodedRecord) h =>
          if h.1 ≥ entries.length then st
          else
            match V2.parse_record_header_v2 h.2.2 (dictGet st.1 h.1) lnames with
            | none => st
            | some hdr =>
              (dictSet st.1 h.1 hdr,
               st.2 ++ [DecodedRecord.mk (entries.getD h.1 []) (start_ts + h.2.1)
                 hdr.1 hdr.2.1 hdr.2.2])) ([], [])).2 := rfl
  rw [hiter]
  have hsim := iterFold_emit entries start_ts lnames LI (fun k => k ∈ names)
    hlabnone hlabsome items [] [] [] hgood
    (fun idx => Or.inl ⟨rfl, rfl⟩)
  rw [hsim]
  simp


/-! ### C1: batch encode/decode round trip -/

/-- C1 (amended): the v2 batch round trip — `parse_batched_records_v2`
after `make_headers_v2` — reproduces every record's
`(entry, timestamp, contentType, labels, size)` exactly, for batches whose
items are strictly sorted by `(entryIndex, timestamp)`, have nonempty
UTF-8 entry names, nonempty comma-free strip-invariant content types, and
canonical label maps with nonempty UTF-8 keys and nonempty quote-free
strip-invariant values.  The unrestricted claim — arbitrary label maps,
including empty-string values, and arbitrary content types — is refuted
separately. -/
theorem C1_batch_roundtrip (items : List ItemV2) (hne : items ≠ [])
    (hsorted : (items.map (fun it =>
        ((V2.entriesOf items).indexOf it.entry, it.timestamp))).Pairwise
      (fun a b => a.1 < b.1 ∨ (a.1 = b.1 ∧ a.2 < b.2)))
    (hentry : ∀ it ∈ items, it.entry ≠ [] ∧ ∀ c ∈ it.entry, ValidScalar c)
    (hct : ∀ it ∈ items, SafeCT it.content_type)
    (hlab : ∀ it ∈ items, LCanon it.labels ∧
      ∀ kv ∈ it.labels, (kv.1 ≠ [] ∧ ∀ c ∈ kv.1, ValidScalar c) ∧
        SafeVal kv.2) :
    V2.parse_batched_records_v2 (V2.make_headers_v2 items).2 =
      some (items.map (fun it => DecodedRecord.mk it.entry it.timestamp
        (it.size : Int) it.content_type it.labels)) := by
  obtain ⟨entries, hEnt⟩ : ∃ e, e = V2.entriesOf items := ⟨_, rfl⟩
  obtain ⟨start_ts, hTs⟩ : ∃ st, st = V2.minTimestamp items := ⟨_, rfl⟩
  obtain ⟨names, hNm⟩ : ∃ n, n = sortStrs
    (items.flatMap (fun it => it.labels.map (fun kv => kv.1))).dedup := ⟨_, rfl⟩
  obtain ⟨LI, hLI⟩ : ∃ l, l = (names.enum).map (fun p => (p.2, p.1)) := ⟨_, rfl⟩
  rw [← hEnt] at hsorted
  have hkeymem : ∀ it ∈ items, ∀ kv ∈ it.labels, kv.1 ∈ names := by
    intro it hit kv hkv
    rw [hNm, sortStrs]
    refine ((insertionSort_perm _ _).mem_iff).mpr ?_
    refine List.mem_dedup.mpr ?_
    exact List.mem_flatMap.mpr ⟨it, hit, List.mem_map_of_mem _ hkv⟩
  have hnames_good : ∀ x ∈ names, x ≠ [] ∧ ∀ c ∈ x, ValidScalar c := by
    intro x hx
    rw [hNm, sortStrs] at hx
    have hx2 := ((insertionSort_perm _ _).mem_iff).mp hx
    have hx3 := List.mem_dedup.mp hx2
    rcases List.mem_flatMap.mp hx3 with ⟨it, hit, hx4⟩
    rcases List.mem_map.mp hx4 with ⟨kv, hkv, rfl⟩
    exact ((hlab it hit).2 kv hkv).1
  have hkeys := emitRecords_keys entries start_ts LI items []
  have hdpos : ∀ p ∈ V2.emitRecords entries start_ts LI [] items,
      0 ≤ p.1.2 := by
    intro p hp
    have hp1 : p.1 ∈ (V2.emitRecords entries start_ts LI [] items).map
        (fun p => p.1) := List.mem_map_of_mem _ hp
    rw [hkeys] at hp1
    rcases List.mem_map.mp hp1 with ⟨it, hit, heq⟩
    have h2 : p.1.2 = it.timestamp - start_ts := by
      rw [← heq]
    rw [h2, hTs]
    have := minTimestamp_le items it hit
    omega
  have hpwkeys : ((V2.emitRecords entries start_ts LI [] items).map
      (fun p => p.1)).Pairwise
      (fun a b => a.1 < b.1 ∨ (a.1 = b.1 ∧ a.2 < b.2)) := by
    rw [hkeys]
    have h1 := List.pairwise_map.mp hsorted
    refine List.pairwise_map.mpr (h1.imp ?_)
    intro a b hab
    dsimp only at hab ⊢
    rcases hab with h | ⟨h1x, h2x⟩
    · exact Or.inl h
    · exact Or.inr ⟨h1x, by omega⟩
  have hpwn : ((V2.emitRecords entries start_ts LI [] items).map
      (fun p => p.1)).Pairwise
      (fun a b => V2.headerName a.1 a.2 ≠ V2.headerName b.1 b.2) := by
    refine List.Pairwise.imp_of_mem ?_ hpwkeys
    intro a b ha hb hab
    have hda : 0 ≤ a.2 := by
      rcases List.mem_map.mp ha with ⟨p, hp, rfl⟩
      exact hdpos p hp
    have hdb : 0 ≤ b.2 := by
      rcases List.mem_map.mp hb with ⟨p, hp, rfl⟩
      exact hdpos p hp
    apply headerName_inj a.1 b.1 a.2 b.2 hda hdb
    intro heqp
    have h1 : a.1 = b.1 := congrArg Prod.fst heqp
    have h2 : a.2 = b.2 := congrArg Prod.snd heqp
    rcases hab with h | ⟨_, h⟩ <;> omega
  have hpwle : ((V2.emitRecords entries start_ts LI [] items).map
      (fun p => (p.1.1, p.1.2, p.2))).Pairwise
      (fun a b => V2.hdrLe a b = true) := by
    have h1 := List.pairwise_map.mp hpwkeys
    refine List.pairwise_map.mpr (h1.imp ?_)
    intro a b hab
    rw [V2.hdrLe]
    apply decide_eq_true
    dsimp only at hab ⊢
    rcases hab with h | ⟨h1x, h2x⟩
    · exact Or.inl h
    · exact Or.inr ⟨h1x, by omega⟩
  have hgood : ∀ it ∈ items, it.entry ∈ entries ∧
      entries.getD (entries.indexOf it.entry) [] = it.entry ∧
      SafeCT it.content_type ∧ LCanon it.labels ∧
      (∀ kv ∈ it.labels, kv.1 ∈ names ∧ SafeVal kv.2) := by
    intro it hit
    have hm : it.entry ∈ entries := by
      rw [hEnt]
      exact entriesOf_mem items it hit
    exact ⟨hm, getD_indexOf_mem entries it.entry hm, hct it hit,
      (hlab it hit).1,
      fun kv hkv => ⟨hkeymem it hit kv hkv, ((hlab it hit).2 kv hkv).2⟩⟩
  have hlabnone : ∀ P C, LCanon P → LCanon C →
      (∀ kv ∈ P, kv.1 ∈ names ∧ SafeVal kv.2) →
      (∀ kv ∈ C, kv.1 ∈ names ∧ SafeVal kv.2) →
      V2.labels_delta P C LI = none → P = C :=
    fun P C hP hC _ _ hdel => labels_delta_idx_none P C hP hC LI hdel
  have hEncE : V2.parse_encoded_list (V2.encode_list entries) = some entries := by
    refine parse_encoded_list_encode entries (by
      rw [hEnt]
      exact entriesOf_ne_nil items hne) ?_ ?_
    · intro e he c hc
      rw [hEnt] at he
      rcases entriesOf_subset items e he with ⟨it, hit, rfl⟩
      exact (hentry it hit).2 c hc
    · intro e he
      rw [hEnt] at he
      rcases entriesOf_subset items e he with ⟨it, hit, rfl⟩
      exact (hentry it hit).1
  have hEneE : entries ≠ [] := by
    rw [hEnt]
    exact entriesOf_ne_nil items hne
  have hlen : (V2.emitRecords entries start_ts LI [] items).length =
      items.length := by
    have := congrArg List.length hkeys
    simpa using this
  have hTne : (V2.emitRecords entries start_ts LI [] items).map
      (fun p => (p.1.1, p.1.2, p.2)) ≠ [] := by
    intro h0
    have h1 := congrArg List.length h0
    simp only [List.length_map, List.length_nil] at h1
    rw [hlen] at h1
    exact hne (List.length_eq_zero.mp h1)
  have hH := make_headers_v2_shape items hne entries start_ts names LI
    hEnt hTs hNm hLI hdpos hpwn
  have hAmem2 : ∀ kv ∈ (if names = [] then
      [(strLit "x-reduct-entries", V2.encode_list entries),
       (strLit "x-reduct-start-ts", intDecimal start_ts)]
    else
      [(strLit "x-reduct-entries", V2.encode_list entries),
       (strLit "x-reduct-start-ts", intDecimal start_ts),
       (strLit "x-reduct-labels", V2.encode_list names)]),
      V2.recordHeaderKey (pyLower kv.1) = none := by
    intro kv hkv
    by_cases hn : names = []
    · rw [if_pos hn] at hkv
      rcases List.mem_cons.mp hkv with rfl | hkv2
      · exact recordHeaderKey_entries
      · rcases List.mem_singleton.mp hkv2 with rfl
        exact recordHeaderKey_start_ts
    · rw [if_neg hn] at hkv
      rcases List.mem_cons.mp hkv with rfl | hkv2
      · exact recordHeaderKey_entries
      · rcases List.mem_cons.mp hkv2 with rfl | hkv3
        · exact recordHeaderKey_start_ts
        · rcases List.mem_singleton.mp hkv3 with rfl
          exact recordHeaderKey_labels
  have hcollect : V2.collectHeadersV2 ((if names = [] then
      [(strLit "x-reduct-entries", V2.encode_list entries),
       (strLit "x-reduct-start-ts", intDecimal start_ts)]
    else
      [(strLit "x-reduct-entries", V2.encode_list entries),
       (strLit "x-reduct-start-ts", intDecimal start_ts),
       (strLit "x-reduct-labels", V2.encode_list names)]) ++
      (V2.emitRecords entries start_ts LI [] items).map
        (fun p => (V2.headerName p.1.1 p.1.2, p.2)) ++
      [(strLit "Content-Type", strLit "application/octet-stream")]) =
      (V2.emitRecords entries start_ts LI [] items).map
        (fun p => (p.1.1, p.1.2, p.2)) := by
    refine collectHeadersV2_shape _ _ _ hAmem2 ?_ hdpos
    intro nv hnv
    rcases List.mem_singleton.mp hnv with rfl
    exact recordHeaderKey_content_type
  rw [hH]
  by_cases hn : names = []
  · rw [if_pos hn] at hcollect ⊢
    have hcons : ([(strLit "x-reduct-entries", V2.encode_list entries),
        (strLit "x-reduct-start-ts", intDecimal start_ts)] ++
        (V2.emitRecords entries start_ts LI [] items).map
          (fun p => (V2.headerName p.1.1 p.1.2, p.2)) ++
        [(strLit "Content-Type", strLit "application/octet-stream")]) =
        (strLit "x-reduct-entries", V2.encode_list entries) ::
        (strLit "x-reduct-start-ts", intDecimal start_ts) ::
        ((V2.emitRecords entries start_ts LI [] items).map
          (fun p => (V2.headerName p.1.1 p.1.2, p.2)) ++
        [(strLit "Content-Type", strLit "application/octet-stream")]) := by
      simp
    have hE : V2.ciGet ((strLit "x-reduct-entries", V2.encode_list entries) ::
        (strLit "x-reduct-start-ts", intDecimal start_ts) ::
        ((V2.emitRecords entries start_ts LI [] items).map
          (fun p => (V2.headerName p.1.1 p.1.2, p.2)) ++
        [(strLit "Content-Type", strLit "application/octet-stream")]))
        (strLit "x-reduct-entries") = some (V2.encode_list entries) :=
      ciGet_cons_hit _ _ _ (show (pyLower (strLit "x-reduct-entries") == strLit "x-reduct-entries") = true by decide)
    have hS : V2.ciGet ((strLit "x-reduct-entries", V2.encode_list entries) ::
        (strLit "x-reduct-start-ts", intDecimal start_ts) ::
        ((V2.emitRecords entries start_ts LI [] items).map
          (fun p => (V2.headerName p.1.1 p.1.2, p.2)) ++
        [(strLit "Content-Type", strLit "application/octet-stream")]))
        (strLit "x-reduct-start-ts") = some (intDecimal start_ts) := by
      rw [ciGet_cons_skip _ _ _ (show (pyLower (strLit "x-reduct-entries") == strLit "x-reduct-start-ts") = false by decide)]
      exact ciGet_cons_hit _ _ _ (show (pyLower (strLit "x-reduct-start-ts") == strLit "x-reduct-start-ts") = true by decide)
    have hLbl : V2.ciGet ((strLit "x-reduct-entries", V2.encode_list entries) ::
        (strLit "x-reduct-start-ts", intDecimal start_ts) ::
        ((V2.emitRecords entries start_ts LI [] items).map
          (fun p => (V2.headerName p.1.1 p.1.2, p.2)) ++
        [(strLit "Content-Type", strLit "application/octet-stream")]))
        (strLit "x-reduct-labels") = none := by
      rw [ciGet_cons_skip _ _ _ (show (pyLower (strLit "x-reduct-entries") == strLit "x-reduct-labels") = false by decide),
        ciGet_cons_skip _ _ _ (show (pyLower (strLit "x-reduct-start-ts") == strLit "x-reduct-labels") = false by decide)]
      refine ciGet_none _ _ ?_
      intro kv hkv
      rcases List.mem_append.mp hkv with hkv | hkv
      · rcases List.mem_map.mp hkv with ⟨p, hp, rfl⟩
        dsimp only
        rw [pyLower_headerName]
        have := (name_ne_headerName (strLit "x-reduct-labels")
          recordHeaderKey_labels p.1.1 p.1.2 (hdpos p hp)).symm
        simpa using this
      · rcases List.mem_singleton.mp hkv with rfl
        decide
    rw [hcons]
    refine C1_decode_part items entries start_ts names LI none _
      hE hS hEncE hEneE (by rw [hLbl]) ?_ hpwle hTne hgood hlabnone ?_
    · rw [← hcons]
      exact hcollect
    · intro P C lp hP hC hPp hCp hdel
      exfalso
      have hP0 : P = [] := by
        rw [List.eq_nil_iff_forall_not_mem]
        intro kv hkv
        have := (hPp kv hkv).1
        rw [hn] at this
        cases this
      have hC0 : C = [] := by
        rw [List.eq_nil_iff_forall_not_mem]
        intro kv hkv
        have := (hCp kv hkv).1
        rw [hn] at this
        cases this
      rw [hP0, hC0, labels_delta_eq] at hdel
      rw [if_pos (show V2.deltaOps [] [] = [] from rfl)] at hdel
      cases hdel
  · rw [if_neg hn] at hcollect ⊢
    have hlVne : V2.encode_list names ≠ [] := by
      rw [V2.encode_list]
      apply intercalate44_ne_nil
      · simpa using hn
      · intro x hx
        rcases List.mem_map.mp hx with ⟨e, he, rfl⟩
        exact pyQuote_ne_nil e (hnames_good e he).1
    have hEncN : V2.parse_encoded_list (V2.encode_list names) = some names := by
      refine parse_encoded_list_encode names hn ?_ ?_
      · intro e he c hc
        exact (hnames_good e he).2 c hc
      · intro e he
        exact (hnames_good e he).1
    have hcons : ([(strLit "x-reduct-entries", V2.encode_list entries),
        (strLit "x-reduct-start-ts", intDecimal start_ts),
        (strLit "x-reduct-labels", V2.encode_list names)] ++
        (V2.emitRecords entries start_ts LI [] items).map
          (fun p => (V2.headerName p.1.1 p.1.2, p.2)) ++
        [(strLit "Content-Type", strLit "application/octet-stream")]) =
        (strLit "x-reduct-entries", V2.encode_list entries) ::
        (strLit "x-reduct-start-ts", intDecimal start_ts) ::
        (strLit "x-reduct-labels", V2.encode_list names) ::
        ((V2.emitRecords entries start_ts LI [] items).map
          (fun p => (V2.headerName p.1.1 p.1.2, p.2)) ++
        [(strLit "Content-Type", strLit "application/octet-stream")]) := by
      simp
    have hE : V2.ciGet ((strLit "x-reduct-entries", V2.encode_list entries) ::
        (strLit "x-reduct-start-ts", intDecimal start_ts) ::
        (strLit "x-reduct-labels", V2.encode_list names) ::
        ((V2.emitRecords entries start_ts LI [] items).map
          (fun p => (V2.headerName p.1.1 p.1.2, p.2)) ++
        [(strLit "Content-Type", strLit "application/octet-stream")]))
        (strLit "x-reduct-entries") = some (V2.encode_list entries) :=
      ciGet_cons_hit _ _ _ (show (pyLower (strLit "x-reduct-entries") == strLit "x-reduct-entries") = true by decide)
    have hS : V2.ciGet ((strLit "x-reduct-entries", V2.encode_list entries) ::
        (strLit "x-reduct-start-ts", intDecimal start_ts) ::
        (strLit "x-reduct-labels", V2.encode_list names) ::
        ((V2.emitRecords entries start_ts LI [] items).map
          (fun p => (V2.headerName p.1.1 p.1.2, p.2)) ++
        [(strLit "Content-Type", strLit "application/octet-stream")]))
        (strLit "x-reduct-start-ts") = some (intDecimal start_ts) := by
      rw [ciGet_cons_skip _ _ _ (show (pyLower (strLit "x-reduct-entries") == strLit "x-reduct-start-ts") = false by decide)]
      exact ciGet_cons_hit _ _ _ (show (pyLower (strLit "x-reduct-start-ts") == strLit "x-reduct-start-ts") = true by decide)
    have hLbl : V2.ciGet ((strLit "x-reduct-entries", V2.encode_list entries) ::
        (strLit "x-reduct-start-ts", intDecimal start_ts) ::
        (strLit "x-reduct-labels", V2.encode_list names) ::
        ((V2.emitRecords entries start_ts LI [] items).map
          (fun p => (V2.headerName p.1.1 p.1.2, p.2)) ++
        [(strLit "Content-Type", strLit "application/octet-stream")]))
        (strLit "x-reduct-labels") = some (V2.encode_list names) := by
      rw [ciGet_cons_skip _ _ _ (show (pyLower (strLit "x-reduct-entries") == strLit "x-reduct-labels") = false by decide),
        ciGet_cons_skip _ _ _ (show (pyLower (strLit "x-reduct-start-ts") == strLit "x-reduct-labels") = false by decide)]
      exact ciGet_cons_hit _ _ _ (show (pyLower (strLit "x-reduct-labels") == strLit "x-reduct-labels") = true by decide)
    rw [hcons]
    refine C1_decode_part items entries start_ts names LI (some names) _
      hE hS hEncE hEneE ?_ ?_ hpwle hTne hgood hlabnone ?_
    · rw [hLbl]
      dsimp only
      rw [if_neg hlVne, hEncN]
    · rw [← hcons]
      exact hcollect
    · intro P C lp hP hC hPp hCp hdel
      rw [hLI] at hdel
      refine apply_labels_delta_idx names P C hP hC ?_ ?_ lp hdel
      · intro op hop
        rcases deltaOps_mem_char P C op hop with
          ⟨kv, hkv, _, rfl⟩ | ⟨kv, hkv, _, rfl⟩
        · exact (hCp kv hkv).1
        · exact (hPp kv hkv).1
      · intro op hop v hv
        rcases deltaOps_mem_char P C op hop with
          ⟨kv, hkv, _, rfl⟩ | ⟨kv, hkv, _, rfl⟩
        · cases hv
          exact (hCp kv hkv).2
        · cases hv


theorem C1_batch_roundtrip_witness :
    V2.parse_batched_records_v2 (V2.make_headers_v2
      [ItemV2.mk (strLit "a") 1000 5 (strLit "text/plain")
        [(strLit "k", strLit "v")],
       ItemV2.mk (strLit "a") 2000 7 (strLit "text/plain") [],
       ItemV2.mk (strLit "b") 1500 3 (strLit "application/json")
        [(strLit "k", strLit "w")]]).2 =
      some [DecodedRecord.mk (strLit "a") 1000 5 (strLit "text/plain")
        [(strLit "k", strLit "v")],
       DecodedRecord.mk (strLit "a") 2000 7 (strLit "text/plain") [],
       DecodedRecord.mk (strLit "b") 1500 3 (strLit "application/json")
        [(strLit "k", strLit "w")]] :=
  C1_batch_roundtrip
    [ItemV2.mk (strLit "a") 1000 5 (strLit "text/plain")
      [(strLit "k", strLit "v")],
     ItemV2.mk (strLit "a") 2000 7 (strLit "text/plain") [],
     ItemV2.mk (strLit "b") 1500 3 (strLit "application/json")
      [(strLit "k", strLit "w")]]
    (by decide) (by decide) (by decide)
    (by unfold SafeCT; decide)
    (by unfold LCanon SafeVal; decide)

/-- C1 counterexample: a record with the empty content type does not round
trip through the v2 pipeline — the decoder substitutes the default
`application/octet-stream`. -/
theorem C1_counterexample :
    V2.parse_batched_records_v2 (V2.make_headers_v2
      [ItemV2.mk (strLit "a") 0 1 [] []]).2 =
      some [DecodedRecord.mk (strLit "a") 0 1
        (strLit "application/octet-stream") []] ∧
    [DecodedRecord.mk (strLit "a") 0 1
        (strLit "application/octet-stream") []] ≠
      [ItemV2.mk (strLit "a") 0 1 [] []].map
        (fun it => DecodedRecord.mk it.entry it.timestamp (it.size : Int)
          it.content_type it.labels) :=
  ⟨rfl, by decide⟩

end Reduct
